import Mathlib

/-!
# Verification of the tree-layout engine of `web-visualization`

A shallow embedding of `src/App.tsx`: the tree builder (`createFileDatas`
lines 56–96), sibling ordering (lines 98–122), column-width / x-offset
computation (lines 124–145), recursive vertical stacking (`setFilePos`,
lines 147–166) and connector-routing geometry (`File`, lines 210–229).

Modelling conventions:
* JavaScript strings are Lean `String`s; `split('/')` and `join('/')` are
  modelled by executable char-list functions `splitOnChar`/`joinChar`
  (JS semantics: `"".split('/') = [""]`, empty segments preserved);
  the JS `<` comparison on strings is modelled by lexicographic
  comparison `strLt` on the character lists.
* The JS `Map<string, FileData>` (insertion-ordered, mutable nodes) is
  modelled as an insertion-ordered list of immutable records, updated by
  key (`updateNode`); node references (`parent`, `children`) are stored
  as `path` keys, the map's identity key.
* `Array.prototype.toSorted` (a stable comparator sort) is modelled by
  the stable insertion sort `sortBy` with `le a b ↔ cmp a b ≤ 0`.
* Pixel quantities (text measurements, coordinates) are rationals; the
  text-measurement oracle is an arbitrary parameter `measure : String → ℚ`.
* The unbounded recursion of `setFilePos` is modelled with explicit fuel
  `m.length` (an upper bound on the depth of any parent chain, since the
  nodes of a chain have pairwise distinct paths).
-/

namespace WebViz

/-! ## Character-list string operations (JS `split` / `join` / `<`) -/

/-- Models JS `s.split(sep)` for a one-character separator, on the
character list: every occurrence of `c` separates pieces, empty pieces
are kept, and the empty string yields `[[]]`. -/
def splitOnChar (c : Char) : List Char → List (List Char)
  | [] => [[]]
  | a :: as =>
    if a = c then [] :: splitOnChar c as
    else
      match splitOnChar c as with
      | [] => [[a]]
      | s :: ss => (a :: s) :: ss

/-- Models JS `array.join(sep)` for a one-character separator, on
character lists. -/
def joinChar (c : Char) : List (List Char) → List Char
  | [] => []
  | [s] => s
  | s :: s' :: ss => s ++ c :: joinChar c (s' :: ss)

/-- JS `filePath.split('/')` (App.tsx line 60). -/
def jsSplit (s : String) : List String := (splitOnChar '/' s.data).map String.mk

/-- JS `segments.join('/')` (App.tsx line 68). -/
def jsJoin (l : List String) : String := String.mk (joinChar '/' (l.map String.data))

/-- Lexicographic strict comparison of character lists, by code point:
the model of the JS `<` operator on strings. -/
def lexLt : List Char → List Char → Bool
  | [], [] => false
  | [], _ :: _ => true
  | _ :: _, [] => false
  | a :: as, b :: bs => if a < b then true else if b < a then false else lexLt as bs

/-- The JS string comparison `a < b` (App.tsx line 117). -/
def strLt (a b : String) : Bool := lexLt a.data b.data

/-! ## Stable comparator sort (JS `Array.prototype.toSorted`) -/

/-- Insert `x` into `l` before the first element `y` with `¬ le x y`.
Used with `le a b ↔ cmp a b ≤ 0`; `sortBy` below is then the stable
sort that models `toSorted(cmp)`. -/
def insertSorted (le : α → α → Bool) (x : α) : List α → List α
  | [] => [x]
  | y :: ys => if le x y then x :: y :: ys else y :: insertSorted le x ys

/-- Stable insertion sort: later elements are inserted first, so an
earlier element is placed in front of the equal later ones, as a stable
comparator sort requires. -/
def sortBy (le : α → α → Bool) : List α → List α
  | [] => []
  | x :: xs => insertSorted le x (sortBy le xs)

/-! ## Data model (App.tsx lines 7–26) -/

/-- `FileType` (App.tsx lines 7–11): `Js` is the leaf kind. -/
inductive FileType
  | Unknown
  | Dir
  | Js
deriving DecidableEq, Repr

/-- `FileData` (App.tsx lines 13–26).  `parent` and `children` hold the
`path` keys of the referenced nodes (the map's identity key). -/
structure FileData where
  parent : Option String := none
  children : List String := []
  type : FileType
  path : String
  base : String
  level : Nat
  seq : Nat
  x : ℚ
  y : ℚ
deriving DecidableEq, Repr

/-- The `Map<string, FileData>`: insertion-ordered association by `path`. -/
abbrev FilesMap := List FileData

/-- `filesMap.get(path)`. -/
def findNode (m : FilesMap) (p : String) : Option FileData :=
  m.find? (fun d => d.path == p)

/-- Mutation of the node stored at key `p`. -/
def updateNode (m : FilesMap) (p : String) (f : FileData → FileData) : FilesMap :=
  m.map (fun d => if d.path == p then f d else d)

/-! ## Tree builder (App.tsx lines 56–96) -/

/-- One step of the `paths.map` node-creation pass (App.tsx lines 67–87):
fetch the node at `path` or create it (with the type/base/level of this
occurrence) and append it to the map. -/
def insertNode (m : FilesMap) (ty : FileType) (path base : String) (level : Nat) : FilesMap :=
  match findNode m path with
  | some _ => m
  | none => m ++ [{ parent := none, children := [], type := ty, path := path,
                    base := base, level := level, seq := 0, x := 0, y := 0 }]

/-- One step of the linking loop (App.tsx lines 90–95):
`files[i].parent = files[i-1]` and push `files[i]` onto
`files[i-1].children` if not already present. -/
def linkNodes (m : FilesMap) (parentPath childPath : String) : FilesMap :=
  let m₁ := updateNode m childPath (fun d => { d with parent := some parentPath })
  updateNode m₁ parentPath (fun d =>
    if childPath ∈ d.children then d else { d with children := d.children ++ [childPath] })

/-- `paths.slice(0, i + 1).join('/')` (App.tsx line 68). -/
def prefixPath (segs : List String) (i : Nat) : String := jsJoin (segs.take (i + 1))

/-- Processing of one input path (App.tsx lines 59–96): create the node
of every prefix, then link consecutive prefixes. -/
def addPath (m : FilesMap) (filePath : String) : FilesMap :=
  let segs := jsSplit filePath
  let n := segs.length
  let m₁ := (List.range n).foldl (fun m i =>
    insertNode m (if i = n - 1 then FileType.Js else FileType.Dir)
      (prefixPath segs i) (segs.getD i "") i) m
  (List.range (n - 1)).foldl (fun m i => linkNodes m (prefixPath segs i) (prefixPath segs (i + 1))) m₁

/-- The whole `filePaths.forEach` build pass (App.tsx lines 59–96). -/
def buildMap (filePaths : List String) : FilesMap := filePaths.foldl addPath []

/-! ## Sibling ordering (App.tsx lines 98–122) -/

/-- The sibling comparator (App.tsx lines 107–118), with the early
returns linearized: Dir before any other kind, otherwise by `base`
under JS `<` (never returns 0). -/
def childCmp (a b : FileData) : Int :=
  if a.type ≠ b.type ∧ a.type = FileType.Dir then -1
  else if a.type ≠ b.type ∧ b.type = FileType.Dir then 1
  else if strLt a.base b.base then -1 else 1

/-- `childCmp a b ≤ 0`: `a` sorts before (or with) `b`. -/
def childLe (a b : FileData) : Bool := childCmp a b ≤ 0

/-- One step of the `seq`-assignment pass (App.tsx lines 101–122) for
one node of the snapshot: a root takes the running root counter, then
the node's children are sorted with `childCmp` and receive their sorted
index as `seq`. -/
def assignSeqStep (st : FilesMap × Nat) (node : FileData) : FilesMap × Nat :=
  let m := st.1
  let rootSeq := st.2
  let next : FilesMap × Nat :=
    if node.level = 0 then
      (updateNode m node.path (fun d => { d with seq := rootSeq }), rootSeq + 1)
    else (m, rootSeq)
  let kids := node.children.filterMap (findNode next.1)
  let sorted := sortBy childLe kids
  ((sorted.enum).foldl (fun m p => updateNode m p.2.path (fun d => { d with seq := p.1 })) next.1,
    next.2)

/-- The `seq`-assignment pass (App.tsx lines 98–122), iterating over the
snapshot `[...filesMap.values()]`. -/
def assignSeqs (m : FilesMap) : FilesMap := (m.foldl assignSeqStep (m, 0)).1

/-! ## Column widths and x-offsets (App.tsx lines 124–145) -/

/-- The width-pass comparator (App.tsx lines 127–132): by `level`
ascending, then by children count descending; `≤ 0` form. -/
def levelCmp (a b : FileData) : Int :=
  if a.level ≠ b.level then (a.level : Int) - (b.level : Int)
  else (b.children.length : Int) - (a.children.length : Int)

/-- `levelCmp a b ≤ 0`. -/
def levelLe (a b : FileData) : Bool := levelCmp a b ≤ 0

/-- One step of the width fold (App.tsx lines 133–137) on the sparse
array `levelOffset` (modelled as `Nat → Option ℚ`): the JS guard
`!levelOffset[file.level] || file.children.length > 0` is "the current
entry is absent or 0, or the node has a child". -/
def widthStep (measure : String → ℚ) (w : Nat → Option ℚ) (file : FileData) : Nat → Option ℚ :=
  if (w file.level).getD 0 = 0 ∨ file.children ≠ [] then
    fun l => if l = file.level then
        some (max ((w file.level).getD 0) (measure file.base + 40))
      else w l
  else w

/-- Largest `level` present (0 for the empty map). -/
def maxLevel (m : FilesMap) : Nat := m.foldl (fun acc d => max acc d.level) 0

/-- Length of the JS `levelOffset` array after the width pass: the
levels present in the map are exactly `0 … maxLevel` (every prefix of a
path is a node), so the array is dense with this length. -/
def numLevels (m : FilesMap) : Nat := if m.isEmpty then 0 else maxLevel m + 1

/-- The `levelOffset` array right after the width pass (App.tsx lines
125–137), read back as a dense list. -/
def rawWidths (measure : String → ℚ) (m : FilesMap) : List ℚ :=
  let w := (sortBy levelLe m).foldl (widthStep measure) (fun _ => none)
  (List.range (numLevels m)).map (fun l => (w l).getD 0)

/-- The in-place prefix-sum loop (App.tsx lines 139–141):
`a[i] = a[i-1] + a[i]` turns the list into its running totals. -/
def runningSums (acc : ℚ) : List ℚ → List ℚ
  | [] => []
  | w :: ws => (acc + w) :: runningSums (acc + w) ws

/-- App.tsx lines 138–145: drop the deepest level's width (`pop`), take
running totals, add the accumulated gaps `(i+1) * 60`, and prepend the
offset 0 (`unshift`). -/
def levelOffsets (measure : String → ℚ) (m : FilesMap) : List ℚ :=
  let ws := (rawWidths measure m).dropLast
  let sums := runningSums 0 ws
  let gapped := sums.mapIdx (fun i v => v + ((i : ℚ) + 1) * 60)
  0 :: gapped

/-! ## Recursive vertical stacking (App.tsx lines 147–166) -/

/-- The in-recursion comparator `(a, b) => a.seq - b.seq`, `≤ 0` form. -/
def seqLe (a b : FileData) : Bool := a.seq ≤ b.seq

/-- `setFilePos` (App.tsx lines 147–159), with fuel for the recursion:
place the node at `offsets[level]` and at `baseY`, pushed one row
(32 + 16) down unless it is the first of its sibling group
(`Math.min(1, seq)`); then recurse into the children sorted by `seq`,
threading the last placed descendant's `y`, which is also returned. -/
def setFilePos (offsets : List ℚ) : Nat → FilesMap → String → ℚ → FilesMap × ℚ
  | 0, m, _, baseY => (m, baseY)
  | fuel + 1, m, p, baseY =>
    match findNode m p with
    | none => (m, baseY)
    | some d =>
      let y := baseY + min (1 : ℚ) (d.seq : ℚ) * (32 + 16)
      let m₁ := updateNode m p (fun e => { e with x := offsets.getD d.level 0, y := y })
      let kids := d.children.filterMap (findNode m₁)
      (sortBy seqLe kids).foldl (fun st c => setFilePos offsets fuel st.1 c.path st.2) (m₁, y)

/-- The root loop (App.tsx lines 161–166): the level-0 nodes sorted by
`seq`, threading the last placed node's `y` (`lastChild ? lastChild.y : 0`). -/
def layout (offsets : List ℚ) (m : FilesMap) : FilesMap :=
  let fuel := m.length
  let roots := sortBy seqLe (m.filter (fun d => d.level == 0))
  (roots.foldl (fun (st : FilesMap × Option ℚ) r =>
      let res := setFilePos offsets fuel st.1 r.path (st.2.getD 0)
      (res.1, some res.2)) (m, none)).1

/-- `createFileDatas` (App.tsx lines 56–172): build, order, measure,
place. -/
def createFileDatas (measure : String → ℚ) (filePaths : List String) : FilesMap × List ℚ :=
  let m₁ := buildMap filePaths
  let m₂ := assignSeqs m₁
  let offsets := levelOffsets measure m₂
  (layout offsets m₂, offsets)

/-! ## Connector routing (App.tsx lines 210–229) -/

/-- One SVG path command of the connector route. -/
inductive PathCmd
  | move (x y : ℚ)
  | line (x y : ℚ)
deriving DecidableEq, Repr

/-- `Math.max(...)` over a non-empty spread. -/
def listMax : ℚ → List ℚ → ℚ
  | x, [] => x
  | x, y :: ys => listMax (max x y) ys

/-- The connector geometry emitted for a node (App.tsx lines 210–228):
from the parent's right edge (x + measured width + 40, plus a 5-unit
lead) to the trunk `mid`, down the trunk to the lowest child's row
center, then one horizontal stub per child (in stored children order). -/
def connector (measure : String → ℚ) (d : FileData) (kids : List FileData) : List PathCmd :=
  match kids with
  | [] => []
  | k0 :: rest =>
    let x0 := d.x + measure d.base + 40 + 5
    let y0 := d.y + 16
    let x1 := k0.x - 5
    let y1 := listMax k0.y (rest.map (fun c => c.y)) + 16
    let mid := (x0 + x1) / 2
    [PathCmd.move x0 y0, PathCmd.line mid y0, PathCmd.line mid y1]
      ++ (k0 :: rest).flatMap (fun c => [PathCmd.move mid (c.y + 16), PathCmd.line x1 (c.y + 16)])

/-- The connector of the node stored at `p`, children resolved in the
map. -/
def connectorOf (measure : String → ℚ) (m : FilesMap) (p : String) : List PathCmd :=
  match findNode m p with
  | none => []
  | some d => connector measure d (d.children.filterMap (findNode m))

/-! ## Utility lemmas: `splitOnChar`, `joinChar`, `lexLt`, `sortBy` -/

theorem splitOnChar_ne_nil (c : Char) (l : List Char) : splitOnChar c l ≠ [] := by
  induction l with
  | nil => simp [splitOnChar]
  | cons a as ih =>
    simp only [splitOnChar]
    split
    · simp
    · cases h : splitOnChar c as <;> simp

theorem not_mem_of_mem_splitOnChar {c : Char} {l p : List Char}
    (hp : p ∈ splitOnChar c l) : c ∉ p := by
  induction l generalizing p with
  | nil =>
    simp only [splitOnChar, List.mem_singleton] at hp
    subst hp; simp
  | cons a as ih =>
    simp only [splitOnChar] at hp
    split at hp
    · rcases List.mem_cons.1 hp with h | h
      · subst h; simp
      · exact ih h
    · rename_i hac
      rcases hsp : splitOnChar c as with _ | ⟨s, ss⟩
      · exact absurd hsp (splitOnChar_ne_nil c as)
      · rw [hsp] at hp
        rcases List.mem_cons.1 hp with h | h
        · subst h
          intro hmem
          rcases List.mem_cons.1 hmem with h' | h'
          · exact hac h'.symm
          · exact ih (hsp ▸ List.mem_cons_self s ss) h'
        · exact ih (hsp ▸ List.mem_cons_of_mem s h)

theorem joinChar_append_single (c : Char) (ss : List (List Char)) (s : List Char)
    (h : ss ≠ []) : joinChar c (ss ++ [s]) = joinChar c ss ++ c :: s := by
  induction ss with
  | nil => exact absurd rfl h
  | cons t ts ih =>
    cases ts with
    | nil => simp [joinChar]
    | cons t' ts' =>
      have : joinChar c ((t :: t' :: ts') ++ [s]) = t ++ c :: joinChar c ((t' :: ts') ++ [s]) := rfl
      rw [this, ih (by simp), joinChar]
      simp

/-- The first separator occurrence splits a list uniquely. -/
theorem append_sep_inj_left {c : Char} :
    ∀ {x : List Char} {y u v : List Char}, c ∉ x → c ∉ y →
      x ++ c :: u = y ++ c :: v → x = y ∧ u = v := by
  intro x
  induction x with
  | nil =>
    intro y u v _ hy h
    cases y with
    | nil => simpa using h
    | cons e y' =>
      simp only [List.nil_append, List.cons_append, List.cons.injEq] at h
      exact absurd (h.1 ▸ List.mem_cons_self e y') hy
  | cons d x' ih =>
    intro y u v hx hy h
    cases y with
    | nil =>
      simp only [List.cons_append, List.nil_append, List.cons.injEq] at h
      exact absurd (h.1 ▸ List.mem_cons_self d x') hx
    | cons e y' =>
      simp only [List.cons_append, List.cons.injEq] at h
      have hx' : c ∉ x' := fun hm => hx (List.mem_cons_of_mem d hm)
      have hy' : c ∉ y' := fun hm => hy (List.mem_cons_of_mem e hm)
      obtain ⟨h1, h2⟩ := ih hx' hy' h.2
      exact ⟨by rw [h.1, h1], h2⟩

/-- The last separator occurrence splits a list uniquely. -/
theorem append_sep_inj_right {c : Char} {x y u v : List Char} (hu : c ∉ u) (hv : c ∉ v)
    (h : x ++ c :: u = y ++ c :: v) : x = y ∧ u = v := by
  have h' : u.reverse ++ c :: x.reverse = v.reverse ++ c :: y.reverse := by
    have := congrArg List.reverse h
    simpa [List.reverse_append] using this
  have hu' : c ∉ u.reverse := by simpa using hu
  have hv' : c ∉ v.reverse := by simpa using hv
  obtain ⟨h1, h2⟩ := append_sep_inj_left hu' hv' h'
  constructor
  · have := congrArg List.reverse h2
    simpa using this
  · have := congrArg List.reverse h1
    simpa using this

/-- `joinChar` is injective on non-empty lists of separator-free pieces. -/
theorem joinChar_inj {c : Char} :
    ∀ {ps qs : List (List Char)}, ps ≠ [] → qs ≠ [] →
      (∀ s ∈ ps, c ∉ s) → (∀ s ∈ qs, c ∉ s) →
      joinChar c ps = joinChar c qs → ps = qs := by
  intro ps
  induction ps with
  | nil => intro qs h; exact absurd rfl h
  | cons p ps' ih =>
    intro qs _ hqs hfp hfq h
    cases qs with
    | nil => exact absurd rfl hqs
    | cons q qs' =>
      cases ps' with
      | nil =>
        cases qs' with
        | nil => simpa [joinChar] using h
        | cons q' qs'' =>
          exfalso
          have hj : p = q ++ c :: joinChar c (q' :: qs'') := h
          have : c ∈ p := by
            rw [hj]
            exact List.mem_append_right q (List.mem_cons_self c _)
          exact hfp p (List.mem_cons_self p _) this
      | cons p' ps'' =>
        cases qs' with
        | nil =>
          exfalso
          have hj : p ++ c :: joinChar c (p' :: ps'') = q := h
          have : c ∈ q := by
            rw [← hj]
            exact List.mem_append_right p (List.mem_cons_self c _)
          exact hfq q (List.mem_cons_self q _) this
        | cons q' qs'' =>
          have hj : p ++ c :: joinChar c (p' :: ps'') = q ++ c :: joinChar c (q' :: qs'') := h
          have hp : c ∉ p := hfp p (List.mem_cons_self p _)
          have hq : c ∉ q := hfq q (List.mem_cons_self q _)
          obtain ⟨h1, h2⟩ := append_sep_inj_left hp hq hj
          have := ih (by simp) (by simp)
            (fun s hs => hfp s (List.mem_cons_of_mem p hs))
            (fun s hs => hfq s (List.mem_cons_of_mem q hs)) h2
          rw [h1, this]

/-! ### `lexLt` is a strict linear order -/

theorem lexLt_irrefl : ∀ l : List Char, lexLt l l = false := by
  intro l
  induction l with
  | nil => rfl
  | cons a as ih => simp [lexLt, ih]

theorem lexLt_trans : ∀ {a b c : List Char},
    lexLt a b = true → lexLt b c = true → lexLt a c = true := by
  intro a
  induction a with
  | nil =>
    intro b c hab hbc
    cases b with
    | nil => exact absurd hab (by simp [lexLt])
    | cons y ys =>
      cases c with
      | nil => exact absurd hbc (by simp [lexLt])
      | cons z zs => simp [lexLt]
  | cons x xs ih =>
    intro b c hab hbc
    cases b with
    | nil => exact absurd hab (by simp [lexLt])
    | cons y ys =>
      cases c with
      | nil => exact absurd hbc (by simp [lexLt])
      | cons z zs =>
        simp only [lexLt] at hab hbc ⊢
        split at hab
        · rename_i hxy
          split at hbc
          · rename_i hyz
            simp [lt_trans hxy hyz]
          · split at hbc
            · exact absurd hbc (by simp)
            · rename_i h1 h2
              have hyz : y = z := le_antisymm (not_lt.1 h2) (not_lt.1 h1)
              subst hyz
              simp [hxy]
        · split at hab
          · exact absurd hab (by simp)
          · rename_i h1 h2
            have hxy : x = y := le_antisymm (not_lt.1 h2) (not_lt.1 h1)
            subst hxy
            split at hbc
            · rename_i hxz; simp [hxz]
            · split at hbc
              · exact absurd hbc (by simp)
              · rename_i h3 h4
                have hxz : x = z := le_antisymm (not_lt.1 h4) (not_lt.1 h3)
                subst hxz
                simp only [lt_irrefl, if_false]
                exact ih hab hbc

theorem lexLt_total_of_ne : ∀ {a b : List Char}, a ≠ b →
    lexLt a b = true ∨ lexLt b a = true := by
  intro a
  induction a with
  | nil =>
    intro b hne
    cases b with
    | nil => exact absurd rfl hne
    | cons y ys => left; simp [lexLt]
  | cons x xs ih =>
    intro b hne
    cases b with
    | nil => right; simp [lexLt]
    | cons y ys =>
      rcases lt_trichotomy x y with h | h | h
      · left; simp [lexLt, h]
      · subst h
        have hne' : xs ≠ ys := fun he => hne (by rw [he])
        rcases ih hne' with h' | h'
        · left; simp [lexLt, h']
        · right; simp [lexLt, h']
      · right; simp [lexLt, h]

theorem lexLt_asymm {a b : List Char} (h : lexLt a b = true) : lexLt b a = false := by
  by_contra hb
  have hb' : lexLt b a = true := by
    cases hba : lexLt b a
    · exact absurd hba hb
    · rfl
  have := lexLt_trans h hb'
  rw [lexLt_irrefl] at this
  exact Bool.false_ne_true this

/-! ### `sortBy` is a sorting function -/

theorem insertSorted_perm (le : α → α → Bool) (x : α) (l : List α) :
    (insertSorted le x l).Perm (x :: l) := by
  induction l with
  | nil => simp [insertSorted]
  | cons y ys ih =>
    simp only [insertSorted]
    split
    · exact List.Perm.refl _
    · exact (ih.cons y).trans (List.Perm.swap x y ys)

theorem sortBy_perm (le : α → α → Bool) (l : List α) : (sortBy le l).Perm l := by
  induction l with
  | nil => simp [sortBy]
  | cons x xs ih => exact (insertSorted_perm le x (sortBy le xs)).trans (ih.cons x)

theorem mem_sortBy {le : α → α → Bool} {l : List α} {a : α} :
    a ∈ sortBy le l ↔ a ∈ l :=
  (sortBy_perm le l).mem_iff

theorem insertSorted_pairwise {le : α → α → Bool} {x : α} {l : List α}
    (hl : List.Pairwise (fun a b => le a b = true) l)
    (hx : ∀ b ∈ l, le x b = true ∨ le b x = true)
    (htr : ∀ a ∈ l, ∀ b ∈ l, le x a = true → le a b = true → le x b = true) :
    List.Pairwise (fun a b => le a b = true) (insertSorted le x l) := by
  induction l with
  | nil => simp [insertSorted]
  | cons y ys ih =>
    simp only [insertSorted]
    split
    · rename_i hxy
      refine List.Pairwise.cons ?_ hl
      intro b hb
      rcases List.mem_cons.1 hb with h | h
      · subst h; exact hxy
      · exact htr y (List.mem_cons_self y ys) b (List.mem_cons_of_mem y h) hxy
          (List.rel_of_pairwise_cons hl h)
    · rename_i hxy
      have hyx : le y x = true := by
        rcases hx y (List.mem_cons_self y ys) with h | h
        · exact absurd h hxy
        · exact h
      refine List.Pairwise.cons ?_ ?_
      · intro b hb
        have := (insertSorted_perm le x ys).mem_iff.1 hb
        rcases List.mem_cons.1 this with h | h
        · subst h; exact hyx
        · exact List.rel_of_pairwise_cons hl h
      · exact ih (List.Pairwise.of_cons hl)
          (fun b hb => hx b (List.mem_cons_of_mem y hb))
          (fun a ha b hb => htr a (List.mem_cons_of_mem y ha) b (List.mem_cons_of_mem y hb))

theorem sortBy_pairwise {le : α → α → Bool} {l : List α}
    (htot : ∀ a ∈ l, ∀ b ∈ l, le a b = true ∨ le b a = true)
    (htr : ∀ a ∈ l, ∀ b ∈ l, ∀ c ∈ l, le a b = true → le b c = true → le a c = true) :
    List.Pairwise (fun a b => le a b = true) (sortBy le l) := by
  induction l with
  | nil => simp [sortBy]
  | cons x xs ih =>
    have hmem : ∀ a ∈ sortBy le xs, a ∈ x :: xs := fun a ha =>
      List.mem_cons_of_mem x (mem_sortBy.1 ha)
    refine insertSorted_pairwise
      (ih (fun a ha b hb => htot a (List.mem_cons_of_mem x ha) b (List.mem_cons_of_mem x hb))
        (fun a ha b hb c hc => htr a (List.mem_cons_of_mem x ha) b (List.mem_cons_of_mem x hb)
          c (List.mem_cons_of_mem x hc)))
      (fun b hb => htot x (List.mem_cons_self x xs) b (hmem b hb))
      (fun a ha b hb => htr x (List.mem_cons_self x xs) a (hmem a ha) b (hmem b hb))

/-! ## The x-offset table: spec recurrence and code equivalence -/

/-- Modelled from the spec: `offset[0] = 0`, and for every later depth
`offset[i] = offset[i-1] + width[i-1] + 60`, generalized over the
starting offset `o`. -/
def specOffsetsFrom (o : ℚ) : List ℚ → List ℚ
  | [] => [o]
  | w :: ws => o :: specOffsetsFrom (o + w + 60) ws

/-- Modelled from the spec: the x-offset table of the spec's recurrence
over a width table `ws`. -/
def specOffsets (ws : List ℚ) : List ℚ := specOffsetsFrom 0 ws

/-- Proof-side renaming of the gap-adding pass: `v + (index + 1) * 60`
with the start index made explicit. -/
def gapAdd (k : Nat) : List ℚ → List ℚ
  | [] => []
  | v :: vs => (v + ((k : ℚ) + 1) * 60) :: gapAdd (k + 1) vs

theorem mapIdx_gap_eq_gapAdd (l : List ℚ) :
    ∀ k : Nat, (List.mapIdx (fun i v => v + (((i : ℚ)) + ((k : ℚ)) + 1) * 60) l) = gapAdd k l := by
  induction l with
  | nil => intro k; simp [gapAdd]
  | cons v vs ih =>
    intro k
    rw [List.mapIdx_cons, gapAdd]
    have h0 : v + (((0 : Nat) : ℚ) + (k : ℚ) + 1) * 60 = v + ((k : ℚ) + 1) * 60 := by
      push_cast; ring
    have hf : (fun (i : Nat) (v : ℚ) => v + (((i + 1 : Nat) : ℚ) + (k : ℚ) + 1) * 60)
        = (fun (i : Nat) (v : ℚ) => v + ((i : ℚ) + ((k + 1 : Nat) : ℚ) + 1) * 60) := by
      funext i v; push_cast; ring
    rw [h0, hf, ih (k + 1)]

theorem specOffsetsFrom_eq_gapAdd (ws : List ℚ) :
    ∀ (acc : ℚ) (k : Nat),
      specOffsetsFrom (acc + 60 * k) ws = (acc + 60 * k) :: gapAdd k (runningSums acc ws) := by
  induction ws with
  | nil => intro acc k; simp [specOffsetsFrom, runningSums, gapAdd]
  | cons w ws ih =>
    intro acc k
    have h1 : acc + 60 * (k : ℚ) + w + 60 = (acc + w) + 60 * ((k : ℚ) + 1) := by ring
    have h2 := ih (acc + w) (k + 1)
    rw [specOffsetsFrom, runningSums, gapAdd, h1]
    push_cast at h2 ⊢
    rw [h2]
    have h3 : acc + w + 60 * ((k : ℚ) + 1) = acc + w + ((k : ℚ) + 1) * 60 := by ring
    rw [h3]

/-- The code's offset pipeline (`runningSums`, gaps, prepended zero)
computes exactly the spec's recurrence table. -/
theorem levelOffsets_eq_specOffsets (measure : String → ℚ) (m : FilesMap) :
    levelOffsets measure m = specOffsets ((rawWidths measure m).dropLast) := by
  unfold levelOffsets specOffsets
  have h := specOffsetsFrom_eq_gapAdd ((rawWidths measure m).dropLast) 0 0
  simp only [Nat.cast_zero, mul_zero, add_zero] at h
  rw [h]
  have hm := mapIdx_gap_eq_gapAdd (runningSums 0 ((rawWidths measure m).dropLast)) 0
  rw [← hm]
  dsimp only
  have hf : (fun (i : Nat) (v : ℚ) => v + ((i : ℚ) + 1) * 60)
      = (fun (i : Nat) (v : ℚ) => v + ((i : ℚ) + ((0 : Nat) : ℚ) + 1) * 60) := by
    funext i v; push_cast; ring
  rw [hf]

theorem specOffsetsFrom_getD_zero (o : ℚ) (ws : List ℚ) :
    (specOffsetsFrom o ws).getD 0 0 = o := by
  cases ws <;> rfl

theorem specOffsetsFrom_length (o : ℚ) (ws : List ℚ) :
    (specOffsetsFrom o ws).length = ws.length + 1 := by
  induction ws generalizing o with
  | nil => rfl
  | cons w ws ih => simp [specOffsetsFrom, ih]

/-- The recurrence, read off pointwise. -/
theorem specOffsetsFrom_getD_succ (ws : List ℚ) :
    ∀ (o : ℚ) (i : Nat), i + 1 < (specOffsetsFrom o ws).length →
      (specOffsetsFrom o ws).getD (i + 1) 0
        = (specOffsetsFrom o ws).getD i 0 + ws.getD i 0 + 60 := by
  induction ws with
  | nil => intro o i h; simp [specOffsetsFrom] at h
  | cons w ws ih =>
    intro o i h
    cases i with
    | zero =>
      show (specOffsetsFrom (o + w + 60) ws).getD 0 0 = o + w + 60
      rw [specOffsetsFrom_getD_zero]
    | succ j =>
      have h' : j + 1 < (specOffsetsFrom (o + w + 60) ws).length := by
        rw [specOffsetsFrom_length] at h ⊢
        simpa using Nat.lt_of_succ_lt_succ h
      exact ih (o + w + 60) j h'

theorem specOffsetsFrom_mono (ws : List ℚ) :
    ∀ (o : ℚ) (i : Nat), (∀ w ∈ ws, 0 ≤ w) → i + 1 < (specOffsetsFrom o ws).length →
      (specOffsetsFrom o ws).getD i 0 + 60 ≤ (specOffsetsFrom o ws).getD (i + 1) 0 := by
  intro o i hws h
  rw [specOffsetsFrom_getD_succ ws o i h]
  have : 0 ≤ ws.getD i 0 := by
    rcases lt_or_ge i ws.length with hil | hil
    · rw [List.getD_eq_getElem ws 0 hil]
      exact hws _ (List.getElem_mem hil)
    · rw [List.getD_eq_default _ _ hil]
  linarith

theorem specOffsetsFrom_nonneg (ws : List ℚ) :
    ∀ (o : ℚ), 0 ≤ o → (∀ w ∈ ws, 0 ≤ w) → ∀ i, 0 ≤ (specOffsetsFrom o ws).getD i 0 := by
  induction ws with
  | nil =>
    intro o ho _ i
    cases i with
    | zero => exact ho
    | succ j => simp [specOffsetsFrom]
  | cons w ws ih =>
    intro o ho hws i
    cases i with
    | zero => exact ho
    | succ j =>
      have hw : 0 ≤ w := hws w (List.mem_cons_self w ws)
      exact ih (o + w + 60) (by linarith) (fun v hv => hws v (List.mem_cons_of_mem w hv)) j

/-- Every entry of the width array is non-negative (the accumulator
starts at 0 and `Math.max` only ever increases it). -/
theorem rawWidths_nonneg (measure : String → ℚ) (m : FilesMap) :
    ∀ w ∈ rawWidths measure m, 0 ≤ w := by
  intro w hw
  unfold rawWidths at hw
  obtain ⟨l, _, hval⟩ := List.mem_map.1 hw
  suffices h : ∀ (xs : List FileData) (w0 : Nat → Option ℚ),
      (∀ j, 0 ≤ (w0 j).getD 0) → ∀ j, 0 ≤ ((xs.foldl (widthStep measure) w0) j).getD 0 by
    rw [← hval]
    exact h _ (fun _ => none) (fun j => by simp) l
  intro xs
  induction xs with
  | nil => intro w0 h j; exact h j
  | cons e es ih =>
    intro w0 h j
    refine ih (widthStep measure w0 e) ?_ j
    intro i
    unfold widthStep
    split
    · by_cases hi : i = e.level
      · simp only [hi, if_pos rfl, Option.getD_some]
        exact le_trans (h e.level) (le_max_left _ _)
      · simpa [hi] using h i
    · exact h i

/-! ## Map-operation lemmas -/

/-- The key list of the map. -/
def keysOf (m : FilesMap) : List String := m.map FileData.path

theorem findNode_eq_some {m : FilesMap} {p : String} {d : FileData}
    (h : findNode m p = some d) : d ∈ m ∧ d.path = p := by
  refine ⟨List.mem_of_find?_eq_some h, ?_⟩
  have := List.find?_some h
  simpa using this

theorem findNode_eq_none {m : FilesMap} {p : String} :
    findNode m p = none ↔ ∀ d ∈ m, d.path ≠ p := by
  unfold findNode
  rw [List.find?_eq_none]
  constructor
  · intro h d hd; have := h d hd; simpa using this
  · intro h d hd; simpa using h d hd

theorem findNode_isSome {m : FilesMap} {p : String} :
    (∃ d ∈ m, d.path = p) ↔ ∃ d, findNode m p = some d := by
  constructor
  · intro ⟨d, hd, hp⟩
    rcases h : findNode m p with _ | e
    · exact absurd hp (findNode_eq_none.1 h d hd)
    · exact ⟨e, rfl⟩
  · intro ⟨d, h⟩
    obtain ⟨hm, hp⟩ := findNode_eq_some h
    exact ⟨d, hm, hp⟩

theorem keysOf_updateNode {m : FilesMap} {p : String} {f : FileData → FileData}
    (hf : ∀ d, (f d).path = d.path) : keysOf (updateNode m p f) = keysOf m := by
  unfold keysOf updateNode
  rw [List.map_map]
  apply List.map_congr_left
  intro d _
  by_cases h : d.path = p <;> simp [h, hf]

theorem length_updateNode (m : FilesMap) (p : String) (f : FileData → FileData) :
    (updateNode m p f).length = m.length := by
  simp [updateNode]

theorem findNode_updateNode {m : FilesMap} {p q : String} {f : FileData → FileData}
    (hf : ∀ d, (f d).path = d.path) :
    findNode (updateNode m p f) q
      = (findNode m q).map (fun d => if d.path = p then f d else d) := by
  induction m with
  | nil => rfl
  | cons d m ih =>
    show findNode ((if d.path == p then f d else d) :: updateNode m p f) q = _
    unfold findNode at ih ⊢
    by_cases hdp : d.path = p
    · rw [if_pos (show (d.path == p) = true by simpa using hdp)]
      rw [List.find?_cons, List.find?_cons]
      by_cases hdq : d.path = q
      · simp only [hf, show (d.path == q) = true by simpa using hdq]
        simp [hdp]
      · simp only [hf, show (d.path == q) = false by simpa using hdq]
        exact ih
    · rw [if_neg (show ¬ (d.path == p) = true by simpa using hdp)]
      rw [List.find?_cons, List.find?_cons]
      by_cases hdq : d.path = q
      · simp only [show (d.path == q) = true by simpa using hdq]
        simp [hdp]
      · simp only [show (d.path == q) = false by simpa using hdq]
        exact ih

theorem findNode_updateNode_ne {m : FilesMap} {p q : String} {f : FileData → FileData}
    (hf : ∀ d, (f d).path = d.path) (hne : q ≠ p) :
    findNode (updateNode m p f) q = findNode m q := by
  rw [findNode_updateNode hf]
  rcases h : findNode m q with _ | d
  · rfl
  · have := (findNode_eq_some h).2
    simp [this, hne]

theorem findNode_updateNode_self {m : FilesMap} {p : String} {f : FileData → FileData}
    (hf : ∀ d, (f d).path = d.path) :
    findNode (updateNode m p f) p = (findNode m p).map f := by
  rw [findNode_updateNode hf]
  rcases h : findNode m p with _ | d
  · rfl
  · have := (findNode_eq_some h).2
    simp [this]

theorem mem_updateNode {m : FilesMap} {p : String} {f : FileData → FileData} {d' : FileData}
    (h : d' ∈ updateNode m p f) :
    ∃ d ∈ m, d' = if d.path = p then f d else d := by
  unfold updateNode at h
  obtain ⟨d, hd, hval⟩ := List.mem_map.1 h
  refine ⟨d, hd, ?_⟩
  by_cases hdp : d.path = p
  · rw [← hval, if_pos hdp, if_pos (show (d.path == p) = true by simpa using hdp)]
  · rw [← hval, if_neg hdp, if_neg (show ¬ (d.path == p) = true by simpa using hdp)]

theorem updateNode_mem {m : FilesMap} {p : String} {f : FileData → FileData} {d : FileData}
    (h : d ∈ m) : (if d.path = p then f d else d) ∈ updateNode m p f := by
  unfold updateNode
  refine List.mem_map.2 ⟨d, h, ?_⟩
  by_cases hdp : d.path = p <;> simp [hdp]

theorem findNode_of_mem_nodup {m : FilesMap} {d : FileData}
    (hnd : (keysOf m).Nodup) (hd : d ∈ m) : findNode m d.path = some d := by
  induction m with
  | nil => exact absurd hd (List.not_mem_nil d)
  | cons e m ih =>
    unfold findNode
    rw [List.find?_cons]
    rcases List.mem_cons.1 hd with h | h
    · subst h; simp
    · have hne : e.path ≠ d.path := by
        intro heq
        have : d.path ∈ keysOf m := List.mem_map_of_mem FileData.path h
        rw [← heq] at this
        exact (List.nodup_cons.1 hnd).1 this
      have : (e.path == d.path) = false := by simp [hne]
      rw [this]
      exact ih (List.nodup_cons.1 hnd).2 h

theorem eq_of_mem_of_path_eq {m : FilesMap} {d e : FileData}
    (hnd : (keysOf m).Nodup) (hd : d ∈ m) (he : e ∈ m) (hpe : d.path = e.path) : d = e := by
  have h1 := findNode_of_mem_nodup hnd hd
  have h2 := findNode_of_mem_nodup hnd he
  rw [hpe] at h1
  rw [h1] at h2
  exact Option.some.inj h2

/-! ## Split/join facts about the path strings of the builder -/

theorem jsSplit_map_data (s : String) :
    (jsSplit s).map String.data = splitOnChar '/' s.data := by
  unfold jsSplit
  rw [List.map_map]
  apply List.map_id''
  intro l
  rfl

theorem jsSplit_ne_nil (s : String) : jsSplit s ≠ [] := by
  unfold jsSplit
  intro h
  exact splitOnChar_ne_nil '/' s.data (List.map_eq_nil_iff.1 h)

theorem jsSplit_free (s : String) : ∀ t ∈ jsSplit s, '/' ∉ t.data := by
  intro t ht
  unfold jsSplit at ht
  obtain ⟨piece, hp, hval⟩ := List.mem_map.1 ht
  rw [← hval]
  exact not_mem_of_mem_splitOnChar hp

theorem prefixPath_data (segs : List String) (i : Nat) :
    (prefixPath segs i).data = joinChar '/' ((segs.take (i + 1)).map String.data) := rfl

theorem prefixPath_succ_data {segs : List String} {i : Nat} (h : i + 1 < segs.length) :
    (prefixPath segs (i + 1)).data
      = (prefixPath segs i).data ++ '/' :: (segs.getD (i + 1) "").data := by
  rw [prefixPath_data, prefixPath_data]
  have htake : segs.take (i + 1 + 1) = segs.take (i + 1) ++ [segs.getD (i + 1) ""] := by
    rw [List.take_succ]
    congr 1
    rw [List.getD_eq_getElem segs "" h, List.getElem?_eq_getElem h]
    rfl
  rw [htake, List.map_append]
  apply joinChar_append_single
  intro hnil
  have h0 : segs.take (i + 1) = [] := List.map_eq_nil_iff.1 hnil
  have : (segs.take (i + 1)).length = 0 := by rw [h0]; rfl
  rw [List.length_take] at this
  omega

/-! ## The builder invariant -/

/-- `parts` is the segment decomposition of node `d`'s path. -/
def SegsOf (d : FileData) (parts : List (List Char)) : Prop :=
  parts ≠ [] ∧ (∀ s ∈ parts, '/' ∉ s) ∧ d.path.data = joinChar '/' parts ∧
    parts.length = d.level + 1 ∧ parts.getLast? = some d.base.data

/-- Structural well-formedness of the node map, maintained by the tree
builder and untouched afterwards. -/
structure Inv (m : FilesMap) : Prop where
  nodup : (keysOf m).Nodup
  segs : ∀ d ∈ m, ∃ parts, SegsOf d parts
  childMem : ∀ d ∈ m, ∀ q ∈ d.children, ∃ e ∈ m, e.path = q
  childShape : ∀ d ∈ m, ∀ q ∈ d.children, ∃ b : List Char, '/' ∉ b ∧ q.data = d.path.data ++ '/' :: b
  childNodup : ∀ d ∈ m, d.children.Nodup
  typed : ∀ d ∈ m, d.type = FileType.Dir ∨ d.type = FileType.Js

theorem Inv.empty : Inv [] := by
  constructor <;> simp [keysOf]

/-- If one path extends another by a separator and a separator-free
segment, the extending node sits one level deeper and its `base` is that
segment. -/
theorem level_base_of_extend {m : FilesMap} (hm : Inv m) {d e : FileData} {b : List Char}
    (hd : d ∈ m) (he : e ∈ m) (hfree : '/' ∉ b)
    (hext : e.path.data = d.path.data ++ '/' :: b) :
    e.level = d.level + 1 ∧ e.base.data = b := by
  obtain ⟨pe, hpe⟩ := hm.segs e he
  obtain ⟨pd, hpd⟩ := hm.segs d hd
  obtain ⟨hne, hfe, hje, hle, hge⟩ := hpe
  obtain ⟨hnd, hfd, hjd, hld, hgd⟩ := hpd
  have hjoin : joinChar '/' pe = joinChar '/' (pd ++ [b]) := by
    rw [joinChar_append_single '/' pd b hnd, ← hje, ← hjd, hext]
  have hparts : pe = pd ++ [b] := by
    refine joinChar_inj hne (by simp) hfe ?_ hjoin
    intro s hs
    rcases List.mem_append.1 hs with h | h
    · exact hfd s h
    · rw [List.mem_singleton.1 h]; exact hfree
  constructor
  · have : pe.length = pd.length + 1 := by rw [hparts]; simp
    omega
  · have : pe.getLast? = some b := by rw [hparts]; simp
    rw [this] at hge
    exact (Option.some.inj hge).symm

/-- A node is a member of at most one children collection. -/
theorem parent_unique {m : FilesMap} (hm : Inv m) {d d' : FileData} {q : String}
    (hd : d ∈ m) (hd' : d' ∈ m) (hq : q ∈ d.children) (hq' : q ∈ d'.children) : d = d' := by
  obtain ⟨b, hbf, hbe⟩ := hm.childShape d hd q hq
  obtain ⟨b', hbf', hbe'⟩ := hm.childShape d' hd' q hq'
  have : d.path.data ++ '/' :: b = d'.path.data ++ '/' :: b' := by rw [← hbe, ← hbe']
  obtain ⟨hpp, _⟩ := append_sep_inj_right hbf hbf' this
  exact eq_of_mem_of_path_eq hm.nodup hd hd' (String.ext hpp)

/-- A child node sits one level below its parent. -/
theorem child_level {m : FilesMap} (hm : Inv m) {d e : FileData} {q : String}
    (hd : d ∈ m) (hq : q ∈ d.children) (he : e ∈ m) (hep : e.path = q) :
    e.level = d.level + 1 := by
  obtain ⟨b, hbf, hbe⟩ := hm.childShape d hd q hq
  exact (level_base_of_extend hm hd he hbf (by rw [hep]; exact hbe)).1

/-- Distinct siblings have distinct `base` names. -/
theorem sibling_base_ne {m : FilesMap} (hm : Inv m) {d e₁ e₂ : FileData} {q₁ q₂ : String}
    (hd : d ∈ m) (hq₁ : q₁ ∈ d.children) (hq₂ : q₂ ∈ d.children) (hne : q₁ ≠ q₂)
    (he₁ : e₁ ∈ m) (hep₁ : e₁.path = q₁) (he₂ : e₂ ∈ m) (hep₂ : e₂.path = q₂) :
    e₁.base ≠ e₂.base := by
  obtain ⟨b₁, hbf₁, hbe₁⟩ := hm.childShape d hd q₁ hq₁
  obtain ⟨b₂, hbf₂, hbe₂⟩ := hm.childShape d hd q₂ hq₂
  have h₁ := (level_base_of_extend hm hd he₁ hbf₁ (by rw [hep₁]; exact hbe₁)).2
  have h₂ := (level_base_of_extend hm hd he₂ hbf₂ (by rw [hep₂]; exact hbe₂)).2
  intro hbb
  apply hne
  have hb : b₁ = b₂ := by rw [← h₁, ← h₂, hbb]
  have : q₁.data = q₂.data := by rw [hbe₁, hbe₂, hb]
  exact String.ext this

/-! ## Invariant maintenance through the builder -/

/-- Updates that keep every field the builder invariant reads. -/
def KeepsShape (f : FileData → FileData) : Prop :=
  ∀ d, (f d).path = d.path ∧ (f d).children = d.children ∧ (f d).level = d.level ∧
    (f d).base = d.base ∧ (f d).type = d.type

theorem KeepsShape.path {f : FileData → FileData} (hf : KeepsShape f) (d : FileData) :
    (f d).path = d.path := (hf d).1

theorem Inv_updateNode {m : FilesMap} {p : String} {f : FileData → FileData}
    (hm : Inv m) (hf : KeepsShape f) : Inv (updateNode m p f) := by
  have hcase : ∀ d : FileData, (if d.path = p then f d else d).path = d.path ∧
      (if d.path = p then f d else d).children = d.children ∧
      (if d.path = p then f d else d).level = d.level ∧
      (if d.path = p then f d else d).base = d.base ∧
      (if d.path = p then f d else d).type = d.type := by
    intro d
    by_cases h : d.path = p
    · simpa [h] using hf d
    · simp [h]
  constructor
  · rw [keysOf_updateNode hf.path]; exact hm.nodup
  · intro d' hd'
    obtain ⟨d, hd, hval⟩ := mem_updateNode hd'
    obtain ⟨parts, h1, h2, h3, h4, h5⟩ := hm.segs d hd
    exact ⟨parts, h1, h2, by rw [hval, (hcase d).1, h3],
      by rw [hval, (hcase d).2.2.1]; exact h4, by rw [hval, (hcase d).2.2.2.1]; exact h5⟩
  · intro d' hd' q hq
    obtain ⟨d, hd, hval⟩ := mem_updateNode hd'
    rw [hval, (hcase d).2.1] at hq
    obtain ⟨e, he, hep⟩ := hm.childMem d hd q hq
    refine ⟨if e.path = p then f e else e, updateNode_mem he, ?_⟩
    rw [(hcase e).1, hep]
  · intro d' hd' q hq
    obtain ⟨d, hd, hval⟩ := mem_updateNode hd'
    rw [hval, (hcase d).2.1] at hq
    obtain ⟨b, hb1, hb2⟩ := hm.childShape d hd q hq
    exact ⟨b, hb1, by rw [hval, (hcase d).1]; exact hb2⟩
  · intro d' hd'
    obtain ⟨d, hd, hval⟩ := mem_updateNode hd'
    rw [hval, (hcase d).2.1]
    exact hm.childNodup d hd
  · intro d' hd'
    obtain ⟨d, hd, hval⟩ := mem_updateNode hd'
    rw [hval, (hcase d).2.2.2.2]
    exact hm.typed d hd

theorem insertNode_mem_mono {m : FilesMap} {ty path base level} {e : FileData}
    (he : e ∈ m) : e ∈ insertNode m ty path base level := by
  unfold insertNode
  rcases findNode m path with _ | d
  · exact List.mem_append_left _ he
  · exact he

theorem keys_insertNode {m : FilesMap} {ty path base level} (q : String) :
    (∃ d ∈ insertNode m ty path base level, d.path = q) ↔
      (∃ d ∈ m, d.path = q) ∨ q = path := by
  unfold insertNode
  rcases h : findNode m path with _ | d
  · constructor
    · intro ⟨e, he, hq⟩
      rcases List.mem_append.1 he with h' | h'
      · exact Or.inl ⟨e, h', hq⟩
      · right
        rw [← hq, List.mem_singleton.1 h']
    · intro hor
      rcases hor with ⟨e, he, hq⟩ | hq
      · exact ⟨e, List.mem_append_left _ he, hq⟩
      · subst hq
        exact ⟨_, List.mem_append_right _ (List.mem_singleton_self _), rfl⟩
  · constructor
    · intro ⟨e, he, hq⟩; exact Or.inl ⟨e, he, hq⟩
    · intro hor
      rcases hor with ⟨e, he, hq⟩ | hq
      · exact ⟨e, he, hq⟩
      · subst hq
        obtain ⟨hm, hp⟩ := findNode_eq_some h
        exact ⟨d, hm, hp⟩

theorem Inv_insertNode {m : FilesMap} {ty : FileType} {path base : String} {level : Nat}
    (hm : Inv m) (hty : ty = FileType.Dir ∨ ty = FileType.Js)
    (hsegs : ∃ parts : List (List Char), parts ≠ [] ∧ (∀ s ∈ parts, '/' ∉ s) ∧
      path.data = joinChar '/' parts ∧ parts.length = level + 1 ∧
      parts.getLast? = some base.data) :
    Inv (insertNode m ty path base level) := by
  unfold insertNode
  rcases h : findNode m path with _ | d
  · have hfresh : path ∉ keysOf m := by
      intro hk
      obtain ⟨e, he, hep⟩ := List.mem_map.1 hk
      exact findNode_eq_none.1 h e he hep
    constructor
    · rw [keysOf, List.map_append]
      rw [List.nodup_append]
      refine ⟨hm.nodup, by simp, ?_⟩
      intro a ha hb
      simp only [List.map_cons, List.map_nil, List.mem_singleton] at hb
      rw [hb] at ha
      exact hfresh ha
    · intro d' hd'
      rcases List.mem_append.1 hd' with h' | h'
      · exact hm.segs d' h'
      · rw [List.mem_singleton.1 h']
        obtain ⟨parts, h1, h2, h3, h4, h5⟩ := hsegs
        exact ⟨parts, h1, h2, h3, h4, h5⟩
    · intro d' hd' q hq
      rcases List.mem_append.1 hd' with h' | h'
      · obtain ⟨e, he, hep⟩ := hm.childMem d' h' q hq
        exact ⟨e, List.mem_append_left _ he, hep⟩
      · rw [List.mem_singleton.1 h'] at hq
        exact absurd hq (List.not_mem_nil q)
    · intro d' hd' q hq
      rcases List.mem_append.1 hd' with h' | h'
      · exact hm.childShape d' h' q hq
      · rw [List.mem_singleton.1 h'] at hq
        exact absurd hq (List.not_mem_nil q)
    · intro d' hd'
      rcases List.mem_append.1 hd' with h' | h'
      · exact hm.childNodup d' h'
      · rw [List.mem_singleton.1 h']
        exact List.nodup_nil
    · intro d' hd'
      rcases List.mem_append.1 hd' with h' | h'
      · exact hm.typed d' h'
      · rw [List.mem_singleton.1 h']
        exact hty
  · exact hm

theorem ite_path {p : String} {f : FileData → FileData} (hf : ∀ d, (f d).path = d.path)
    (d : FileData) : (if d.path = p then f d else d).path = d.path := by
  by_cases h : d.path = p <;> simp [h, hf]

theorem exists_path_updateNode {m : FilesMap} {p q : String} {f : FileData → FileData}
    (hf : ∀ d, (f d).path = d.path) (h : ∃ e ∈ m, e.path = q) :
    ∃ e ∈ updateNode m p f, e.path = q := by
  obtain ⟨e, he, hep⟩ := h
  exact ⟨_, updateNode_mem he, by rw [ite_path hf]; exact hep⟩

theorem exists_path_updateNode_iff {m : FilesMap} {p q : String} {f : FileData → FileData}
    (hf : ∀ d, (f d).path = d.path) :
    (∃ e ∈ updateNode m p f, e.path = q) ↔ (∃ e ∈ m, e.path = q) := by
  constructor
  · intro ⟨e', he', hep⟩
    obtain ⟨e, he, hval⟩ := mem_updateNode he'
    refine ⟨e, he, ?_⟩
    rw [← hep, hval, ite_path hf]
  · exact exists_path_updateNode hf

/-- The children-appending update of `linkNodes`. -/
def appendChild (cp : String) (d : FileData) : FileData :=
  if cp ∈ d.children then d else { d with children := d.children ++ [cp] }

theorem appendChild_path (cp : String) (d : FileData) : (appendChild cp d).path = d.path := by
  unfold appendChild; split <;> rfl

theorem linkNodes_eq (m : FilesMap) (pp cp : String) :
    linkNodes m pp cp
      = updateNode (updateNode m cp (fun d => { d with parent := some pp })) pp (appendChild cp) := rfl

theorem exists_path_linkNodes_iff {m : FilesMap} {pp cp q : String} :
    (∃ e ∈ linkNodes m pp cp, e.path = q) ↔ (∃ e ∈ m, e.path = q) := by
  rw [linkNodes_eq]
  rw [exists_path_updateNode_iff (appendChild_path cp)]
  exact exists_path_updateNode_iff (fun d => rfl)

theorem Inv_linkNodes {m : FilesMap} {pp cp : String}
    (hm : Inv m) (hchild : ∃ e ∈ m, e.path = cp)
    (hshape : ∃ b : List Char, '/' ∉ b ∧ cp.data = pp.data ++ '/' :: b) :
    Inv (linkNodes m pp cp) := by
  rw [linkNodes_eq]
  set m₁ := updateNode m cp (fun d => { d with parent := some pp }) with hm₁def
  have hInv₁ : Inv m₁ := Inv_updateNode hm (fun d => ⟨rfl, rfl, rfl, rfl, rfl⟩)
  have hchild₁ : ∃ e ∈ m₁, e.path = cp := exists_path_updateNode (fun d => rfl) hchild
  have hgp : ∀ d : FileData, (appendChild cp d).path = d.path := appendChild_path cp
  have hcase : ∀ d : FileData, (if d.path = pp then appendChild cp d else d).path = d.path :=
    ite_path hgp
  have hfields : ∀ d : FileData,
      (if d.path = pp then appendChild cp d else d).level = d.level ∧
      (if d.path = pp then appendChild cp d else d).base = d.base ∧
      (if d.path = pp then appendChild cp d else d).type = d.type := by
    intro d
    by_cases h : d.path = pp
    · by_cases hc : cp ∈ d.children <;> simp [h, hc, appendChild]
    · simp [h]
  have hkids : ∀ d : FileData,
      (if d.path = pp then appendChild cp d else d).children = d.children ∨
      ((if d.path = pp then appendChild cp d else d).children = d.children ++ [cp] ∧
        d.path = pp ∧ cp ∉ d.children) := by
    intro d
    by_cases h : d.path = pp
    · unfold appendChild
      by_cases hc : cp ∈ d.children
      · simp [h, hc]
      · simp [h, hc]
    · simp [h]
  constructor
  · rw [keysOf_updateNode hgp]; exact hInv₁.nodup
  · intro d' hd'
    obtain ⟨d, hd, hval⟩ := mem_updateNode hd'
    obtain ⟨parts, h1, h2, h3, h4, h5⟩ := hInv₁.segs d hd
    exact ⟨parts, h1, h2, by rw [hval, hcase d, h3],
      by rw [hval, (hfields d).1]; exact h4, by rw [hval, (hfields d).2.1]; exact h5⟩
  · intro d' hd' q hq
    obtain ⟨d, hd, hval⟩ := mem_updateNode hd'
    have hq' : q ∈ d.children ∨ q = cp := by
      rcases hkids d with h | ⟨h, _, _⟩
      · rw [hval, h] at hq; exact Or.inl hq
      · rw [hval, h] at hq
        rcases List.mem_append.1 hq with h' | h'
        · exact Or.inl h'
        · exact Or.inr (List.mem_singleton.1 h')
    rcases hq' with h | h
    · exact exists_path_updateNode hgp (hInv₁.childMem d hd q h)
    · rw [h]; exact exists_path_updateNode hgp hchild₁
  · intro d' hd' q hq
    obtain ⟨d, hd, hval⟩ := mem_updateNode hd'
    rcases hkids d with h | ⟨h, hdp, _⟩
    · rw [hval, h] at hq
      obtain ⟨b, hb1, hb2⟩ := hInv₁.childShape d hd q hq
      exact ⟨b, hb1, by rw [hval, hcase d]; exact hb2⟩
    · rw [hval, h] at hq
      rcases List.mem_append.1 hq with h' | h'
      · obtain ⟨b, hb1, hb2⟩ := hInv₁.childShape d hd q h'
        exact ⟨b, hb1, by rw [hval, hcase d]; exact hb2⟩
      · obtain ⟨b, hb1, hb2⟩ := hshape
        rw [List.mem_singleton.1 h']
        exact ⟨b, hb1, by rw [hval, hcase d, hdp]; exact hb2⟩
  · intro d' hd'
    obtain ⟨d, hd, hval⟩ := mem_updateNode hd'
    rcases hkids d with h | ⟨h, _, hcn⟩
    · rw [hval, h]; exact hInv₁.childNodup d hd
    · rw [hval, h]
      rw [List.nodup_append]
      exact ⟨hInv₁.childNodup d hd, List.nodup_singleton cp,
        fun a ha hb => hcn (by rwa [List.mem_singleton.1 hb] at ha)⟩
  · intro d' hd'
    obtain ⟨d, hd, hval⟩ := mem_updateNode hd'
    rw [hval, (hfields d).2.2]
    exact hInv₁.typed d hd

theorem linkNodes_links {m : FilesMap} {pp cp : String} (h : ∃ e ∈ m, e.path = pp) :
    ∃ e ∈ linkNodes m pp cp, e.path = pp ∧ cp ∈ e.children := by
  rw [linkNodes_eq]
  obtain ⟨e, he, hep⟩ := h
  have he₁ := updateNode_mem (p := cp) (f := fun d => { d with parent := some pp }) he
  set e₁ : FileData := if e.path = cp then { e with parent := some pp } else e with he₁def
  have hpath₁ : e₁.path = e.path :=
    ite_path (f := fun d => { d with parent := some pp }) (fun d => rfl) e
  have he₂ := updateNode_mem (p := pp) (f := appendChild cp) he₁
  refine ⟨_, he₂, ?_, ?_⟩
  · rw [ite_path (appendChild_path cp), hpath₁, hep]
  · rw [if_pos (by rw [hpath₁, hep])]
    unfold appendChild
    split
    · assumption
    · exact List.mem_append_right _ (List.mem_singleton_self cp)

theorem linkNodes_preserves_link {m : FilesMap} {pp cp pp' cp' : String}
    (h : ∃ e ∈ m, e.path = pp' ∧ cp' ∈ e.children) :
    ∃ e ∈ linkNodes m pp cp, e.path = pp' ∧ cp' ∈ e.children := by
  rw [linkNodes_eq]
  obtain ⟨e, he, hep, hcc⟩ := h
  have he₁ := updateNode_mem (p := cp) (f := fun d => { d with parent := some pp }) he
  set e₁ : FileData := if e.path = cp then { e with parent := some pp } else e with he₁def
  have hpath₁ : e₁.path = e.path :=
    ite_path (f := fun d => { d with parent := some pp }) (fun d => rfl) e
  have hkids₁ : e₁.children = e.children := by
    rw [he₁def]; split <;> rfl
  have he₂ := updateNode_mem (p := pp) (f := appendChild cp) he₁
  refine ⟨_, he₂, ?_, ?_⟩
  · rw [ite_path (appendChild_path cp), hpath₁, hep]
  · by_cases hp : e₁.path = pp
    · rw [if_pos hp]
      unfold appendChild
      split
      · rw [hkids₁]; exact hcc
      · exact List.mem_append_left _ (by rw [hkids₁]; exact hcc)
    · rw [if_neg hp, hkids₁]
      exact hcc

theorem insertNode_preserves_link {m : FilesMap} {ty path base level} {pp' cp' : String}
    (h : ∃ e ∈ m, e.path = pp' ∧ cp' ∈ e.children) :
    ∃ e ∈ insertNode m ty path base level, e.path = pp' ∧ cp' ∈ e.children := by
  obtain ⟨e, he, hp⟩ := h
  exact ⟨e, insertNode_mem_mono he, hp⟩

/-- The segment decomposition of the `i`-th prefix of an input path. -/
theorem segsOf_prefixes {fp : String} {i : Nat} (h : i < (jsSplit fp).length) :
    ∃ parts : List (List Char), parts ≠ [] ∧ (∀ s ∈ parts, '/' ∉ s) ∧
      (prefixPath (jsSplit fp) i).data = joinChar '/' parts ∧ parts.length = i + 1 ∧
      parts.getLast? = some ((jsSplit fp).getD i "").data := by
  refine ⟨((jsSplit fp).take (i + 1)).map String.data, ?_, ?_, prefixPath_data _ i, ?_, ?_⟩
  · intro hnil
    have h0 : (jsSplit fp).take (i + 1) = [] := List.map_eq_nil_iff.1 hnil
    have hl : ((jsSplit fp).take (i + 1)).length = 0 := by rw [h0]; rfl
    rw [List.length_take] at hl; omega
  · intro s hs
    obtain ⟨t, ht, hval⟩ := List.mem_map.1 hs
    rw [← hval]
    exact jsSplit_free fp t (List.mem_of_mem_take ht)
  · rw [List.length_map, List.length_take]; omega
  · rw [List.getLast?_map]
    have hlen : ((jsSplit fp).take (i + 1)).length = i + 1 := by
      rw [List.length_take]; omega
    have htake : ((jsSplit fp).take (i + 1)).getLast? = some ((jsSplit fp).getD i "") := by
      rw [List.getLast?_eq_getElem?, hlen]
      simp only [Nat.add_sub_cancel]
      rw [List.getElem?_take]
      rw [if_pos (Nat.lt_succ_self i)]
      rw [List.getD_eq_getElem _ _ h, List.getElem?_eq_getElem h]
    rw [htake]
    rfl

/-- A node's `level` is determined by its path (through the unique
separator-free segment decomposition). -/
theorem level_of_path_segs {m : FilesMap} (hm : Inv m) {d : FileData} (hd : d ∈ m)
    {parts : List (List Char)} (hne : parts ≠ []) (hfree : ∀ s ∈ parts, '/' ∉ s)
    (hjoin : d.path.data = joinChar '/' parts) : d.level + 1 = parts.length := by
  obtain ⟨pd, hpd1, hpd2, hpd3, hpd4, _⟩ := hm.segs d hd
  have : pd = parts := joinChar_inj hpd1 hne hpd2 hfree (by rw [← hpd3, ← hjoin])
  rw [← hpd4, this]

/-! ## `addPath` and `buildMap`: invariant and key set -/

theorem addPath_inv_keys {m : FilesMap} (hm : Inv m) (fp : String) :
    Inv (addPath m fp) ∧
      ∀ q, (∃ d ∈ addPath m fp, d.path = q) ↔
        ((∃ d ∈ m, d.path = q) ∨ ∃ i, i < (jsSplit fp).length ∧ q = prefixPath (jsSplit fp) i) := by
  unfold addPath
  set segs := jsSplit fp with hsegs
  set n := segs.length with hn
  set stepA := fun (m' : FilesMap) (i : Nat) =>
    insertNode m' (if i = n - 1 then FileType.Js else FileType.Dir)
      (prefixPath segs i) (segs.getD i "") i with hstepA
  have phaseA : ∀ k, k ≤ n →
      Inv ((List.range k).foldl stepA m) ∧
      ∀ q, (∃ d ∈ (List.range k).foldl stepA m, d.path = q) ↔
        ((∃ d ∈ m, d.path = q) ∨ ∃ i, i < k ∧ q = prefixPath segs i) := by
    intro k
    induction k with
    | zero =>
      intro _
      constructor
      · simpa using hm
      · intro q
        simp
    | succ k ih =>
      intro hk
      obtain ⟨ihInv, ihKeys⟩ := ih (Nat.le_of_succ_le hk)
      rw [List.range_succ, List.foldl_append]
      have hik : k < n := hk
      have hsp := @segsOf_prefixes fp k (by rw [← hsegs, ← hn]; exact hik)
      constructor
      · apply Inv_insertNode ihInv
        · by_cases h : k = n - 1 <;> simp [h]
        · rw [← hsegs] at hsp
          exact hsp
      · intro q
        simp only [List.foldl_cons, List.foldl_nil]
        rw [keys_insertNode q, ihKeys q]
        constructor
        · intro hor
          rcases hor with (h | ⟨i, hi, hq⟩) | hq
          · exact Or.inl h
          · exact Or.inr ⟨i, Nat.lt_succ_of_lt hi, hq⟩
          · exact Or.inr ⟨k, Nat.lt_succ_self k, hq⟩
        · intro hor
          rcases hor with h | ⟨i, hi, hq⟩
          · exact Or.inl (Or.inl h)
          · rcases Nat.lt_succ_iff_lt_or_eq.1 hi with h' | h'
            · exact Or.inl (Or.inr ⟨i, h', hq⟩)
            · subst h'; exact Or.inr hq
  obtain ⟨hInvA, hKeysA⟩ := phaseA n (le_refl n)
  set m₁ := (List.range n).foldl stepA m with hm₁
  set stepB := fun (m' : FilesMap) (i : Nat) =>
    linkNodes m' (prefixPath segs i) (prefixPath segs (i + 1)) with hstepB
  have hn1 : 1 ≤ n := by
    rw [hn, hsegs]
    have := jsSplit_ne_nil fp
    cases h : jsSplit fp with
    | nil => exact absurd h this
    | cons a l => simp [h]
  have phaseB : ∀ k, k ≤ n - 1 →
      Inv ((List.range k).foldl stepB m₁) ∧
      ∀ q, (∃ d ∈ (List.range k).foldl stepB m₁, d.path = q) ↔ (∃ d ∈ m₁, d.path = q) := by
    intro k
    induction k with
    | zero =>
      intro _
      exact ⟨hInvA, fun q => Iff.rfl⟩
    | succ k ih =>
      intro hk
      obtain ⟨ihInv, ihKeys⟩ := ih (Nat.le_of_succ_le hk)
      rw [List.range_succ, List.foldl_append]
      simp only [List.foldl_cons, List.foldl_nil]
      have hk1 : k + 1 < n := by omega
      constructor
      · apply Inv_linkNodes ihInv
        · rw [ihKeys, hKeysA]
          exact Or.inr ⟨k + 1, hk1, rfl⟩
        · refine ⟨(segs.getD (k + 1) "").data, ?_, ?_⟩
          · have hmem : segs.getD (k + 1) "" ∈ segs := by
              rw [List.getD_eq_getElem segs "" hk1]
              exact List.getElem_mem hk1
            rw [hsegs] at hmem
            exact jsSplit_free fp _ hmem
          · exact prefixPath_succ_data hk1
      · intro q
        rw [exists_path_linkNodes_iff]
        exact ihKeys q
  obtain ⟨hInvB, hKeysB⟩ := phaseB (n - 1) (le_refl _)
  refine ⟨hInvB, ?_⟩
  intro q
  rw [hKeysB, hKeysA]

theorem buildMap_inv_keys (paths : List String) :
    Inv (buildMap paths) ∧
      ∀ q, (∃ d ∈ buildMap paths, d.path = q) ↔
        ∃ P ∈ paths, ∃ i, i < (jsSplit P).length ∧ q = prefixPath (jsSplit P) i := by
  unfold buildMap
  have main : ∀ (ps : List String) (m : FilesMap), Inv m →
      Inv (ps.foldl addPath m) ∧
      ∀ q, (∃ d ∈ ps.foldl addPath m, d.path = q) ↔
        ((∃ d ∈ m, d.path = q) ∨ ∃ P ∈ ps, ∃ i, i < (jsSplit P).length ∧ q = prefixPath (jsSplit P) i) := by
    intro ps
    induction ps with
    | nil =>
      intro m hm
      refine ⟨hm, fun q => ?_⟩
      simp
    | cons P ps ih =>
      intro m hm
      obtain ⟨hInv₁, hKeys₁⟩ := addPath_inv_keys hm P
      obtain ⟨hInv₂, hKeys₂⟩ := ih (addPath m P) hInv₁
      rw [List.foldl_cons]
      refine ⟨hInv₂, fun q => ?_⟩
      rw [hKeys₂ q]
      rw [hKeys₁ q]
      constructor
      · intro hor
        rcases hor with (h | ⟨i, hi, hq⟩) | ⟨P', hP', hrest⟩
        · exact Or.inl h
        · exact Or.inr ⟨P, List.mem_cons_self P ps, i, hi, hq⟩
        · exact Or.inr ⟨P', List.mem_cons_of_mem P hP', hrest⟩
      · intro hor
        rcases hor with h | ⟨P', hP', hrest⟩
        · exact Or.inl (Or.inl h)
        · rcases List.mem_cons.1 hP' with h' | h'
          · subst h'
            exact Or.inl (Or.inr hrest)
          · exact Or.inr ⟨P', h', hrest⟩
  have h := main paths [] Inv.empty
  refine ⟨h.1, fun q => ?_⟩
  rw [h.2 q]
  simp

/-! ## Every non-root ends up in its parent's children list -/

/-- All non-root nodes are linked from some node's children list. -/
def ParentLinked (m : FilesMap) : Prop :=
  ∀ d ∈ m, d.level ≠ 0 → ∃ e ∈ m, d.path ∈ e.children

theorem mem_insertNode {m : FilesMap} {ty path base level} {d : FileData}
    (h : d ∈ insertNode m ty path base level) :
    d ∈ m ∨ d = { parent := none, children := [], type := ty, path := path,
                  base := base, level := level, seq := 0, x := 0, y := 0 } := by
  unfold insertNode at h
  rcases hfind : findNode m path with _ | e
  · rw [hfind] at h
    rcases List.mem_append.1 h with h' | h'
    · exact Or.inl h'
    · exact Or.inr (List.mem_singleton.1 h')
  · rw [hfind] at h
    exact Or.inl h

theorem insertNode_exists_path (m : FilesMap) (ty : FileType) (path base : String) (level : Nat) :
    ∃ e ∈ insertNode m ty path base level, e.path = path := by
  unfold insertNode
  rcases h : findNode m path with _ | d
  · exact ⟨_, List.mem_append_right _ (List.mem_singleton_self _), rfl⟩
  · obtain ⟨hm, hp⟩ := findNode_eq_some h
    exact ⟨d, hm, hp⟩

theorem prefixPath_inj {fp : String} {i j : Nat} (hi : i < (jsSplit fp).length)
    (hj : j < (jsSplit fp).length)
    (h : prefixPath (jsSplit fp) i = prefixPath (jsSplit fp) j) : i = j := by
  obtain ⟨pi, hi1, hi2, hi3, hi4, _⟩ := segsOf_prefixes hi
  obtain ⟨pj, hj1, hj2, hj3, hj4, _⟩ := segsOf_prefixes hj
  have : pi = pj := joinChar_inj hi1 hj1 hi2 hj2 (by rw [← hi3, ← hj3, h])
  have := congrArg List.length this
  rw [hi4, hj4] at this
  omega

theorem addPath_parentLinked {m : FilesMap} (hm : Inv m) (hpl : ParentLinked m)
    (fp : String) : ParentLinked (addPath m fp) := by
  have hInvKeys := addPath_inv_keys hm fp
  unfold addPath at hInvKeys ⊢
  set segs := jsSplit fp with hsegs
  set n := segs.length with hn
  have hn1 : 1 ≤ n := by
    rw [hn, hsegs]
    cases h : jsSplit fp with
    | nil => exact absurd h (jsSplit_ne_nil fp)
    | cons a l => simp [h]
  set stepA := fun (m' : FilesMap) (i : Nat) =>
    insertNode m' (if i = n - 1 then FileType.Js else FileType.Dir)
      (prefixPath segs i) (segs.getD i "") i with hstepA
  have phaseA : ∀ k, k ≤ n →
      Inv ((List.range k).foldl stepA m) ∧
      (∀ i, i < k → ∃ e ∈ (List.range k).foldl stepA m, e.path = prefixPath segs i) ∧
      (∀ d ∈ (List.range k).foldl stepA m, d.level ≠ 0 →
        (∃ e ∈ (List.range k).foldl stepA m, d.path ∈ e.children) ∨
          ∃ i, i < n ∧ d.path = prefixPath segs i) := by
    intro k
    induction k with
    | zero =>
      intro _
      refine ⟨hm, by simp, ?_⟩
      intro d hd hl
      rcases hpl d hd hl with ⟨e, he, hc⟩
      exact Or.inl ⟨e, he, hc⟩
    | succ k ih =>
      intro hk
      obtain ⟨ihInv, ihPres, ihPL⟩ := ih (Nat.le_of_succ_le hk)
      rw [List.range_succ, List.foldl_append]
      simp only [List.foldl_cons, List.foldl_nil]
      have hik : k < n := hk
      refine ⟨?_, ?_, ?_⟩
      · apply Inv_insertNode ihInv
        · by_cases h : k = n - 1 <;> simp [h]
        · exact segsOf_prefixes hik
      · intro i hi
        rcases Nat.lt_succ_iff_lt_or_eq.1 hi with h' | h'
        · obtain ⟨e, he, hep⟩ := ihPres i h'
          exact ⟨e, insertNode_mem_mono he, hep⟩
        · subst h'
          exact insertNode_exists_path _ _ _ _ _
      · intro d hd hl
        rcases mem_insertNode hd with h' | h'
        · rcases ihPL d h' hl with ⟨e, he, hc⟩ | ⟨i, hi, hp⟩
          · exact Or.inl ⟨e, insertNode_mem_mono he, hc⟩
          · exact Or.inr ⟨i, hi, hp⟩
        · right
          refine ⟨k, hik, ?_⟩
          rw [h']
  obtain ⟨hInvA, hPresA, hPLA⟩ := phaseA n (le_refl n)
  set m₁ := (List.range n).foldl stepA m with hm₁
  set stepB := fun (m' : FilesMap) (i : Nat) =>
    linkNodes m' (prefixPath segs i) (prefixPath segs (i + 1)) with hstepB
  have levelPrefix : ∀ {mx : FilesMap}, Inv mx → ∀ d ∈ mx, ∀ i, i < n →
      d.path = prefixPath segs i → d.level = i := by
    intro mx hmx d hd i hi hp
    obtain ⟨parts, h1, h2, h3, h4, _⟩ := @segsOf_prefixes fp i hi
    have := level_of_path_segs hmx hd h1 h2 (by rw [hp]; exact h3)
    omega
  have phaseB : ∀ k, k ≤ n - 1 →
      Inv ((List.range k).foldl stepB m₁) ∧
      (∀ i, i < n → ∃ e ∈ (List.range k).foldl stepB m₁, e.path = prefixPath segs i) ∧
      (∀ d ∈ (List.range k).foldl stepB m₁, d.level ≠ 0 →
        (∃ e ∈ (List.range k).foldl stepB m₁, d.path ∈ e.children) ∨
          ∃ i, k < i ∧ i < n ∧ d.path = prefixPath segs i) := by
    intro k
    induction k with
    | zero =>
      intro _
      refine ⟨hInvA, fun i hi => hPresA i hi, ?_⟩
      intro d hd hl
      rcases hPLA d hd hl with ⟨e, he, hc⟩ | ⟨i, hi, hp⟩
      · exact Or.inl ⟨e, he, hc⟩
      · right
        refine ⟨i, ?_, hi, hp⟩
        rcases Nat.eq_zero_or_pos i with h0 | h0
        · subst h0
          exact absurd (levelPrefix hInvA d hd 0 (by omega) hp) hl
        · exact h0
    | succ k ih =>
      intro hk
      obtain ⟨ihInv, ihPres, ihPL⟩ := ih (Nat.le_of_succ_le hk)
      rw [List.range_succ, List.foldl_append]
      simp only [List.foldl_cons, List.foldl_nil]
      have hk1 : k + 1 < n := by omega
      refine ⟨?_, ?_, ?_⟩
      · apply Inv_linkNodes ihInv
        · exact ihPres (k + 1) hk1
        · refine ⟨(segs.getD (k + 1) "").data, ?_, ?_⟩
          · have hmem : segs.getD (k + 1) "" ∈ segs := by
              rw [List.getD_eq_getElem segs "" hk1]
              exact List.getElem_mem hk1
            rw [hsegs] at hmem
            exact jsSplit_free fp _ hmem
          · exact prefixPath_succ_data hk1
      · intro i hi
        rw [show (stepB ((List.range k).foldl stepB m₁) k)
            = linkNodes ((List.range k).foldl stepB m₁) (prefixPath segs k) (prefixPath segs (k + 1)) from rfl]
        exact (exists_path_linkNodes_iff).2 (ihPres i hi)
      · intro d hd hl
        have hdmem := hd
        rw [show (stepB ((List.range k).foldl stepB m₁) k)
            = linkNodes ((List.range k).foldl stepB m₁) (prefixPath segs k) (prefixPath segs (k + 1)) from rfl] at hdmem ⊢
        have hdpath : ∃ d₀ ∈ (List.range k).foldl stepB m₁, d₀.path = d.path ∧ d₀.level = d.level := by
          rw [linkNodes_eq] at hdmem
          obtain ⟨d₁, hd₁, hval₁⟩ := mem_updateNode hdmem
          obtain ⟨d₀, hd₀, hval₀⟩ := mem_updateNode hd₁
          refine ⟨d₀, hd₀, ?_, ?_⟩
          · rw [hval₁, hval₀]
            rw [ite_path (appendChild_path _)]
            exact (ite_path (f := fun d => { d with parent := some (prefixPath segs k) })
              (fun d => rfl) d₀).symm
          · have h₁ : d₁.level = d₀.level := by
              rw [hval₀]
              by_cases h : d₀.path = prefixPath segs (k + 1) <;> simp [h]
            have h₂ : d.level = d₁.level := by
              rw [hval₁]
              by_cases h : d₁.path = prefixPath segs k
              · by_cases hc : prefixPath segs (k + 1) ∈ d₁.children <;>
                  simp [h, hc, appendChild]
              · simp [h]
            rw [h₂, h₁]
        obtain ⟨d₀, hd₀, hdp₀, hdl₀⟩ := hdpath
        rcases ihPL d₀ hd₀ (by rw [hdl₀]; exact hl) with ⟨e, he, hc⟩ | ⟨i, hki, hi, hp⟩
        · rcases @linkNodes_preserves_link _ (prefixPath segs k) (prefixPath segs (k + 1)) _ _
            ⟨e, he, rfl, hc⟩ with ⟨e', he', hep', hc'⟩
          left
          exact ⟨e', he', by rw [← hdp₀]; exact hc'⟩
        · rcases Nat.lt_or_ge (k + 1) i with hlt | hge
          · right
            exact ⟨i, hlt, hi, by rw [← hdp₀]; exact hp⟩
          · have hik : i = k + 1 := by omega
            subst hik
            left
            rcases linkNodes_links (ihPres k (by omega)) with ⟨e', he', _, hc'⟩
            exact ⟨e', he', by rw [← hdp₀, hp]; exact hc'⟩
  obtain ⟨_, _, hPLB⟩ := phaseB (n - 1) (le_refl _)
  intro d hd hl
  rcases hPLB d hd hl with ⟨e, he, hc⟩ | ⟨i, hki, hi, _⟩
  · exact ⟨e, he, hc⟩
  · omega

theorem buildMap_parentLinked (paths : List String) : ParentLinked (buildMap paths) := by
  unfold buildMap
  have main : ∀ (ps : List String) (m : FilesMap), Inv m → ParentLinked m →
      ParentLinked (ps.foldl addPath m) := by
    intro ps
    induction ps with
    | nil => intro m _ hpl; exact hpl
    | cons P rest ih =>
      intro m hm hpl
      rw [List.foldl_cons]
      exact ih (addPath m P) (addPath_inv_keys hm P).1 (addPath_parentLinked hm hpl P)
  exact main paths [] Inv.empty (fun d hd => absurd hd (List.not_mem_nil d))

/-! ## Node kinds are fixed at first creation -/

/-- Whether the first input path whose prefix set contains `q`
introduces `q` as its final (full-path) prefix: the builder assigns
`FileType.Js` exactly then. -/
def introducedAsLeaf (q : String) : List String → Bool
  | [] => false
  | P :: rest =>
    if (List.range (jsSplit P).length).any (fun i => prefixPath (jsSplit P) i == q) then
      prefixPath (jsSplit P) ((jsSplit P).length - 1) == q
    else introducedAsLeaf q rest

theorem any_prefix_iff {fp : String} {q : String} :
    ((List.range (jsSplit fp).length).any (fun i => prefixPath (jsSplit fp) i == q) = true)
      ↔ ∃ i, i < (jsSplit fp).length ∧ q = prefixPath (jsSplit fp) i := by
  rw [List.any_eq_true]
  constructor
  · intro ⟨i, hi, hq⟩
    exact ⟨i, List.mem_range.1 hi, (beq_iff_eq.1 hq).symm⟩
  · intro ⟨i, hi, hq⟩
    exact ⟨i, List.mem_range.2 hi, beq_iff_eq.2 hq.symm⟩

/-- Pointwise path/type preservation through `linkNodes`. -/
theorem linkNodes_path_type {m : FilesMap} {pp cp : String} :
    ∀ d' ∈ linkNodes m pp cp, ∃ d ∈ m, d.path = d'.path ∧ d.type = d'.type := by
  intro d' hd'
  rw [linkNodes_eq] at hd'
  obtain ⟨d₁, hd₁, hval₁⟩ := mem_updateNode hd'
  obtain ⟨d₀, hd₀, hval₀⟩ := mem_updateNode hd₁
  refine ⟨d₀, hd₀, ?_, ?_⟩
  · rw [hval₁, hval₀]
    rw [ite_path (appendChild_path _)]
    exact (ite_path (f := fun d => { d with parent := some pp }) (fun d => rfl) d₀).symm
  · have h₁ : d₁.type = d₀.type := by
      rw [hval₀]
      by_cases h : d₀.path = cp <;> simp [h]
    have h₂ : d'.type = d₁.type := by
      rw [hval₁]
      by_cases h : d₁.path = pp
      · by_cases hc : cp ∈ d₁.children <;> simp [h, hc, appendChild]
      · simp [h]
    rw [h₂, h₁]

/-- After `addPath`, every node either existed before with the same path
and type, or is a fresh prefix node whose type is `Js` exactly when its
path is the full input path. -/
theorem addPath_type {m : FilesMap} (fp : String) :
    ∀ d' ∈ addPath m fp,
      (∃ d ∈ m, d.path = d'.path ∧ d.type = d'.type) ∨
      ((∀ d ∈ m, d.path ≠ d'.path) ∧
        (∃ i, i < (jsSplit fp).length ∧ d'.path = prefixPath (jsSplit fp) i) ∧
        (d'.type = FileType.Js ↔ d'.path = prefixPath (jsSplit fp) ((jsSplit fp).length - 1))) := by
  unfold addPath
  set segs := jsSplit fp with hsegs
  set n := segs.length with hn
  set stepA := fun (m' : FilesMap) (i : Nat) =>
    insertNode m' (if i = n - 1 then FileType.Js else FileType.Dir)
      (prefixPath segs i) (segs.getD i "") i with hstepA
  have keysMono : ∀ k (q : String), (∃ d ∈ m, d.path = q) →
      ∃ d ∈ (List.range k).foldl stepA m, d.path = q := by
    intro k
    induction k with
    | zero => intro q h; simpa using h
    | succ k ih =>
      intro q h
      rw [List.range_succ, List.foldl_append]
      simp only [List.foldl_cons, List.foldl_nil]
      obtain ⟨d, hd, hp⟩ := ih q h
      exact ⟨d, insertNode_mem_mono hd, hp⟩
  have phaseA : ∀ k, k ≤ n → ∀ d' ∈ (List.range k).foldl stepA m,
      (∃ d ∈ m, d.path = d'.path ∧ d.type = d'.type) ∨
      ((∀ d ∈ m, d.path ≠ d'.path) ∧
        (∃ i, i < n ∧ d'.path = prefixPath segs i) ∧
        (d'.type = FileType.Js ↔ d'.path = prefixPath segs (n - 1))) := by
    intro k
    induction k with
    | zero =>
      intro _ d' hd'
      exact Or.inl ⟨d', hd', rfl, rfl⟩
    | succ k ih =>
      intro hk d' hd'
      rw [List.range_succ, List.foldl_append] at hd'
      simp only [List.foldl_cons, List.foldl_nil] at hd'
      have hik : k < n := hk
      show _ ∨ _
      rw [show stepA ((List.range k).foldl stepA m) k
          = insertNode ((List.range k).foldl stepA m)
              (if k = n - 1 then FileType.Js else FileType.Dir)
              (prefixPath segs k) (segs.getD k "") k from rfl] at hd'
      unfold insertNode at hd'
      rcases hfind : findNode ((List.range k).foldl stepA m) (prefixPath segs k) with _ | e
      · rw [hfind] at hd'
        rcases List.mem_append.1 hd' with h' | h'
        · exact ih (Nat.le_of_succ_le hk) d' h'
        · have hd'eq := List.mem_singleton.1 h'
          right
          have hpath : d'.path = prefixPath segs k := by rw [hd'eq]
          have htype : d'.type = (if k = n - 1 then FileType.Js else FileType.Dir) := by
            rw [hd'eq]
          refine ⟨?_, ⟨k, hik, hpath⟩, ?_⟩
          · intro d hd hcontra
            obtain ⟨e', he', hep'⟩ := keysMono k d'.path ⟨d, hd, hcontra⟩
            rw [hpath] at hep'
            exact findNode_eq_none.1 hfind e' he' hep'
          · rw [htype, hpath]
            by_cases hkn : k = n - 1
            · subst hkn
              simp
            · simp only [if_neg hkn]
              constructor
              · intro hcontra; exact absurd hcontra (by simp)
              · intro hcontra
                exact absurd (prefixPath_inj (by rw [← hsegs, ← hn]; exact hik)
                  (by rw [← hsegs, ← hn]; omega) hcontra) hkn
      · rw [hfind] at hd'
        exact ih (Nat.le_of_succ_le hk) d' hd'
  set m₁ := (List.range n).foldl stepA m with hm₁
  set stepB := fun (m' : FilesMap) (i : Nat) =>
    linkNodes m' (prefixPath segs i) (prefixPath segs (i + 1)) with hstepB
  have phaseB : ∀ k, ∀ d' ∈ (List.range k).foldl stepB m₁,
      ∃ d ∈ m₁, d.path = d'.path ∧ d.type = d'.type := by
    intro k
    induction k with
    | zero =>
      intro d' hd'
      exact ⟨d', hd', rfl, rfl⟩
    | succ k ih =>
      intro d' hd'
      rw [List.range_succ, List.foldl_append] at hd'
      simp only [List.foldl_cons, List.foldl_nil] at hd'
      obtain ⟨d₁, hd₁, hp₁, ht₁⟩ := linkNodes_path_type d' hd'
      obtain ⟨d, hd, hp, ht⟩ := ih d₁ hd₁
      exact ⟨d, hd, by rw [hp, hp₁], by rw [ht, ht₁]⟩
  intro d' hd'
  obtain ⟨d₁, hd₁, hp₁, ht₁⟩ := phaseB (n - 1) d' hd'
  rcases phaseA n (le_refl n) d₁ hd₁ with ⟨d, hd, hp, ht⟩ | ⟨hfresh, ⟨i, hi, hp⟩, hiff⟩
  · exact Or.inl ⟨d, hd, by rw [hp, hp₁], by rw [ht, ht₁]⟩
  · right
    refine ⟨?_, ⟨i, hi, by rw [← hp₁]; exact hp⟩, ?_⟩
    · intro d hd hcontra
      exact hfresh d hd (by rw [hcontra, hp₁])
    · rw [← hp₁, ← ht₁]
      exact hiff

theorem foldl_exists_path {β : Type} {step : FilesMap → β → FilesMap} {q : String}
    (hstep : ∀ m' i, (∃ e ∈ m', e.path = q) → ∃ e ∈ step m' i, e.path = q) :
    ∀ (l : List β) (m : FilesMap), (∃ e ∈ m, e.path = q) → ∃ e ∈ l.foldl step m, e.path = q := by
  intro l
  induction l with
  | nil => intro m h; exact h
  | cons b l ih => intro m h; exact ih _ (hstep m b h)

theorem addPath_keys_mono {m : FilesMap} (fp : String) {q : String}
    (h : ∃ e ∈ m, e.path = q) : ∃ e ∈ addPath m fp, e.path = q := by
  unfold addPath
  apply foldl_exists_path
  · intro m' i h'
    exact exists_path_linkNodes_iff.2 h'
  · apply foldl_exists_path
    · intro m' i h'
      obtain ⟨e, he, hp⟩ := h'
      exact ⟨e, insertNode_mem_mono he, hp⟩
    · exact h

theorem addPath_has_prefix {m : FilesMap} (fp : String) {i : Nat}
    (hi : i < (jsSplit fp).length) :
    ∃ e ∈ addPath m fp, e.path = prefixPath (jsSplit fp) i := by
  unfold addPath
  apply foldl_exists_path
  · intro m' j h'
    exact exists_path_linkNodes_iff.2 h'
  · set segs := jsSplit fp with hsegs
    set n := segs.length with hn
    set stepA := fun (m' : FilesMap) (j : Nat) =>
      insertNode m' (if j = n - 1 then FileType.Js else FileType.Dir)
        (prefixPath segs j) (segs.getD j "") j with hstepA
    have claim : ∀ k, i < k → ∃ e ∈ (List.range k).foldl stepA m, e.path = prefixPath segs i := by
      intro k
      induction k with
      | zero => intro h0; omega
      | succ k ih =>
        intro hik
        rw [List.range_succ, List.foldl_append]
        simp only [List.foldl_cons, List.foldl_nil]
        rcases Nat.lt_succ_iff_lt_or_eq.1 hik with h' | h'
        · obtain ⟨e, he, hp⟩ := ih h'
          exact ⟨e, insertNode_mem_mono he, hp⟩
        · subst h'
          exact insertNode_exists_path _ _ _ _ _
    exact claim n hi

/-- The node kind recorded in the built map is `Js` exactly when the
node's path was first introduced as the full path of an input. -/
theorem buildMap_type (paths : List String) :
    ∀ d ∈ buildMap paths, (d.type = FileType.Js ↔ introducedAsLeaf d.path paths = true) := by
  have main : ∀ (ps : List String) (m : FilesMap), ∀ d' ∈ ps.foldl addPath m,
      (∃ e ∈ m, e.path = d'.path ∧ e.type = d'.type) ∨
      ((∀ e ∈ m, e.path ≠ d'.path) ∧
        (d'.type = FileType.Js ↔ introducedAsLeaf d'.path ps = true)) := by
    intro ps
    induction ps with
    | nil =>
      intro m d' hd'
      exact Or.inl ⟨d', hd', rfl, rfl⟩
    | cons P rest ih =>
      intro m d' hd'
      rw [List.foldl_cons] at hd'
      rcases ih (addPath m P) d' hd' with ⟨e₁, he₁, hp₁, ht₁⟩ | ⟨hfresh, hiff⟩
      · rcases addPath_type P e₁ he₁ with ⟨e, he, hp, ht⟩ | ⟨hfr, ⟨i, hi, hp⟩, hif⟩
        · exact Or.inl ⟨e, he, by rw [hp, hp₁], by rw [ht, ht₁]⟩
        · right
          refine ⟨fun e he hc => hfr e he (by rw [hc, hp₁]), ?_⟩
          rw [← hp₁, ← ht₁]
          unfold introducedAsLeaf
          rw [if_pos (any_prefix_iff.2 ⟨i, hi, hp⟩)]
          rw [hif]
          constructor
          · intro h; exact beq_iff_eq.2 h.symm
          · intro h; exact (beq_iff_eq.1 h).symm
      · right
        constructor
        · intro e he hc
          obtain ⟨e', he', hp'⟩ := addPath_keys_mono P ⟨e, he, hc⟩
          exact hfresh e' he' hp'
        · rw [hiff]
          unfold introducedAsLeaf
          rw [if_neg ?hguard]
          case hguard =>
            intro hguard
            obtain ⟨i, hi, hq⟩ := any_prefix_iff.1 hguard
            obtain ⟨e', he', hp'⟩ := addPath_has_prefix (m := m) P hi
            exact hfresh e' he' (by rw [hp', ← hq])
          cases rest with
          | nil => rfl
          | cons Q qs => rfl
  intro d hd
  rcases main paths [] d hd with ⟨e, he, _⟩ | ⟨_, hiff⟩
  · exact absurd he (List.not_mem_nil e)
  · exact hiff

/-! ## Shape preservation across the ordering and layout passes -/

/-- Equality of all fields the later passes never change (`parent`,
`seq`, `x`, `y` may differ). -/
def EqShape (d e : FileData) : Prop :=
  e.path = d.path ∧ e.children = d.children ∧ e.type = d.type ∧
    e.base = d.base ∧ e.level = d.level

theorem eqShape_refl (d : FileData) : EqShape d d := ⟨rfl, rfl, rfl, rfl, rfl⟩

theorem eqShape_trans {d e f : FileData} (h₁ : EqShape d e) (h₂ : EqShape e f) : EqShape d f :=
  ⟨h₂.1.trans h₁.1, h₂.2.1.trans h₁.2.1, h₂.2.2.1.trans h₁.2.2.1,
    h₂.2.2.2.1.trans h₁.2.2.2.1, h₂.2.2.2.2.trans h₁.2.2.2.2⟩

/-- The later passes keep the node list aligned with the built map. -/
def SameShape (m₀ mc : FilesMap) : Prop := List.Forall₂ EqShape m₀ mc

theorem sameShape_refl (m : FilesMap) : SameShape m m := by
  induction m with
  | nil => exact List.Forall₂.nil
  | cons d m ih => exact List.Forall₂.cons (eqShape_refl d) ih

theorem SameShape_updateNode {m₀ mc : FilesMap} {p : String} {f : FileData → FileData}
    (h : SameShape m₀ mc) (hf : KeepsShape f) : SameShape m₀ (updateNode mc p f) := by
  unfold updateNode
  rw [SameShape, List.forall₂_map_right_iff]
  refine h.imp ?_
  intro d e he
  by_cases hp : e.path = p
  · rw [if_pos (by simpa using hp)]
    obtain ⟨h1, h2, h3, h4, h5⟩ := hf e
    exact ⟨h1.trans he.1, h2.trans he.2.1, h5.trans he.2.2.1, h4.trans he.2.2.2.1,
      h3.trans he.2.2.2.2⟩
  · rw [if_neg (by simpa using hp)]
    exact he

theorem SameShape.mem_right {m₀ mc : FilesMap} (h : SameShape m₀ mc) {e : FileData}
    (he : e ∈ mc) : ∃ d ∈ m₀, EqShape d e := by
  induction h with
  | nil => exact absurd he (List.not_mem_nil e)
  | cons hde htl ih =>
    rcases List.mem_cons.1 he with h' | h'
    · exact ⟨_, List.mem_cons_self _ _, h' ▸ hde⟩
    · obtain ⟨d, hd, hsh⟩ := ih h'
      exact ⟨d, List.mem_cons_of_mem _ hd, hsh⟩

theorem SameShape.mem_left {m₀ mc : FilesMap} (h : SameShape m₀ mc) {d : FileData}
    (hd : d ∈ m₀) : ∃ e ∈ mc, EqShape d e := by
  induction h with
  | nil => exact absurd hd (List.not_mem_nil d)
  | cons hde htl ih =>
    rcases List.mem_cons.1 hd with h' | h'
    · exact ⟨_, List.mem_cons_self _ _, h' ▸ hde⟩
    · obtain ⟨e, he, hsh⟩ := ih h'
      exact ⟨e, List.mem_cons_of_mem _ he, hsh⟩

theorem sameShape_findNode {m₀ mc : FilesMap} (h : SameShape m₀ mc) (q : String) :
    (WebViz.findNode m₀ q = none ∧ WebViz.findNode mc q = none) ∨
      ∃ d e, WebViz.findNode m₀ q = some d ∧ WebViz.findNode mc q = some e ∧ EqShape d e := by
  induction h with
  | nil => exact Or.inl ⟨rfl, rfl⟩
  | @cons d e m₀' mc' hde htl ih =>
    by_cases hq : d.path = q
    · right
      refine ⟨d, e, ?_, ?_, hde⟩
      · unfold WebViz.findNode
        exact List.find?_cons_of_pos _ (by simpa using hq)
      · unfold WebViz.findNode
        exact List.find?_cons_of_pos _ (by simp [hde.1, hq])
    · have h1 : WebViz.findNode (d :: m₀') q = WebViz.findNode m₀' q := by
        unfold WebViz.findNode
        exact List.find?_cons_of_neg _ (by simpa using hq)
      have h2 : WebViz.findNode (e :: mc') q = WebViz.findNode mc' q := by
        unfold WebViz.findNode
        exact List.find?_cons_of_neg _ (by simp [hde.1, hq])
      rw [h1, h2]
      exact ih

theorem SameShape.keysOf {m₀ mc : FilesMap} (h : SameShape m₀ mc) : keysOf mc = keysOf m₀ := by
  induction h with
  | nil => rfl
  | cons hde htl ih =>
    unfold WebViz.keysOf at ih ⊢
    simp only [List.map_cons]
    rw [ih, hde.1]

/-- `Inv` only reads shape fields, so it rides along. -/
theorem Inv_of_sameShape {m₀ mc : FilesMap} (hm : Inv m₀) (h : SameShape m₀ mc) : Inv mc := by
  constructor
  · rw [h.keysOf]; exact hm.nodup
  · intro e he
    obtain ⟨d, hd, hs⟩ := h.mem_right he
    obtain ⟨parts, h1, h2, h3, h4, h5⟩ := hm.segs d hd
    exact ⟨parts, h1, h2, by rw [hs.1, h3], by rw [hs.2.2.2.2]; exact h4,
      by rw [hs.2.2.2.1]; exact h5⟩
  · intro e he q hq
    obtain ⟨d, hd, hs⟩ := h.mem_right he
    rw [hs.2.1] at hq
    obtain ⟨e', he', hep'⟩ := hm.childMem d hd q hq
    obtain ⟨e'', he'', hs''⟩ := h.mem_left he'
    exact ⟨e'', he'', by rw [hs''.1, hep']⟩
  · intro e he q hq
    obtain ⟨d, hd, hs⟩ := h.mem_right he
    rw [hs.2.1] at hq
    obtain ⟨b, hb1, hb2⟩ := hm.childShape d hd q hq
    exact ⟨b, hb1, by rw [hs.1]; exact hb2⟩
  · intro e he
    obtain ⟨d, hd, hs⟩ := h.mem_right he
    rw [hs.2.1]
    exact hm.childNodup d hd
  · intro e he
    obtain ⟨d, hd, hs⟩ := h.mem_right he
    rw [hs.2.2.1]
    exact hm.typed d hd

theorem ParentLinked_of_sameShape {m₀ mc : FilesMap} (hpl : ParentLinked m₀)
    (h : SameShape m₀ mc) : ParentLinked mc := by
  intro e he hl
  obtain ⟨d, hd, hs⟩ := h.mem_right he
  obtain ⟨e', he', hc'⟩ := hpl d hd (by rw [← hs.2.2.2.2]; exact hl)
  obtain ⟨e'', he'', hs''⟩ := h.mem_left he'
  exact ⟨e'', he'', by rw [hs''.2.1, hs.1]; exact hc'⟩

/-- The depth-0 node list (`[...filesMap.values()].filter(level === 0)`). -/
def rootsOf (m : FilesMap) : List FileData := m.filter (fun d => d.level == 0)

theorem sameShape_rootsOf {m₀ mc : FilesMap} (h : SameShape m₀ mc) :
    List.Forall₂ EqShape (WebViz.rootsOf m₀) (WebViz.rootsOf mc) := by
  induction h with
  | nil => exact List.Forall₂.nil
  | @cons d e m₀' mc' hde htl ih =>
    unfold WebViz.rootsOf
    by_cases hl : d.level = 0
    · rw [List.filter_cons_of_pos (by simpa using hl),
        List.filter_cons_of_pos (by simp [hde.2.2.2.2, hl])]
      exact List.Forall₂.cons hde ih
    · rw [List.filter_cons_of_neg (by simpa using hl),
        List.filter_cons_of_neg (by simp [hde.2.2.2.2, hl])]
      exact ih

/-! ## The sibling comparator as a lexicographic order -/

/-- Directory kind ranks before every other kind. -/
def typeRank (t : FileType) : Nat := if t = FileType.Dir then 0 else 1

theorem childLe_iff (a b : FileData) :
    childLe a b = true ↔
      (typeRank a.type < typeRank b.type ∨
        (typeRank a.type = typeRank b.type ∧ strLt a.base b.base = true)) := by
  unfold childLe childCmp typeRank
  by_cases hab : a.type = b.type
  · rw [if_neg (by simp [hab]), if_neg (by simp [hab])]
    rw [hab]
    by_cases hs : strLt a.base b.base = true
    · simp [hs]
    · simp [hs]
  · by_cases haD : a.type = FileType.Dir
    · rw [if_pos ⟨hab, haD⟩]
      have hbD : b.type ≠ FileType.Dir := fun h => hab (haD.trans h.symm)
      simp [haD, hbD]
    · rw [if_neg (by intro h; exact haD h.2)]
      by_cases hbD : b.type = FileType.Dir
      · rw [if_pos ⟨hab, hbD⟩]
        simp [haD, hbD]
      · rw [if_neg (by intro h; exact hbD h.2)]
        by_cases hs : strLt a.base b.base = true
        · simp [hs, haD, hbD]
        · simp [hs, haD, hbD]

theorem childLe_trans {a b c : FileData} (hab : childLe a b = true) (hbc : childLe b c = true) :
    childLe a c = true := by
  rw [childLe_iff] at hab hbc ⊢
  rcases hab with h₁ | ⟨h₁, hs₁⟩
  · rcases hbc with h₂ | ⟨h₂, _⟩
    · exact Or.inl (lt_trans h₁ h₂)
    · exact Or.inl (h₂ ▸ h₁)
  · rcases hbc with h₂ | ⟨h₂, hs₂⟩
    · exact Or.inl (h₁ ▸ h₂)
    · exact Or.inr ⟨h₁.trans h₂, lexLt_trans hs₁ hs₂⟩

theorem childLe_total_of_base_ne {a b : FileData} (h : a.base ≠ b.base) :
    childLe a b = true ∨ childLe b a = true := by
  rw [childLe_iff, childLe_iff]
  rcases Nat.lt_trichotomy (typeRank a.type) (typeRank b.type) with ht | ht | ht
  · exact Or.inl (Or.inl ht)
  · have hdata : a.base.data ≠ b.base.data := fun hd => h (String.ext hd)
    rcases lexLt_total_of_ne hdata with hs | hs
    · exact Or.inl (Or.inr ⟨ht, hs⟩)
    · exact Or.inr (Or.inr ⟨ht.symm, hs⟩)
  · exact Or.inr (Or.inl ht)

/-! ## Resolving a children list in the map -/

theorem filterMap_findNode_map_path {m : FilesMap} {qs : List String}
    (h : ∀ q ∈ qs, ∃ e ∈ m, e.path = q) :
    (qs.filterMap (findNode m)).map FileData.path = qs := by
  induction qs with
  | nil => rfl
  | cons q qs ih =>
    obtain ⟨e, hfind⟩ := findNode_isSome.1 (h q (List.mem_cons_self q qs))
    rw [List.filterMap_cons, hfind]
    simp only [List.map_cons]
    rw [ih (fun q' hq' => h q' (List.mem_cons_of_mem q hq')), (findNode_eq_some hfind).2]

theorem mem_filterMap_findNode {m : FilesMap} {qs : List String} {c : FileData}
    (hc : c ∈ qs.filterMap (findNode m)) : c ∈ m ∧ c.path ∈ qs := by
  obtain ⟨q, hq, hfind⟩ := List.mem_filterMap.1 hc
  obtain ⟨hm, hp⟩ := findNode_eq_some hfind
  exact ⟨hm, by rwa [hp]⟩

theorem insertSorted_pairwise_of_ne {le : α → α → Bool} {x : α} {l : List α}
    (hl : List.Pairwise (fun a b => le a b = true) l)
    (hx : ∀ b ∈ l, x ≠ b → le x b = true ∨ le b x = true) (hxl : x ∉ l)
    (htr : ∀ a ∈ l, ∀ b ∈ l, le x a = true → le a b = true → le x b = true) :
    List.Pairwise (fun a b => le a b = true) (insertSorted le x l) := by
  induction l with
  | nil => simp [insertSorted]
  | cons y ys ih =>
    simp only [insertSorted]
    split
    · rename_i hxy
      refine List.Pairwise.cons ?_ hl
      intro b hb
      rcases List.mem_cons.1 hb with h | h
      · subst h; exact hxy
      · exact htr y (List.mem_cons_self y ys) b (List.mem_cons_of_mem y h) hxy
          (List.rel_of_pairwise_cons hl h)
    · rename_i hxy
      have hyx : le y x = true := by
        rcases hx y (List.mem_cons_self y ys) (fun h => hxl (h ▸ List.mem_cons_self y ys)) with h | h
        · exact absurd h hxy
        · exact h
      refine List.Pairwise.cons ?_ ?_
      · intro b hb
        have := (insertSorted_perm le x ys).mem_iff.1 hb
        rcases List.mem_cons.1 this with h | h
        · subst h; exact hyx
        · exact List.rel_of_pairwise_cons hl h
      · exact ih (List.Pairwise.of_cons hl)
          (fun b hb hne => hx b (List.mem_cons_of_mem y hb) hne)
          (fun h => hxl (List.mem_cons_of_mem y h))
          (fun a ha b hb => htr a (List.mem_cons_of_mem y ha) b (List.mem_cons_of_mem y hb))

theorem sortBy_pairwise_of_nodup {le : α → α → Bool} {l : List α} (hnd : l.Nodup)
    (htot : ∀ a ∈ l, ∀ b ∈ l, a ≠ b → le a b = true ∨ le b a = true)
    (htr : ∀ a ∈ l, ∀ b ∈ l, ∀ c ∈ l, le a b = true → le b c = true → le a c = true) :
    List.Pairwise (fun a b => le a b = true) (sortBy le l) := by
  induction l with
  | nil => simp [sortBy]
  | cons x xs ih =>
    have hnd' := List.nodup_cons.1 hnd
    have hmem : ∀ a ∈ sortBy le xs, a ∈ x :: xs := fun a ha =>
      List.mem_cons_of_mem x (mem_sortBy.1 ha)
    refine insertSorted_pairwise_of_ne
      (ih hnd'.2
        (fun a ha b hb => htot a (List.mem_cons_of_mem x ha) b (List.mem_cons_of_mem x hb))
        (fun a ha b hb c hc => htr a (List.mem_cons_of_mem x ha) b (List.mem_cons_of_mem x hb)
          c (List.mem_cons_of_mem x hc)))
      (fun b hb => htot x (List.mem_cons_self x xs) b (hmem b hb))
      (fun h => hnd'.1 (mem_sortBy.1 h))
      (fun a ha b hb => htr x (List.mem_cons_self x xs) a (hmem a ha) b (hmem b hb))

/-! ## The index-assignment fold of the ordering pass -/

/-- Running `child.seq = index` over an indexed list of distinct-path
nodes pins each node's map entry and touches nothing else. -/
theorem enumFrom_fold_spec :
    ∀ (l : List FileData) (k : Nat) (mc : FilesMap),
      (l.map FileData.path).Nodup →
      (∀ c ∈ l, findNode mc c.path = some c) →
      (∀ q, q ∉ l.map FileData.path →
        findNode ((l.enumFrom k).foldl
          (fun m p => updateNode m p.2.path (fun d => { d with seq := p.1 })) mc) q
          = findNode mc q) ∧
      (∀ j (hj : j < l.length),
        findNode ((l.enumFrom k).foldl
          (fun m p => updateNode m p.2.path (fun d => { d with seq := p.1 })) mc)
          ((l.get ⟨j, hj⟩).path) = some { l.get ⟨j, hj⟩ with seq := k + j }) := by
  intro l
  induction l with
  | nil =>
    intro k mc _ _
    exact ⟨fun q _ => rfl, fun j hj => absurd hj (by simp)⟩
  | cons c l ih =>
    intro k mc hnd hpre
    rw [List.map_cons] at hnd
    have hnd' := List.nodup_cons.1 hnd
    set mc₁ := updateNode mc c.path (fun d => { d with seq := k }) with hmc₁
    have hpin : findNode mc₁ c.path = some { c with seq := k } := by
      rw [hmc₁, findNode_updateNode_self (f := fun d => { d with seq := k }) (fun d => rfl),
        hpre c (List.mem_cons_self c l)]
      rfl
    have hpre' : ∀ c' ∈ l, findNode mc₁ c'.path = some c' := by
      intro c' hc'
      rw [hmc₁, findNode_updateNode_ne (f := fun d => { d with seq := k }) (fun d => rfl)
        (fun h => hnd'.1 (by rw [← h]; exact List.mem_map_of_mem FileData.path hc'))]
      exact hpre c' (List.mem_cons_of_mem c hc')
    obtain ⟨ihFrame, ihPin⟩ := ih (k + 1) mc₁ hnd'.2 hpre'
    have hfold : ((c :: l).enumFrom k).foldl
        (fun m p => updateNode m p.2.path (fun d => { d with seq := p.1 })) mc
        = (l.enumFrom (k + 1)).foldl
          (fun m p => updateNode m p.2.path (fun d => { d with seq := p.1 })) mc₁ := rfl
    constructor
    · intro q hq
      rw [List.map_cons] at hq
      rw [hfold, ihFrame q (fun h => hq (List.mem_cons_of_mem _ h)), hmc₁,
        findNode_updateNode_ne (f := fun d => { d with seq := k }) (fun d => rfl)
          (fun h => hq (by rw [h]; exact List.mem_cons_self _ _))]
    · intro j hj
      cases j with
      | zero =>
        have hc0 : ((c :: l).get ⟨0, hj⟩) = c := rfl
        rw [hc0, hfold, ihFrame c.path hnd'.1, hpin]
        simp
      | succ j' =>
        rw [hfold]
        have := ihPin j' (by simpa using Nat.lt_of_succ_lt_succ hj)
        simp only [List.get_cons_succ]
        rw [this]
        congr 1
        simp
        omega

/-- Two lists of map entries with permuted path lists are permutations
of each other. -/
theorem perm_of_map_path_perm {m : FilesMap} {l₁ l₂ : List FileData}
    (h₁ : ∀ c ∈ l₁, findNode m c.path = some c) (h₂ : ∀ c ∈ l₂, findNode m c.path = some c)
    (hp : (l₁.map FileData.path).Perm (l₂.map FileData.path)) : l₁.Perm l₂ := by
  have recover : ∀ (l : List FileData), (∀ c ∈ l, findNode m c.path = some c) →
      (l.map FileData.path).filterMap (findNode m) = l := by
    intro l hl
    induction l with
    | nil => rfl
    | cons c l ihl =>
      simp only [List.map_cons, List.filterMap_cons]
      rw [hl c (List.mem_cons_self c l)]
      rw [ihl (fun c' hc' => hl c' (List.mem_cons_of_mem c hc'))]
  rw [← recover l₁ h₁, ← recover l₂ h₂]
  exact hp.filterMap (findNode m)

/-- The postcondition of the `seq`-assignment pass for one node's
children, resolved in the map `m`: the `seq` ranks are exactly
`0 … k-1`, and ranking respects the comparator (Directory kind first,
then names ascending). -/
def KidsOK (m : FilesMap) (d : FileData) : Prop :=
  ((d.children.filterMap (findNode m)).map (fun c => c.seq)).Perm
      (List.range d.children.length) ∧
  ∀ c₁ ∈ d.children.filterMap (findNode m), ∀ c₂ ∈ d.children.filterMap (findNode m),
    c₁.seq < c₂.seq →
      typeRank c₁.type ≤ typeRank c₂.type ∧
        (c₁.type = c₂.type → strLt c₁.base c₂.base = true)

theorem filterMap_findNode_congr {m₁ m₂ : FilesMap} {qs : List String}
    (h : ∀ q ∈ qs, findNode m₁ q = findNode m₂ q) :
    qs.filterMap (findNode m₁) = qs.filterMap (findNode m₂) := by
  induction qs with
  | nil => rfl
  | cons q qs ih =>
    rw [List.filterMap_cons, List.filterMap_cons, h q (List.mem_cons_self q qs),
      ih (fun q' hq' => h q' (List.mem_cons_of_mem q hq'))]

theorem resolved_findNode {m : FilesMap} {qs : List String} {c : FileData}
    (hc : c ∈ qs.filterMap (findNode m)) : findNode m c.path = some c := by
  obtain ⟨q, _, hfind⟩ := List.mem_filterMap.1 hc
  rwa [(findNode_eq_some hfind).2]

theorem path_ne_of_ne {m : FilesMap} (hnd : (keysOf m).Nodup) {a b : FileData}
    (ha : a ∈ m) (hb : b ∈ m) (hne : a ≠ b) : a.path ≠ b.path :=
  fun h => hne (eq_of_mem_of_path_eq hnd ha hb h)

theorem child_path_ne_self {m : FilesMap} (hm : Inv m) {d : FileData} (hd : d ∈ m)
    {q : String} (hq : q ∈ d.children) : q ≠ d.path := by
  obtain ⟨b, _, hbe⟩ := hm.childShape d hd q hq
  intro h
  rw [h] at hbe
  have := congrArg List.length hbe
  simp at this

theorem SameShape_foldl_seq {m₀ : FilesMap} :
    ∀ (l : List (Nat × FileData)) {mc : FilesMap}, SameShape m₀ mc →
      SameShape m₀ (l.foldl
        (fun m p => updateNode m p.2.path (fun d => { d with seq := p.1 })) mc) := by
  intro l
  induction l with
  | nil => intro mc h; exact h
  | cons p l ih =>
    intro mc h
    exact ih (SameShape_updateNode h (fun d => ⟨rfl, rfl, rfl, rfl, rfl⟩))

/-- Proof-side name for the sort-and-index part of `assignSeqStep`. -/
def kidsFold (mcn : FilesMap) (node : FileData) : FilesMap :=
  ((sortBy childLe (node.children.filterMap (findNode mcn))).enum).foldl
    (fun m p => updateNode m p.2.path (fun d => { d with seq := p.1 })) mcn

theorem assignSeqStep_eq (st : FilesMap × Nat) (node : FileData) :
    assignSeqStep st node
      = if node.level = 0
        then (kidsFold (updateNode st.1 node.path (fun d => { d with seq := st.2 })) node,
              st.2 + 1)
        else (kidsFold st.1 node, st.2) := by
  unfold assignSeqStep kidsFold
  by_cases h : node.level = 0 <;> simp [h]

theorem kidsFold_spec {m₀ : FilesMap} (hm : Inv m₀) {mcn : FilesMap} {node : FileData}
    (hmem : node ∈ m₀) (hSame : SameShape m₀ mcn) :
    SameShape m₀ (kidsFold mcn node) ∧
    (∀ q, q ∉ node.children → findNode (kidsFold mcn node) q = findNode mcn q) ∧
    KidsOK (kidsFold mcn node) node := by
  have hInv : Inv mcn := Inv_of_sameShape hm hSame
  obtain ⟨dm, hdm, hsh⟩ := hSame.mem_left hmem
  set kids := node.children.filterMap (findNode mcn) with hkidsdef
  have hckids : node.children = dm.children := hsh.2.1.symm
  have hkpaths : kids.map FileData.path = node.children := by
    apply filterMap_findNode_map_path
    intro q hq
    exact hInv.childMem dm hdm q (by rw [← hckids]; exact hq)
  have hchnodup : node.children.Nodup := by
    rw [hckids]; exact hInv.childNodup dm hdm
  have hkids_nodup_paths : (kids.map FileData.path).Nodup := by rw [hkpaths]; exact hchnodup
  have hkids_res : ∀ c ∈ kids, findNode mcn c.path = some c := fun c hc => resolved_findNode hc
  set s := sortBy childLe kids with hsdef
  have hs_perm : s.Perm kids := sortBy_perm childLe kids
  have hs_paths_perm : (s.map FileData.path).Perm node.children := by
    rw [← hkpaths]
    exact hs_perm.map FileData.path
  have hs_paths_nodup : (s.map FileData.path).Nodup :=
    (hs_paths_perm.nodup_iff).2 (hkpaths ▸ hkids_nodup_paths)
  have hs_res : ∀ c ∈ s, findNode mcn c.path = some c := fun c hc =>
    hkids_res c (hs_perm.mem_iff.1 hc)
  have hkids_nodup : kids.Nodup := List.Nodup.of_map FileData.path hkids_nodup_paths
  have hpair : List.Pairwise (fun a b => childLe a b = true) s := by
    apply sortBy_pairwise_of_nodup hkids_nodup
    · intro a ha b hb hne
      have hpa : a.path ≠ b.path := fun h =>
        hne (List.inj_on_of_nodup_map hkids_nodup_paths ha hb h)
      apply childLe_total_of_base_ne
      exact sibling_base_ne hInv hdm
        (by rw [← hckids]; rw [← hkpaths]; exact List.mem_map_of_mem _ ha)
        (by rw [← hckids]; rw [← hkpaths]; exact List.mem_map_of_mem _ hb)
        hpa ((mem_filterMap_findNode ha).1) rfl ((mem_filterMap_findNode hb).1) rfl
    · intro a _ b _ c _ hab hbc
      exact childLe_trans hab hbc
  obtain ⟨hframe, hpin⟩ := enumFrom_fold_spec s 0 mcn hs_paths_nodup hs_res
  have hfold_eq : kidsFold mcn node
      = (s.enumFrom 0).foldl
          (fun m p => updateNode m p.2.path (fun d => { d with seq := p.1 })) mcn := rfl
  have hSame' : SameShape m₀ (kidsFold mcn node) := by
    rw [hfold_eq]
    exact SameShape_foldl_seq _ hSame
  have hframe' : ∀ q, q ∉ node.children → findNode (kidsFold mcn node) q = findNode mcn q := by
    intro q hq
    rw [hfold_eq]
    exact hframe q (fun h => hq (hs_paths_perm.mem_iff.1 h))
  refine ⟨hSame', hframe', ?_⟩
  set s' := s.enum.map (fun p => { p.2 with seq := p.1 }) with hsxdef
  have hs'_elems : ∀ c ∈ s', ∃ (j : Nat) (hj : j < s.length), c = { s[j] with seq := j } := by
    intro c hc
    rw [hsxdef] at hc
    obtain ⟨p, hp, hval⟩ := List.mem_map.1 hc
    obtain ⟨j, x⟩ := p
    obtain ⟨hj, hx⟩ := List.mem_enum hp
    refine ⟨j, hj, ?_⟩
    rw [← hval]
    simp only
    rw [← hx]
  have hs'_pin : ∀ (j : Nat) (hj : j < s.length),
      findNode (kidsFold mcn node) ((s[j]).path) = some { s[j] with seq := j } := by
    intro j hj
    rw [hfold_eq]
    have := hpin j hj
    simpa using this
  have hs'_res : ∀ c ∈ s', findNode (kidsFold mcn node) c.path = some c := by
    intro c hc
    obtain ⟨j, hj, hval⟩ := hs'_elems c hc
    rw [hval]
    exact hs'_pin j hj
  have hres' : ∀ q ∈ node.children, ∃ e ∈ kidsFold mcn node, e.path = q := by
    intro q hq
    obtain ⟨c, hc, hcp⟩ := List.mem_map.1 (hs_paths_perm.mem_iff.2 hq)
    obtain ⟨j, hj, hcj⟩ := List.mem_iff_getElem.1 hc
    have hfound := hs'_pin j hj
    rw [hcj] at hfound
    obtain ⟨hmemf, _⟩ := findNode_eq_some hfound
    refine ⟨_, hmemf, ?_⟩
    show c.path = q
    exact hcp
  unfold KidsOK
  set ks' := node.children.filterMap (findNode (kidsFold mcn node)) with hks'def
  have hks'_paths : ks'.map FileData.path = node.children := filterMap_findNode_map_path hres'
  have hks'_res : ∀ c ∈ ks', findNode (kidsFold mcn node) c.path = some c := fun c hc =>
    resolved_findNode hc
  have hs'_paths : s'.map FileData.path = s.map FileData.path := by
    rw [hsxdef, List.map_map]
    have h1 : (FileData.path ∘ fun p : Nat × FileData => { p.2 with seq := p.1 })
        = (fun p : Nat × FileData => p.2.path) := rfl
    rw [h1]
    have h2 : (fun p : Nat × FileData => p.2.path) = (FileData.path ∘ Prod.snd) := rfl
    rw [h2, ← List.map_map, List.enum_map_snd]
  have hperm : ks'.Perm s' := by
    apply perm_of_map_path_perm hks'_res hs'_res
    rw [hks'_paths, hs'_paths]
    exact hs_paths_perm.symm
  have hsL : s.length = node.children.length := by
    have hkl := congrArg List.length hkpaths
    rw [List.length_map] at hkl
    rw [hs_perm.length_eq, hkl]
  constructor
  · have h1 : (ks'.map (fun c => c.seq)).Perm (s'.map (fun c => c.seq)) :=
      hperm.map _
    have h2 : s'.map (fun c => c.seq) = List.range s.length := by
      rw [hsxdef, List.map_map]
      have h3 : ((fun c : FileData => c.seq) ∘ fun p : Nat × FileData => { p.2 with seq := p.1 })
          = Prod.fst := rfl
      rw [h3, List.enum_map_fst]
    have h4 : s'.map (fun c => c.seq) = List.range node.children.length := by
      rw [h2, hsL]
    rw [← h4]
    exact h1
  · intro c₁ hc₁ c₂ hc₂ hlt
    obtain ⟨j₁, hj₁, he₁⟩ := hs'_elems c₁ (hperm.mem_iff.1 hc₁)
    obtain ⟨j₂, hj₂, he₂⟩ := hs'_elems c₂ (hperm.mem_iff.1 hc₂)
    have hseq₁ : c₁.seq = j₁ := by rw [he₁]
    have hseq₂ : c₂.seq = j₂ := by rw [he₂]
    have hjlt : j₁ < j₂ := by rw [hseq₁, hseq₂] at hlt; exact hlt
    have hcl := List.pairwise_iff_getElem.1 hpair j₁ j₂ hj₁ hj₂ hjlt
    rw [childLe_iff] at hcl
    have ht₁ : c₁.type = (s[j₁]).type := by rw [he₁]
    have ht₂ : c₂.type = (s[j₂]).type := by rw [he₂]
    have hb₁ : c₁.base = (s[j₁]).base := by rw [he₁]
    have hb₂ : c₂.base = (s[j₂]).base := by rw [he₂]
    constructor
    · rcases hcl with h | ⟨h, _⟩
      · rw [ht₁, ht₂]; exact le_of_lt h
      · rw [ht₁, ht₂, h]
    · intro hty
      rcases hcl with h | ⟨_, hsl⟩
      · exfalso
        have : typeRank (s[j₁]).type = typeRank (s[j₂]).type := by
          rw [← ht₁, ← ht₂, hty]
        omega
      · rw [hb₁, hb₂]; exact hsl

theorem mem_rootsOf {m : FilesMap} {x : FileData} :
    x ∈ rootsOf m ↔ x ∈ m ∧ x.level = 0 := by
  unfold rootsOf
  rw [List.mem_filter]
  constructor
  · intro ⟨h1, h2⟩; exact ⟨h1, by simpa using h2⟩
  · intro ⟨h1, h2⟩; exact ⟨h1, by simpa using h2⟩

theorem level_at_path {m₀ mc : FilesMap} (hSame : SameShape m₀ mc)
    {q : String} {e : FileData} (hf : findNode mc q = some e) :
    ∃ d ∈ m₀, d.path = q ∧ d.level = e.level := by
  rcases sameShape_findNode hSame q with ⟨_, h2⟩ | ⟨d, e', h1, h2, hsh⟩
  · rw [hf] at h2; exact absurd h2 (by simp)
  · rw [hf] at h2
    obtain ⟨hd, hp⟩ := findNode_eq_some h1
    have he : e' = e := Option.some.inj h2.symm
    exact ⟨d, hd, hp, by rw [← hsh.2.2.2.2, he]⟩

theorem child_levels {m₀ : FilesMap} (hm : Inv m₀) {node : FileData} (hmem : node ∈ m₀)
    {q : String} (hq : q ∈ node.children) :
    ∃ e₀ ∈ m₀, e₀.path = q ∧ e₀.level = node.level + 1 := by
  obtain ⟨e₀, he₀, hp⟩ := hm.childMem node hmem q hq
  exact ⟨e₀, he₀, hp, child_level hm hmem hq he₀ hp⟩

/-- A path with two different levels at its two ends cannot coincide:
a child path of `node` never equals the path of a level-0 node of the
map. -/
theorem child_path_ne_root_path {m₀ : FilesMap} (hm : Inv m₀) {node r : FileData}
    (hmem : node ∈ m₀) (hr : r ∈ m₀) (hrl : r.level = 0) {q : String}
    (hq : q ∈ node.children) : q ≠ r.path := by
  intro h
  obtain ⟨e₀, he₀, hp, hl⟩ := child_levels hm hmem hq
  have : e₀ = r := eq_of_mem_of_path_eq hm.nodup he₀ hr (by rw [hp, h])
  rw [this, hrl] at hl
  omega

theorem assignSeqStep_spec {m₀ : FilesMap} (hm : Inv m₀)
    {pre : List FileData} {st : FilesMap × Nat} {node : FileData}
    (hmem : node ∈ m₀) (hnpre : node ∉ pre) (hsub : ∀ x ∈ pre, x ∈ m₀)
    (hSame : SameShape m₀ st.1)
    (hcount : st.2 = (rootsOf pre).length)
    (hpins : ∀ (j : Nat) (dj : FileData), (rootsOf pre)[j]? = some dj →
      findNode st.1 dj.path = some { dj with seq := j })
    (hkidsOK : ∀ x ∈ pre, KidsOK st.1 x)
    (hfresh : ∀ x ∈ m₀, x ∉ pre → x.level = 0 → findNode st.1 x.path = some x) :
    SameShape m₀ (assignSeqStep st node).1 ∧
    (assignSeqStep st node).2 = (rootsOf (pre ++ [node])).length ∧
    (∀ (j : Nat) (dj : FileData), (rootsOf (pre ++ [node]))[j]? = some dj →
      findNode (assignSeqStep st node).1 dj.path = some { dj with seq := j }) ∧
    (∀ x ∈ pre ++ [node], KidsOK (assignSeqStep st node).1 x) ∧
    (∀ x ∈ m₀, x ∉ pre ++ [node] → x.level = 0 →
      findNode (assignSeqStep st node).1 x.path = some x) := by
  have hndk := hm.nodup
  have hq_ne_pre_kids : ∀ x ∈ pre, ∀ q ∈ x.children, q ∉ node.children := by
    intro x hx q hqx hqn
    exact hnpre (by
      have := parent_unique hm hmem (hsub x hx) hqn hqx
      rw [this]; exact hx)
  rw [assignSeqStep_eq]
  by_cases hroot : node.level = 0
  · rw [if_pos hroot]
    set mcn := updateNode st.1 node.path (fun d => { d with seq := st.2 }) with hmcn
    have hSame_n : SameShape m₀ mcn :=
      SameShape_updateNode hSame (fun d => ⟨rfl, rfl, rfl, rfl, rfl⟩)
    have hpin_node : findNode mcn node.path = some { node with seq := st.2 } := by
      rw [hmcn, findNode_updateNode_self (f := fun d => { d with seq := st.2 }) (fun d => rfl),
        hfresh node hmem hnpre hroot]
      rfl
    obtain ⟨hS', hF', hK'⟩ := kidsFold_spec hm hmem hSame_n
    have hroots_app : rootsOf (pre ++ [node]) = rootsOf pre ++ [node] := by
      unfold rootsOf
      rw [List.filter_append]
      congr 1
      rw [List.filter_cons_of_pos (by simpa using hroot)]
      rfl
    have hnode_path_not_kid : node.path ∉ node.children := by
      intro h
      exact child_path_ne_self hm hmem h rfl
    refine ⟨hS', ?_, ?_, ?_, ?_⟩
    · show st.2 + 1 = _
      rw [hroots_app, List.length_append, hcount]
      rfl
    · intro j dj hdj
      rw [hroots_app] at hdj
      show findNode (kidsFold mcn node) dj.path = _
      rcases Nat.lt_or_ge j (rootsOf pre).length with hjl | hjl
      · rw [List.getElem?_append_left hjl] at hdj
        obtain ⟨hjb, hjv⟩ := List.getElem?_eq_some.1 hdj
        have hdj_pre : dj ∈ pre := (mem_rootsOf.1 (hjv ▸ List.getElem_mem hjb)).1
        have hdj_root : dj.level = 0 := (mem_rootsOf.1 (hjv ▸ List.getElem_mem hjb)).2
        have hdj_m₀ : dj ∈ m₀ := hsub dj hdj_pre
        have hdj_ne : dj.path ∉ node.children :=
          fun h => child_path_ne_root_path hm hmem hdj_m₀ hdj_root h rfl
        rw [hF' dj.path hdj_ne, hmcn,
          findNode_updateNode_ne (f := fun d => { d with seq := st.2 }) (fun d => rfl)
            (path_ne_of_ne hndk hdj_m₀ hmem (fun h => hnpre (h ▸ hdj_pre)))]
        exact hpins j dj hdj
      · rw [List.getElem?_append_right hjl] at hdj
        obtain ⟨hjb, hjv⟩ := List.getElem?_eq_some.1 hdj
        simp only [List.length_singleton] at hjb
        have hdjnode : dj = node := by
          rw [← hjv, List.getElem_singleton]
        have hjeq : j = (rootsOf pre).length := by omega
        rw [hdjnode, hF' node.path hnode_path_not_kid, hpin_node, hcount, hjeq]
    · intro x hx
      rcases List.mem_append.1 hx with hxp | hxn
      · have hcong : x.children.filterMap (findNode (kidsFold mcn node))
            = x.children.filterMap (findNode st.1) := by
          apply filterMap_findNode_congr
          intro q hq
          rw [hF' q (hq_ne_pre_kids x hxp q hq), hmcn,
            findNode_updateNode_ne (f := fun d => { d with seq := st.2 }) (fun d => rfl)
              (child_path_ne_root_path hm (hsub x hxp) hmem hroot hq)]
        have := hkidsOK x hxp
        unfold KidsOK at this ⊢
        rw [hcong]
        exact this
      · rw [List.mem_singleton.1 hxn]
        exact hK'
    · intro x hxm hxpre hxl
      have hx_ne_node : x ≠ node := fun h =>
        hxpre (by rw [h]; exact List.mem_append_right _ (List.mem_singleton_self _))
      have hx_pre : x ∉ pre := fun h => hxpre (List.mem_append_left _ h)
      have hx_not_kid : x.path ∉ node.children :=
        fun h => child_path_ne_root_path hm hmem hxm hxl h rfl
      show findNode (kidsFold mcn node) x.path = some x
      rw [hF' x.path hx_not_kid, hmcn,
        findNode_updateNode_ne (f := fun d => { d with seq := st.2 }) (fun d => rfl)
          (path_ne_of_ne hndk hxm hmem hx_ne_node)]
      exact hfresh x hxm hx_pre hxl
  · rw [if_neg hroot]
    obtain ⟨hS', hF', hK'⟩ := kidsFold_spec hm hmem hSame
    have hroots_app : rootsOf (pre ++ [node]) = rootsOf pre := by
      unfold rootsOf
      rw [List.filter_append]
      rw [List.filter_cons_of_neg (by simpa using hroot)]
      simp
    refine ⟨hS', ?_, ?_, ?_, ?_⟩
    · show st.2 = _
      rw [hroots_app, hcount]
    · intro j dj hdj
      rw [hroots_app] at hdj
      show findNode (kidsFold st.1 node) dj.path = _
      obtain ⟨hjb, hjv⟩ := List.getElem?_eq_some.1 hdj
      have hdj_pre : dj ∈ pre := (mem_rootsOf.1 (hjv ▸ List.getElem_mem hjb)).1
      have hdj_root : dj.level = 0 := (mem_rootsOf.1 (hjv ▸ List.getElem_mem hjb)).2
      have hdj_m₀ : dj ∈ m₀ := hsub dj hdj_pre
      have hdj_ne : dj.path ∉ node.children :=
        fun h => child_path_ne_root_path hm hmem hdj_m₀ hdj_root h rfl
      rw [hF' dj.path hdj_ne]
      exact hpins j dj hdj
    · intro x hx
      rcases List.mem_append.1 hx with hxp | hxn
      · have hcong : x.children.filterMap (findNode (kidsFold st.1 node))
            = x.children.filterMap (findNode st.1) := by
          apply filterMap_findNode_congr
          intro q hq
          rw [hF' q (hq_ne_pre_kids x hxp q hq)]
        have := hkidsOK x hxp
        unfold KidsOK at this ⊢
        rw [hcong]
        exact this
      · rw [List.mem_singleton.1 hxn]
        exact hK'
    · intro x hxm hxpre hxl
      have hx_pre : x ∉ pre := fun h => hxpre (List.mem_append_left _ h)
      have hx_not_kid : x.path ∉ node.children :=
        fun h => child_path_ne_root_path hm hmem hxm hxl h rfl
      show findNode (kidsFold st.1 node) x.path = some x
      rw [hF' x.path hx_not_kid]
      exact hfresh x hxm hx_pre hxl

/-- The whole ordering pass: shape is preserved, the `j`-th root (in map
order) receives `seq = j`, and every node's children receive the ranks
`0 … k-1` in comparator order. -/
theorem assignSeqs_spec {m₀ : FilesMap} (hm : Inv m₀) :
    SameShape m₀ (assignSeqs m₀) ∧
    (∀ (j : Nat) (dj : FileData), (rootsOf m₀)[j]? = some dj →
      findNode (assignSeqs m₀) dj.path = some { dj with seq := j }) ∧
    (∀ node ∈ m₀, KidsOK (assignSeqs m₀) node) := by
  have hnd : m₀.Nodup := List.Nodup.of_map _ hm.nodup
  have main : ∀ (suf pre : List FileData) (st : FilesMap × Nat), m₀ = pre ++ suf →
      (SameShape m₀ st.1 ∧ st.2 = (rootsOf pre).length ∧
        (∀ (j : Nat) (dj : FileData), (rootsOf pre)[j]? = some dj →
          findNode st.1 dj.path = some { dj with seq := j }) ∧
        (∀ x ∈ pre, KidsOK st.1 x) ∧
        (∀ x ∈ m₀, x ∉ pre → x.level = 0 → findNode st.1 x.path = some x)) →
      SameShape m₀ (suf.foldl assignSeqStep st).1 ∧
        (suf.foldl assignSeqStep st).2 = (rootsOf (pre ++ suf)).length ∧
        (∀ (j : Nat) (dj : FileData), (rootsOf (pre ++ suf))[j]? = some dj →
          findNode (suf.foldl assignSeqStep st).1 dj.path = some { dj with seq := j }) ∧
        (∀ x ∈ pre ++ suf, KidsOK (suf.foldl assignSeqStep st).1 x) ∧
        (∀ x ∈ m₀, x ∉ pre ++ suf → x.level = 0 →
          findNode (suf.foldl assignSeqStep st).1 x.path = some x) := by
    intro suf
    induction suf with
    | nil =>
      intro pre st hsplit hQ
      simpa using hQ
    | cons node suf' ih =>
      intro pre st hsplit hQ
      obtain ⟨hQ1, hQ2, hQ3, hQ4, hQ5⟩ := hQ
      have hmem : node ∈ m₀ := by
        rw [hsplit]
        exact List.mem_append_right _ (List.mem_cons_self _ _)
      have hnpre : node ∉ pre := by
        intro h
        rw [hsplit] at hnd
        have := (List.nodup_append.1 hnd).2.2
        exact this h (List.mem_cons_self _ _)
      have hsub : ∀ x ∈ pre, x ∈ m₀ := by
        intro x hx
        rw [hsplit]
        exact List.mem_append_left _ hx
      have hstep := assignSeqStep_spec hm hmem hnpre hsub hQ1 hQ2 hQ3 hQ4 hQ5
      have hsplit' : m₀ = (pre ++ [node]) ++ suf' := by
        rw [hsplit, List.append_assoc]
        rfl
      have := ih (pre ++ [node]) (assignSeqStep st node) hsplit' hstep
      rw [List.append_assoc] at this
      simpa using this
  have hinit : m₀ = [] ++ m₀ := rfl
  have hQ0 : SameShape m₀ (m₀, 0).1 ∧ ((m₀ : FilesMap), 0).2 = (rootsOf []).length ∧
      (∀ (j : Nat) (dj : FileData), (rootsOf ([] : FilesMap))[j]? = some dj →
        findNode (m₀, 0).1 dj.path = some { dj with seq := j }) ∧
      (∀ x ∈ ([] : FilesMap), KidsOK (m₀, 0).1 x) ∧
      (∀ x ∈ m₀, x ∉ ([] : FilesMap) → x.level = 0 → findNode (m₀, 0).1 x.path = some x) := by
    refine ⟨sameShape_refl m₀, rfl, ?_, ?_, ?_⟩
    · intro j dj hdj
      simp [rootsOf] at hdj
    · intro x hx
      exact absurd hx (List.not_mem_nil x)
    · intro x hxm _ _
      exact findNode_of_mem_nodup hm.nodup hxm
  have h := main m₀ [] (m₀, 0) hinit hQ0
  obtain ⟨h1, _, h3, h4, _⟩ := h
  refine ⟨h1, ?_, ?_⟩
  · intro j dj hdj
    exact h3 j dj (by simpa using hdj)
  · intro node hnode
    exact h4 node (by simpa using hnode)

/-! ## The layout pass only moves nodes -/

/-- Equality of everything but the coordinates. -/
def EqPos (d e : FileData) : Prop := EqShape d e ∧ e.seq = d.seq

/-- Relates the post-ordering map to any later state of the layout pass. -/
def SamePos (m₂ mc : FilesMap) : Prop := List.Forall₂ EqPos m₂ mc

theorem samePos_refl (m : FilesMap) : SamePos m m := by
  induction m with
  | nil => exact List.Forall₂.nil
  | cons d m ih => exact List.Forall₂.cons ⟨eqShape_refl d, rfl⟩ ih

theorem SamePos.sameShape {m₂ mc : FilesMap} (h : SamePos m₂ mc) : SameShape m₂ mc :=
  h.imp (fun _ _ hde => hde.1)

/-- Updates of `x`/`y` only. -/
def KeepsPos (f : FileData → FileData) : Prop :=
  ∀ d, (f d).path = d.path ∧ (f d).children = d.children ∧ (f d).level = d.level ∧
    (f d).base = d.base ∧ (f d).type = d.type ∧ (f d).seq = d.seq

theorem SamePos_updateNode {m₂ mc : FilesMap} {p : String} {f : FileData → FileData}
    (h : SamePos m₂ mc) (hf : KeepsPos f) : SamePos m₂ (updateNode mc p f) := by
  unfold updateNode
  rw [SamePos, List.forall₂_map_right_iff]
  refine h.imp ?_
  intro d e he
  by_cases hp : e.path = p
  · rw [if_pos (by simpa using hp)]
    obtain ⟨h1, h2, h3, h4, h5, h6⟩ := hf e
    exact ⟨⟨h1.trans he.1.1, h2.trans he.1.2.1, h5.trans he.1.2.2.1, h4.trans he.1.2.2.2.1,
      h3.trans he.1.2.2.2.2⟩, h6.trans he.2⟩
  · rw [if_neg (by simpa using hp)]
    exact he

theorem samePos_findNode {m₂ mc : FilesMap} (h : SamePos m₂ mc) (q : String) :
    (WebViz.findNode m₂ q = none ∧ WebViz.findNode mc q = none) ∨
      ∃ d e, WebViz.findNode m₂ q = some d ∧ WebViz.findNode mc q = some e ∧ EqPos d e := by
  induction h with
  | nil => exact Or.inl ⟨rfl, rfl⟩
  | @cons d e m₂' mc' hde htl ih =>
    by_cases hq : d.path = q
    · right
      refine ⟨d, e, ?_, ?_, hde⟩
      · unfold WebViz.findNode
        exact List.find?_cons_of_pos _ (by simpa using hq)
      · unfold WebViz.findNode
        exact List.find?_cons_of_pos _ (by simp [hde.1.1, hq])
    · have h1 : WebViz.findNode (d :: m₂') q = WebViz.findNode m₂' q := by
        unfold WebViz.findNode
        exact List.find?_cons_of_neg _ (by simpa using hq)
      have h2 : WebViz.findNode (e :: mc') q = WebViz.findNode mc' q := by
        unfold WebViz.findNode
        exact List.find?_cons_of_neg _ (by simp [hde.1.1, hq])
      rw [h1, h2]
      exact ih

theorem filterMap_findNode_rel {m₂ mc : FilesMap} (h : SamePos m₂ mc) (qs : List String) :
    List.Forall₂ EqPos (qs.filterMap (WebViz.findNode m₂)) (qs.filterMap (WebViz.findNode mc)) := by
  induction qs with
  | nil => exact List.Forall₂.nil
  | cons q qs ih =>
    rw [List.filterMap_cons, List.filterMap_cons]
    rcases samePos_findNode h q with ⟨h1, h2⟩ | ⟨d, e, h1, h2, hde⟩
    · rw [h1, h2]; exact ih
    · rw [h1, h2]; exact List.Forall₂.cons hde ih

theorem forall₂_eqPos_map_seq {l₁ l₂ : List FileData} (h : List.Forall₂ EqPos l₁ l₂) :
    l₂.map (fun c => c.seq) = l₁.map (fun c => c.seq) := by
  induction h with
  | nil => rfl
  | cons hxy htl ih =>
    simp only [List.map_cons]
    rw [ih, hxy.2]

theorem forall₂_eqPos_mem_right {l₁ l₂ : List FileData} (h : List.Forall₂ EqPos l₁ l₂) :
    ∀ c ∈ l₂, ∃ c₀ ∈ l₁, EqPos c₀ c := by
  induction h with
  | nil => intro c hc; exact absurd hc (List.not_mem_nil c)
  | cons hxy htl ih =>
    intro c hc
    rcases List.mem_cons.1 hc with h' | h'
    · exact ⟨_, List.mem_cons_self _ _, h' ▸ hxy⟩
    · obtain ⟨c₀, hc₀, hrel₀⟩ := ih c h'
      exact ⟨c₀, List.mem_cons_of_mem _ hc₀, hrel₀⟩

/-- `KidsOK` only reads fields that `EqPos` preserves. -/
theorem KidsOK_of_samePos {m₂ mc : FilesMap} (h : SamePos m₂ mc) {d e : FileData}
    (hde : EqPos d e) (hk : KidsOK m₂ d) : KidsOK mc e := by
  have hrel := filterMap_findNode_rel h d.children
  have hch : e.children = d.children := hde.1.2.1
  unfold KidsOK at hk ⊢
  rw [hch]
  constructor
  · rw [forall₂_eqPos_map_seq hrel]
    exact hk.1
  · intro c₁ hc₁ c₂ hc₂ hlt
    obtain ⟨c₁', hc₁', hr₁⟩ := forall₂_eqPos_mem_right hrel c₁ hc₁
    obtain ⟨c₂', hc₂', hr₂⟩ := forall₂_eqPos_mem_right hrel c₂ hc₂
    have ht₁ : c₁.type = c₁'.type := hr₁.1.2.2.1
    have ht₂ : c₂.type = c₂'.type := hr₂.1.2.2.1
    have hb₁ : c₁.base = c₁'.base := hr₁.1.2.2.2.1
    have hb₂ : c₂.base = c₂'.base := hr₂.1.2.2.2.1
    have hs₁ : c₁.seq = c₁'.seq := hr₁.2
    have hs₂ : c₂.seq = c₂'.seq := hr₂.2
    have hmain := hk.2 c₁' hc₁' c₂' hc₂' (by rw [← hs₁, ← hs₂]; exact hlt)
    constructor
    · rw [ht₁, ht₂]
      exact hmain.1
    · intro hty
      rw [hb₁, hb₂]
      exact hmain.2 (by rw [← ht₁, ← ht₂]; exact hty)

theorem setFilePos_samePos {m₂ : FilesMap} (offsets : List ℚ) :
    ∀ (fuel : Nat) (mc : FilesMap) (p : String) (baseY : ℚ), SamePos m₂ mc →
      SamePos m₂ (setFilePos offsets fuel mc p baseY).1 := by
  intro fuel
  induction fuel with
  | zero => intro mc p baseY h; exact h
  | succ fuel ih =>
    intro mc p baseY h
    have aux : ∀ (ks : List FileData) (st : FilesMap × ℚ), SamePos m₂ st.1 →
        SamePos m₂ (ks.foldl (fun st c => setFilePos offsets fuel st.1 c.path st.2) st).1 := by
      intro ks
      induction ks with
      | nil => intro st hst; exact hst
      | cons c ks ihk =>
        intro st hst
        exact ihk _ (ih st.1 c.path st.2 hst)
    show SamePos m₂ (setFilePos offsets (fuel + 1) mc p baseY).1
    unfold setFilePos
    rcases hfind : findNode mc p with _ | d
    · exact h
    · exact aux _ _ (SamePos_updateNode h (fun e => ⟨rfl, rfl, rfl, rfl, rfl, rfl⟩))

theorem layout_samePos (offsets : List ℚ) (m₂ : FilesMap) :
    SamePos m₂ (layout offsets m₂) := by
  unfold layout
  have aux : ∀ (rs : List FileData) (st : FilesMap × Option ℚ), SamePos m₂ st.1 →
      SamePos m₂ (rs.foldl (fun st r =>
        ((setFilePos offsets m₂.length st.1 r.path (st.2.getD 0)).1,
          some (setFilePos offsets m₂.length st.1 r.path (st.2.getD 0)).2)) st).1 := by
    intro rs
    induction rs with
    | nil => intro st hst; exact hst
    | cons r rs ihr =>
      intro st hst
      exact ihr _ (setFilePos_samePos offsets m₂.length st.1 r.path (st.2.getD 0) hst)
  exact aux _ (m₂, none) (samePos_refl m₂)

theorem sameShape_trans {m₁ m₂ m₃ : FilesMap} (h₁ : SameShape m₁ m₂) (h₂ : SameShape m₂ m₃) :
    SameShape m₁ m₃ := by
  induction h₁ generalizing m₃ with
  | nil =>
    cases h₂
    exact List.Forall₂.nil
  | cons hde htl ih =>
    cases h₂ with
    | cons hef htl2 => exact List.Forall₂.cons (eqShape_trans hde hef) (ih htl2)

theorem samePos_rootsOf {m₂ mc : FilesMap} (h : SamePos m₂ mc) :
    List.Forall₂ EqPos (WebViz.rootsOf m₂) (WebViz.rootsOf mc) := by
  induction h with
  | nil => exact List.Forall₂.nil
  | @cons d e m₂' mc' hde htl ih =>
    unfold WebViz.rootsOf
    by_cases hl : d.level = 0
    · rw [List.filter_cons_of_pos (by simpa using hl),
        List.filter_cons_of_pos (by simp [hde.1.2.2.2.2, hl])]
      exact List.Forall₂.cons hde ih
    · rw [List.filter_cons_of_neg (by simpa using hl),
        List.filter_cons_of_neg (by simp [hde.1.2.2.2.2, hl])]
      exact ih

theorem forall₂_getElem {R : FileData → FileData → Prop} {l₁ l₂ : List FileData}
    (h : List.Forall₂ R l₁ l₂) :
    l₁.length = l₂.length ∧
      ∀ (j : Nat) (h₁ : j < l₁.length) (h₂ : j < l₂.length), R l₁[j] l₂[j] := by
  induction h with
  | nil => exact ⟨rfl, fun j h₁ _ => absurd h₁ (by simp)⟩
  | cons hde htl ih =>
    refine ⟨by simp [ih.1], ?_⟩
    intro j h₁ h₂
    cases j with
    | zero => exact hde
    | succ j' => exact ih.2 j' (by simpa using h₁) (by simpa using h₂)

/-- Bundle: the final node list of the pipeline is well-formed, agrees
with order-pass output up to coordinates, and with the built map up to
coordinates and ranks. -/
theorem createFileDatas_facts (measure : String → ℚ) (paths : List String) :
    SamePos (assignSeqs (buildMap paths)) (createFileDatas measure paths).1 ∧
    SameShape (buildMap paths) (createFileDatas measure paths).1 ∧
    Inv (createFileDatas measure paths).1 := by
  have hInv₀ : Inv (buildMap paths) := (buildMap_inv_keys paths).1
  have hseq := assignSeqs_spec hInv₀
  have hpos : SamePos (assignSeqs (buildMap paths)) (createFileDatas measure paths).1 :=
    layout_samePos _ _
  have hsh : SameShape (buildMap paths) (createFileDatas measure paths).1 :=
    sameShape_trans hseq.1 hpos.sameShape
  exact ⟨hpos, hsh, Inv_of_sameShape hInv₀ hsh⟩

theorem typeRank_eq_zero_iff (t : FileType) : typeRank t = 0 ↔ t = FileType.Dir := by
  unfold typeRank
  by_cases h : t = FileType.Dir <;> simp [h]

/-- A concrete executable measurement oracle used by the witnesses:
ten units per character. -/
def measureLen : String → ℚ := fun s => (s.data.length : ℚ) * 10

/-! ## Claim theorems -/

/-- **C7.** The x-offset table produced by the code (running totals plus
per-index gap plus prepended zero) equals the table of the spec's
recurrence `offset[0] = 0`, `offset[i] = offset[i-1] + width[i-1] + 60`
over the width table (deepest width discarded); consequently the table
is strictly increasing and adjacent offsets differ by at least the gap
60. -/
theorem claim_C7 (measure : String → ℚ) (paths : List String) :
    (createFileDatas measure paths).2
        = specOffsets ((rawWidths measure (assignSeqs (buildMap paths))).dropLast) ∧
      ∀ i : Nat, i + 1 < (createFileDatas measure paths).2.length →
        ((createFileDatas measure paths).2.getD i 0 + 60
            ≤ (createFileDatas measure paths).2.getD (i + 1) 0 ∧
          (createFileDatas measure paths).2.getD i 0
            < (createFileDatas measure paths).2.getD (i + 1) 0) := by
  have hoff : (createFileDatas measure paths).2
      = levelOffsets measure (assignSeqs (buildMap paths)) := rfl
  have heq := levelOffsets_eq_specOffsets measure (assignSeqs (buildMap paths))
  constructor
  · rw [hoff, heq]
  · intro i hi
    rw [hoff, heq] at hi ⊢
    simp only [specOffsets] at hi ⊢
    have hnn : ∀ w ∈ (rawWidths measure (assignSeqs (buildMap paths))).dropLast, 0 ≤ w :=
      fun w hw => rawWidths_nonneg _ _ w (List.mem_of_mem_dropLast hw)
    have h60 := specOffsetsFrom_mono _ 0 i hnn hi
    exact ⟨h60, by linarith⟩

unseal Rat.add Rat.mul Rat.sub Rat.inv Nat.gcd in
theorem claim_C7_witness :
    (createFileDatas measureLen ["p/q/r.js"]).2
        = specOffsets ((rawWidths measureLen (assignSeqs (buildMap ["p/q/r.js"]))).dropLast) ∧
      (0 + 1 < (createFileDatas measureLen ["p/q/r.js"]).2.length ∧
        ((createFileDatas measureLen ["p/q/r.js"]).2.getD 0 0 + 60
            ≤ (createFileDatas measureLen ["p/q/r.js"]).2.getD (0 + 1) 0 ∧
          (createFileDatas measureLen ["p/q/r.js"]).2.getD 0 0
            < (createFileDatas measureLen ["p/q/r.js"]).2.getD (0 + 1) 0)) :=
  ⟨(claim_C7 measureLen ["p/q/r.js"]).1, by decide,
    (claim_C7 measureLen ["p/q/r.js"]).2 0 (by decide)⟩

/-- **C8.** For every input list of paths — duplicates and overlaps
included — the final map holds exactly one node per distinct slash-joined
prefix of the inputs: its keys are pairwise distinct and a path occurs as
a key exactly when it is a prefix of some input path. -/
theorem claim_C8 (measure : String → ℚ) (paths : List String) :
    (((createFileDatas measure paths).1).map FileData.path).Nodup ∧
    ∀ q : String, (∃ d ∈ (createFileDatas measure paths).1, d.path = q) ↔
      ∃ P ∈ paths, ∃ i, i < (jsSplit P).length ∧ q = prefixPath (jsSplit P) i := by
  obtain ⟨hInv₀, hKeys⟩ := buildMap_inv_keys paths
  obtain ⟨_, hsh, _⟩ := createFileDatas_facts measure paths
  constructor
  · have hk : keysOf (createFileDatas measure paths).1 = keysOf (buildMap paths) := hsh.keysOf
    have := hInv₀.nodup
    rw [← hk] at this
    exact this
  · intro q
    rw [← hKeys q]
    constructor
    · intro ⟨d, hd, hp⟩
      obtain ⟨d₀, hd₀, hs⟩ := hsh.mem_right hd
      exact ⟨d₀, hd₀, by rw [← hs.1]; exact hp⟩
    · intro ⟨d₀, hd₀, hp⟩
      obtain ⟨d, hd, hs⟩ := hsh.mem_left hd₀
      exact ⟨d, hd, by rw [hs.1]; exact hp⟩

unseal Rat.add Rat.mul Rat.sub Rat.inv Nat.gcd in
/-- **C2 counterexample.** For the input `["b.js", "a/x.js"]` the
Leaf-kind root `b.js` receives rank 0 while the Directory-kind root `a`
receives rank 1: a Directory root does *not* precede a Leaf root when it
appears later in the input, refuting the claimed kind-then-name root
ordering. -/
theorem claim_C2_counterexample :
    ∃ db da : FileData,
      findNode (createFileDatas measureLen ["b.js", "a/x.js"]).1 "b.js" = some db ∧
      findNode (createFileDatas measureLen ["b.js", "a/x.js"]).1 "a" = some da ∧
      db.type = FileType.Js ∧ da.type = FileType.Dir ∧
      db.level = 0 ∧ da.level = 0 ∧ db.seq < da.seq := by
  refine ⟨{ parent := none, children := [], type := FileType.Js, path := "b.js",
            base := "b.js", level := 0, seq := 0, x := 0, y := 0 },
          { parent := none, children := ["a/x.js"], type := FileType.Dir, path := "a",
            base := "a", level := 0, seq := 1, x := 0, y := 48 }, ?_, ?_, ?_, ?_, ?_, ?_, ?_⟩
    <;> decide

/-- **C2 (amended).** The root (depth-0) nodes receive their `seq` ranks
in map-insertion order — the order of first appearance in the input —
independent of kind and name: read off in map order, the root `seq`
values are exactly `0, 1, 2, …`. -/
theorem claim_C2_amended (measure : String → ℚ) (paths : List String) :
    (rootsOf (createFileDatas measure paths).1).map (fun d => d.seq)
      = List.range (rootsOf (createFileDatas measure paths).1).length := by
  have hInv₀ : Inv (buildMap paths) := (buildMap_inv_keys paths).1
  have hseq := assignSeqs_spec hInv₀
  obtain ⟨hpos, hsh, hInvF⟩ := createFileDatas_facts measure paths
  have hr2 : List.Forall₂ EqPos (rootsOf (assignSeqs (buildMap paths)))
      (rootsOf (createFileDatas measure paths).1) := samePos_rootsOf hpos
  have hr0 : List.Forall₂ EqShape (rootsOf (buildMap paths))
      (rootsOf (assignSeqs (buildMap paths))) := sameShape_rootsOf hseq.1
  obtain ⟨hlen0, hrel0⟩ := forall₂_getElem hr0
  obtain ⟨hlen2, hrel2⟩ := forall₂_getElem hr2
  have hInv₂ : Inv (assignSeqs (buildMap paths)) := Inv_of_sameShape hInv₀ hseq.1
  have hm₂seq : ∀ (j : Nat) (h₂ : j < (rootsOf (assignSeqs (buildMap paths))).length),
      ((rootsOf (assignSeqs (buildMap paths)))[j]).seq = j := by
    intro j h₂
    have h₀ : j < (rootsOf (buildMap paths)).length := by omega
    have hsh0 := hrel0 j h₀ h₂
    have hdj : (rootsOf (buildMap paths))[j]? = some ((rootsOf (buildMap paths))[j]) :=
      List.getElem?_eq_some.2 ⟨h₀, rfl⟩
    have hpin := hseq.2.1 j _ hdj
    have hmem₂ : (rootsOf (assignSeqs (buildMap paths)))[j] ∈ assignSeqs (buildMap paths) :=
      (mem_rootsOf.1 (List.getElem_mem h₂)).1
    have hself := findNode_of_mem_nodup hInv₂.nodup hmem₂
    rw [hsh0.1, hpin] at hself
    have hv := Option.some.inj hself
    rw [← hv]
  apply List.ext_getElem
  · simp
  · intro j h₁ h₂'
    rw [List.getElem_map, List.getElem_range]
    have hjf : j < (rootsOf (createFileDatas measure paths).1).length := by
      simpa using h₁
    have hj₂ : j < (rootsOf (assignSeqs (buildMap paths))).length := by
      have := hr2.length_eq
      omega
    rw [(hrel2 j hj₂ hjf).2]
    exact hm₂seq j hj₂

unseal Rat.add Rat.mul Rat.sub Rat.inv Nat.gcd in
/-- **C4 counterexample.** For the input `["a/b.js", "a"]` the node at
path `"a"` keeps the Directory kind given to it when `"a/b.js"` was
processed first, even though `"a"` later occurs as a complete input
path: the claimed biconditional "kind is Leaf iff the path is a
complete input path" fails, and the result depends on processing
order. -/
theorem claim_C4_counterexample :
    ∃ d : FileData,
      findNode (createFileDatas measureLen ["a/b.js", "a"]).1 "a" = some d ∧
      "a" ∈ ["a/b.js", "a"] ∧ d.type ≠ FileType.Js := by
  refine ⟨{ parent := none, children := ["a/b.js"], type := FileType.Dir, path := "a",
            base := "a", level := 0, seq := 0, x := 0, y := 0 }, ?_, ?_, ?_⟩ <;> decide

theorem KidsOK_congr_children {m : FilesMap} {d e : FileData} (h : e.children = d.children)
    (hk : KidsOK m d) : KidsOK m e := by
  unfold KidsOK at hk ⊢
  rw [h]
  exact hk

/-- **C4 (amended).** A node's kind is Leaf (`Js`) iff the *first* input
path whose prefix set introduces the node's path introduces it as its
full path: the kind is fixed at first creation and a later complete
input path does not relabel an existing Directory node (nor does a later
directory occurrence relabel an existing Leaf). -/
theorem claim_C4_amended (measure : String → ℚ) (paths : List String) :
    ∀ d ∈ (createFileDatas measure paths).1,
      (d.type = FileType.Js ↔ introducedAsLeaf d.path paths = true) := by
  intro d hd
  obtain ⟨_, hsh, _⟩ := createFileDatas_facts measure paths
  obtain ⟨d₀, hd₀, hs⟩ := hsh.mem_right hd
  rw [hs.2.2.1, hs.1]
  exact buildMap_type paths d₀ hd₀

unseal Rat.add Rat.mul Rat.sub Rat.inv Nat.gcd in
theorem claim_C4_amended_witness :
    ({ parent := none, children := ["a/b.js"], type := FileType.Dir, path := "a",
       base := "a", level := 0, seq := 0, x := 0, y := 0 } : FileData)
        ∈ (createFileDatas measureLen ["a/b.js", "a"]).1 ∧
    (({ parent := none, children := ["a/b.js"], type := FileType.Dir, path := "a",
        base := "a", level := 0, seq := 0, x := 0, y := 0 } : FileData).type = FileType.Js ↔
      introducedAsLeaf "a" ["a/b.js", "a"] = true) :=
  ⟨by decide, claim_C4_amended measureLen ["a/b.js", "a"] _ (by decide)⟩

/-- **C5.** Within any sibling group the assigned `seq` ranks respect
the comparator: whenever child `c₁` ranks strictly before child `c₂`,
`c₁` is of Directory kind if `c₂` is (Directory kind precedes Leaf
kind), and if both children have the same kind then `c₁.base` is
strictly below `c₂.base` under plain string less-than. -/
theorem claim_C5 (measure : String → ℚ) (paths : List String) :
    ∀ d ∈ (createFileDatas measure paths).1,
      ∀ c₁ ∈ d.children.filterMap (findNode (createFileDatas measure paths).1),
        ∀ c₂ ∈ d.children.filterMap (findNode (createFileDatas measure paths).1),
          c₁.seq < c₂.seq →
            (c₂.type = FileType.Dir → c₁.type = FileType.Dir) ∧
            (c₁.type = c₂.type → strLt c₁.base c₂.base = true) := by
  intro d hd c₁ hc₁ c₂ hc₂ hlt
  have hInv₀ := (buildMap_inv_keys paths).1
  have hseq := assignSeqs_spec hInv₀
  obtain ⟨hpos, _, _⟩ := createFileDatas_facts measure paths
  obtain ⟨d₂, hd₂, hr⟩ := forall₂_eqPos_mem_right hpos d hd
  obtain ⟨d₀, hd₀, hs₀⟩ := (hseq.1).mem_right hd₂
  have hk₂ : KidsOK (assignSeqs (buildMap paths)) d₂ :=
    KidsOK_congr_children hs₀.2.1 (hseq.2.2 d₀ hd₀)
  have hkF := KidsOK_of_samePos hpos hr hk₂
  have hmain := hkF.2 c₁ hc₁ c₂ hc₂ hlt
  refine ⟨?_, hmain.2⟩
  intro h₂
  have hz : typeRank c₂.type = 0 := (typeRank_eq_zero_iff _).2 h₂
  have : typeRank c₁.type = 0 := Nat.le_zero.1 (hz ▸ hmain.1)
  exact (typeRank_eq_zero_iff _).1 this

unseal Rat.add Rat.mul Rat.sub Rat.inv Nat.gcd in
theorem claim_C5_witness :
    ({ parent := none, children := ["a/x.js", "a/y.js"], type := FileType.Dir, path := "a",
       base := "a", level := 0, seq := 0, x := 0, y := 0 } : FileData)
        ∈ (createFileDatas measureLen ["a/x.js", "a/y.js", "b.js"]).1 ∧
    ({ parent := some "a", children := [], type := FileType.Js, path := "a/x.js",
       base := "x.js", level := 1, seq := 0, x := 110, y := 0 } : FileData)
        ∈ (["a/x.js", "a/y.js"].filterMap
            (findNode (createFileDatas measureLen ["a/x.js", "a/y.js", "b.js"]).1)) ∧
    ({ parent := some "a", children := [], type := FileType.Js, path := "a/y.js",
       base := "y.js", level := 1, seq := 1, x := 110, y := 48 } : FileData)
        ∈ (["a/x.js", "a/y.js"].filterMap
            (findNode (createFileDatas measureLen ["a/x.js", "a/y.js", "b.js"]).1)) ∧
    (0 < 1 ∧
      ((FileType.Js = FileType.Dir → FileType.Js = FileType.Dir) ∧
        (FileType.Js = FileType.Js → strLt "x.js" "y.js" = true))) :=
  ⟨by decide, by decide, by decide, by decide,
    claim_C5 measureLen ["a/x.js", "a/y.js", "b.js"]
      { parent := none, children := ["a/x.js", "a/y.js"], type := FileType.Dir, path := "a",
        base := "a", level := 0, seq := 0, x := 0, y := 0 }
      (by decide)
      { parent := some "a", children := [], type := FileType.Js, path := "a/x.js",
        base := "x.js", level := 1, seq := 0, x := 110, y := 0 }
      (by decide)
      { parent := some "a", children := [], type := FileType.Js, path := "a/y.js",
        base := "y.js", level := 1, seq := 1, x := 110, y := 48 }
      (by decide) (by decide)⟩

/-! ## The width pass computes a per-level maximum -/

theorem levelLe_iff (a b : FileData) :
    levelLe a b = true ↔
      a.level < b.level ∨ (a.level = b.level ∧ b.children.length ≤ a.children.length) := by
  simp only [levelLe, decide_eq_true_eq, levelCmp]
  split
  · rename_i h
    constructor
    · intro hle
      left
      omega
    · intro hab
      rcases hab with h' | ⟨h', _⟩
      · omega
      · exact absurd h' h
  · rename_i h
    rw [not_ne_iff] at h
    constructor
    · intro hle
      right
      exact ⟨h, by omega⟩
    · intro hab
      rcases hab with h' | ⟨_, h₂⟩
      · omega
      · omega

theorem levelLe_total (a b : FileData) : levelLe a b = true ∨ levelLe b a = true := by
  rw [levelLe_iff, levelLe_iff]
  omega

theorem levelLe_trans (a b c : FileData) (h₁ : levelLe a b = true) (h₂ : levelLe b c = true) :
    levelLe a c = true := by
  rw [levelLe_iff] at *
  omega

theorem widthStep_ne_level (measure : String → ℚ) (w : Nat → Option ℚ) (e : FileData) (l : Nat)
    (h : ¬ e.level = l) : widthStep measure w e l = w l := by
  unfold widthStep
  by_cases hg : (w e.level).getD 0 = 0 ∨ e.children ≠ []
  · rw [if_pos hg]
    simp only [if_neg (fun hh => h (Eq.symm hh) : ¬ l = e.level)]
  · rw [if_neg hg]

theorem widthStep_self (measure : String → ℚ) (w : Nat → Option ℚ) (e : FileData)
    (hg : (w e.level).getD 0 = 0 ∨ e.children ≠ []) :
    widthStep measure w e e.level
      = some (max ((w e.level).getD 0) (measure e.base + 40)) := by
  unfold widthStep
  rw [if_pos hg]
  simp

theorem widthStep_skip (measure : String → ℚ) (w : Nat → Option ℚ) (e : FileData)
    (hg : ¬ ((w e.level).getD 0 = 0 ∨ e.children ≠ [])) :
    widthStep measure w e = w := by
  unfold widthStep
  rw [if_neg hg]

/-- Once the entry at level `l` is positive, only child-having nodes at
level `l` touch it, each by `max`-ing in its own measured width. -/
theorem widthFold_pos (measure : String → ℚ) (l : Nat) :
    ∀ (xs : List FileData) (w0 : Nat → Option ℚ), 0 < (w0 l).getD 0 →
      0 < ((xs.foldl (widthStep measure) w0) l).getD 0 ∧
        (w0 l).getD 0 ≤ ((xs.foldl (widthStep measure) w0) l).getD 0 ∧
        (((xs.foldl (widthStep measure) w0) l).getD 0 = (w0 l).getD 0 ∨
          ∃ x ∈ xs, x.level = l ∧ x.children ≠ [] ∧
            ((xs.foldl (widthStep measure) w0) l).getD 0 = measure x.base + 40) ∧
        ∀ x ∈ xs, x.level = l → x.children ≠ [] →
          measure x.base + 40 ≤ ((xs.foldl (widthStep measure) w0) l).getD 0 := by
  intro xs
  induction xs with
  | nil =>
    intro w0 h0
    exact ⟨h0, le_refl _, Or.inl rfl, fun x hx => absurd hx (List.not_mem_nil x)⟩
  | cons e es ih =>
    intro w0 h0
    rw [List.foldl_cons]
    by_cases hel : e.level = l
    · by_cases hch : e.children = []
      · have hg : ¬ ((w0 e.level).getD 0 = 0 ∨ e.children ≠ []) := by
          rw [hel]
          push_neg
          exact ⟨by linarith, hch⟩
        rw [widthStep_skip measure w0 e hg]
        obtain ⟨hpos, hle, hat, hub⟩ := ih w0 h0
        refine ⟨hpos, hle, ?_, ?_⟩
        · rcases hat with h | ⟨x, hx, hrest⟩
          · exact Or.inl h
          · exact Or.inr ⟨x, List.mem_cons_of_mem e hx, hrest⟩
        · intro x hx hxl hxc
          rcases List.mem_cons.1 hx with h | h
          · subst h
            exact absurd hch hxc
          · exact hub x h hxl hxc
      · have hg : (w0 e.level).getD 0 = 0 ∨ e.children ≠ [] := Or.inr hch
        have hval : ((widthStep measure w0 e) l).getD 0
            = max ((w0 l).getD 0) (measure e.base + 40) := by
          rw [← hel, widthStep_self measure w0 e hg]
          rfl
        have h1 : 0 < ((widthStep measure w0 e) l).getD 0 := by
          rw [hval]
          exact lt_of_lt_of_le h0 (le_max_left _ _)
        obtain ⟨hpos, hle, hat, hub⟩ := ih (widthStep measure w0 e) h1
        refine ⟨hpos, ?_, ?_, ?_⟩
        · refine le_trans ?_ hle
          rw [hval]
          exact le_max_left _ _
        · rcases hat with h | ⟨x, hx, hrest⟩
          · rw [hval] at h
            rcases max_choice ((w0 l).getD 0) (measure e.base + 40) with hc | hc
            · rw [hc] at h
              exact Or.inl h
            · rw [hc] at h
              exact Or.inr ⟨e, List.mem_cons_self e es, hel, hch, h⟩
          · exact Or.inr ⟨x, List.mem_cons_of_mem e hx, hrest⟩
        · intro x hx hxl hxc
          rcases List.mem_cons.1 hx with h | h
          · subst h
            refine le_trans ?_ hle
            rw [hval]
            exact le_max_right _ _
          · exact hub x h hxl hxc
    · have hne : (widthStep measure w0 e) l = w0 l := widthStep_ne_level measure w0 e l hel
      have h0' : 0 < ((widthStep measure w0 e) l).getD 0 := by
        rw [hne]
        exact h0
      obtain ⟨hpos, hle, hat, hub⟩ := ih (widthStep measure w0 e) h0'
      rw [hne] at hle hat
      refine ⟨hpos, hle, ?_, ?_⟩
      · rcases hat with h | ⟨x, hx, hrest⟩
        · exact Or.inl h
        · exact Or.inr ⟨x, List.mem_cons_of_mem e hx, hrest⟩
      · intro x hx hxl hxc
        rcases List.mem_cons.1 hx with h | h
        · subst h
          exact absurd hxl hel
        · exact hub x h hxl hxc

/-- Starting from an absent/zero entry at level `l`, if the child-having
nodes at level `l` all come before the childless ones (the width pass
processes them in this order), the final entry is the maximum of their
measured widths plus 40, attained by one of them. -/
theorem widthFold_zero (measure : String → ℚ) (l : Nat) (hmeas : ∀ s, 0 ≤ measure s) :
    ∀ (xs : List FileData) (w0 : Nat → Option ℚ),
      List.Pairwise (fun a b => a.level = l → b.level = l → b.children ≠ [] → a.children ≠ []) xs →
      (w0 l).getD 0 = 0 →
      ((∃ x ∈ xs, x.level = l ∧ x.children ≠ []) →
          ∃ x ∈ xs, x.level = l ∧ x.children ≠ [] ∧
            ((xs.foldl (widthStep measure) w0) l).getD 0 = measure x.base + 40) ∧
      ∀ x ∈ xs, x.level = l → x.children ≠ [] →
        measure x.base + 40 ≤ ((xs.foldl (widthStep measure) w0) l).getD 0 := by
  intro xs
  induction xs with
  | nil =>
    intro w0 _ _
    exact ⟨fun ⟨x, hx, _⟩ => absurd hx (List.not_mem_nil x),
      fun x hx => absurd hx (List.not_mem_nil x)⟩
  | cons e es ih =>
    intro w0 hpw h0
    rw [List.foldl_cons]
    by_cases hel : e.level = l
    · by_cases hch : e.children = []
      · have hnone : ∀ x ∈ es, ¬ (x.level = l ∧ x.children ≠ []) := by
          rintro x hx ⟨hxl, hxc⟩
          exact (List.rel_of_pairwise_cons hpw hx hel hxl hxc) hch
        constructor
        · rintro ⟨x, hx, hxl, hxc⟩
          rcases List.mem_cons.1 hx with h | h
          · subst h
            exact absurd hch hxc
          · exact absurd ⟨hxl, hxc⟩ (hnone x h)
        · intro x hx hxl hxc
          rcases List.mem_cons.1 hx with h | h
          · subst h
            exact absurd hch hxc
          · exact absurd ⟨hxl, hxc⟩ (hnone x h)
      · have hg : (w0 e.level).getD 0 = 0 ∨ e.children ≠ [] := Or.inr hch
        have hval : ((widthStep measure w0 e) l).getD 0 = measure e.base + 40 := by
          rw [← hel, widthStep_self measure w0 e hg]
          show max ((w0 e.level).getD 0) (measure e.base + 40) = measure e.base + 40
          rw [hel, h0]
          exact max_eq_right (by have := hmeas e.base; linarith)
        have hpos : 0 < ((widthStep measure w0 e) l).getD 0 := by
          rw [hval]
          have := hmeas e.base
          linarith
        obtain ⟨_, hfle, hfat, hfub⟩ := widthFold_pos measure l es (widthStep measure w0 e) hpos
        rw [hval] at hfle hfat
        constructor
        · intro _
          rcases hfat with h | ⟨x, hx, hrest⟩
          · exact ⟨e, List.mem_cons_self e es, hel, hch, h⟩
          · exact ⟨x, List.mem_cons_of_mem e hx, hrest⟩
        · intro x hx hxl hxc
          rcases List.mem_cons.1 hx with h | h
          · subst h
            exact hfle
          · exact hfub x h hxl hxc
    · have hne : (widthStep measure w0 e) l = w0 l := widthStep_ne_level measure w0 e l hel
      have h0' : ((widthStep measure w0 e) l).getD 0 = 0 := by
        rw [hne]
        exact h0
      obtain ⟨hiex, hiub⟩ := ih (widthStep measure w0 e) (List.Pairwise.of_cons hpw) h0'
      constructor
      · rintro ⟨x, hx, hxl, hxc⟩
        rcases List.mem_cons.1 hx with h | h
        · subst h
          exact absurd hxl hel
        · obtain ⟨y, hy, hrest⟩ := hiex ⟨x, h, hxl, hxc⟩
          exact ⟨y, List.mem_cons_of_mem e hy, hrest⟩
      · intro x hx hxl hxc
        rcases List.mem_cons.1 hx with h | h
        · subst h
          exact absurd hxl hel
        · exact hiub x h hxl hxc

/-- **C6.** For every depth `d` other than the deepest (whose width the
pipeline discards) at which at least one node has a child, and for any
non-negative measuring function, the retained column width for `d` is
the maximum, over the nodes at depth `d` that have at least one child,
of the measured base width plus 40 — childless nodes at that depth never
contribute. -/
theorem claim_C6 (measure : String → ℚ) (paths : List String)
    (hmeas : ∀ s, 0 ≤ measure s) (d : Nat)
    (hd : d + 1 < numLevels (assignSeqs (buildMap paths)))
    (hex : ∃ node ∈ assignSeqs (buildMap paths), node.level = d ∧ node.children ≠ []) :
    (∃ node ∈ assignSeqs (buildMap paths), node.level = d ∧ node.children ≠ [] ∧
        ((rawWidths measure (assignSeqs (buildMap paths))).dropLast).getD d 0
          = measure node.base + 40) ∧
    ∀ node ∈ assignSeqs (buildMap paths), node.level = d → node.children ≠ [] →
        measure node.base + 40
          ≤ ((rawWidths measure (assignSeqs (buildMap paths))).dropLast).getD d 0 := by
  set m := assignSeqs (buildMap paths) with hm
  have hlen : (rawWidths measure m).length = numLevels m := by
    unfold rawWidths
    simp
  have hdl : ((rawWidths measure m).dropLast).getD d 0 = (rawWidths measure m).getD d 0 := by
    have h₁ : d < (rawWidths measure m).dropLast.length := by
      rw [List.length_dropLast, hlen]
      omega
    have h₂ : d < (rawWidths measure m).length := by
      rw [hlen]
      omega
    rw [List.getD_eq_getElem _ _ h₁, List.getD_eq_getElem _ _ h₂, List.getElem_dropLast]
  have hd' : d < numLevels m := by omega
  have hfold : (rawWidths measure m).getD d 0
      = (((sortBy levelLe m).foldl (widthStep measure) (fun _ => none)) d).getD 0 := by
    show (List.getD ((List.range (numLevels m)).map
        (fun l => (((sortBy levelLe m).foldl (widthStep measure) (fun _ => none)) l).getD 0)) d 0)
      = _
    rw [List.getD_eq_getElem _ _ (by simpa using hd')]
    rw [List.getElem_map, List.getElem_range]
  have hpw0 : List.Pairwise (fun a b => levelLe a b = true) (sortBy levelLe m) :=
    sortBy_pairwise (fun a _ b _ => levelLe_total a b)
      (fun a _ b _ c _ => levelLe_trans a b c)
  have himp : ∀ a b : FileData, levelLe a b = true →
      (a.level = d → b.level = d → b.children ≠ [] → a.children ≠ []) := by
    intro a b hab hal hbl hbc
    rw [levelLe_iff] at hab
    have hblen : 0 < b.children.length := List.length_pos.2 hbc
    rcases hab with h | ⟨h, hlen2⟩
    · omega
    · exact List.length_pos.1 (by omega)
  have hP := hpw0.imp (fun {a b} hab => himp a b hab)
  obtain ⟨hexS, hub⟩ :=
    widthFold_zero measure d hmeas (sortBy levelLe m) (fun _ => none) hP rfl
  have hex' : ∃ x ∈ sortBy levelLe m, x.level = d ∧ x.children ≠ [] := by
    obtain ⟨node, hn, hrest⟩ := hex
    exact ⟨node, mem_sortBy.2 hn, hrest⟩
  obtain ⟨x, hxS, hxl, hxc, hxe⟩ := hexS hex'
  rw [hdl, hfold]
  constructor
  · exact ⟨x, mem_sortBy.1 hxS, hxl, hxc, hxe⟩
  · intro node hn hnl hnc
    exact hub node (mem_sortBy.2 hn) hnl hnc

unseal Rat.add Rat.mul Rat.sub Rat.inv Nat.gcd in
theorem claim_C6_witness :
    (∀ s : String, (0 : ℚ) ≤ measureLen s) ∧
    0 + 1 < numLevels (assignSeqs (buildMap ["a/x.js", "a/y.js", "b.js"])) ∧
    (∃ node ∈ assignSeqs (buildMap ["a/x.js", "a/y.js", "b.js"]),
        node.level = 0 ∧ node.children ≠ []) ∧
    ((∃ node ∈ assignSeqs (buildMap ["a/x.js", "a/y.js", "b.js"]),
        node.level = 0 ∧ node.children ≠ [] ∧
        ((rawWidths measureLen (assignSeqs (buildMap ["a/x.js", "a/y.js", "b.js"]))).dropLast).getD 0 0
          = measureLen node.base + 40) ∧
      ∀ node ∈ assignSeqs (buildMap ["a/x.js", "a/y.js", "b.js"]),
        node.level = 0 → node.children ≠ [] →
          measureLen node.base + 40
            ≤ ((rawWidths measureLen (assignSeqs (buildMap ["a/x.js", "a/y.js", "b.js"]))).dropLast).getD 0 0) := by
  have hm : ∀ s : String, (0 : ℚ) ≤ measureLen s := fun s =>
    mul_nonneg (Nat.cast_nonneg _) (by norm_num)
  exact ⟨hm, by decide, by decide,
    claim_C6 measureLen ["a/x.js", "a/y.js", "b.js"] hm 0 (by decide) (by decide)⟩

/-! ## Path extension order and the descendant set of a node -/

/-- `Ext p q`: `q` is `p` itself or a slash-extension of `p` — the paths
of the nodes inside the subtree rooted at the node of `p` all extend `p`. -/
def Ext (p q : String) : Prop := q = p ∨ ∃ r, q.data = p.data ++ '/' :: r

theorem ext_refl (p : String) : Ext p p := Or.inl rfl

theorem ext_trans {p q r : String} (h₁ : Ext p q) (h₂ : Ext q r) : Ext p r := by
  rcases h₁ with h₁ | ⟨t₁, h₁⟩
  · rwa [h₁] at h₂
  · rcases h₂ with h₂ | ⟨t₂, h₂⟩
    · rw [h₂]
      exact Or.inr ⟨t₁, h₁⟩
    · refine Or.inr ⟨t₁ ++ '/' :: t₂, ?_⟩
      rw [h₂, h₁]
      simp

theorem Ext.length_le {p q : String} (h : Ext p q) : p.data.length ≤ q.data.length := by
  rcases h with h | ⟨r, h⟩
  · rw [h]
  · rw [h]
    simp

/-- The shape of the remainder of a path after a full segment prefix:
nothing, or a separator followed by more. -/
def SepTail (u : List Char) : Prop := u = [] ∨ ∃ r, u = '/' :: r

theorem ext_iff_septail {p q : String} : Ext p q ↔ ∃ u, SepTail u ∧ q.data = p.data ++ u := by
  constructor
  · rintro (h | ⟨r, h⟩)
    · exact ⟨[], Or.inl rfl, by rw [h]; simp⟩
    · exact ⟨'/' :: r, Or.inr ⟨r, rfl⟩, h⟩
  · rintro ⟨u, hu | ⟨r, hr⟩, h⟩
    · subst hu
      left
      apply String.ext
      simpa using h
    · subst hr
      exact Or.inr ⟨r, h⟩

/-- Two separator-free segments followed by segment-boundary tails can
only agree if the segments agree. -/
theorem seg_prefix_eq : ∀ (b₁ b₂ u₁ u₂ : List Char), '/' ∉ b₁ → '/' ∉ b₂ →
    SepTail u₁ → SepTail u₂ → b₁ ++ u₁ = b₂ ++ u₂ → b₁ = b₂ := by
  intro b₁
  induction b₁ with
  | nil =>
    intro b₂ u₁ u₂ _ hb₂ hu₁ hu₂ h
    cases b₂ with
    | nil => rfl
    | cons c₂ t₂ =>
      exfalso
      simp only [List.nil_append, List.cons_append] at h
      rcases hu₁ with h₁ | ⟨r, h₁⟩
      · rw [h₁] at h
        exact List.noConfusion h
      · rw [h₁] at h
        have hc₂ : c₂ = '/' := (List.cons.injEq _ _ _ _ ▸ h).1.symm
        exact hb₂ (hc₂ ▸ List.mem_cons_self c₂ t₂)
  | cons c₁ t₁ ih =>
    intro b₂ u₁ u₂ hb₁ hb₂ hu₁ hu₂ h
    cases b₂ with
    | nil =>
      exfalso
      simp only [List.nil_append, List.cons_append] at h
      rcases hu₂ with h₂ | ⟨r, h₂⟩
      · rw [h₂] at h
        exact List.noConfusion h
      · rw [h₂] at h
        have hc₁ : c₁ = '/' := (List.cons.injEq _ _ _ _ ▸ h).1
        exact hb₁ (hc₁ ▸ List.mem_cons_self c₁ t₁)
    | cons c₂ t₂ =>
      simp only [List.cons_append, List.cons.injEq] at h
      have hb₁' : '/' ∉ t₁ := fun hh => hb₁ (List.mem_cons_of_mem _ hh)
      have hb₂' : '/' ∉ t₂ := fun hh => hb₂ (List.mem_cons_of_mem _ hh)
      rw [h.1, ih t₂ u₁ u₂ hb₁' hb₂' hu₁ hu₂ h.2]

/-- Subtrees of two distinct children of one node contain no common
path. -/
theorem ext_child_disjoint {m : FilesMap} (hm : Inv m) {d : FileData} (hd : d ∈ m)
    {q₁ q₂ : String} (h₁ : q₁ ∈ d.children) (h₂ : q₂ ∈ d.children) (hne : q₁ ≠ q₂) :
    ∀ r : String, Ext q₁ r → Ext q₂ r → False := by
  intro r he₁ he₂
  obtain ⟨b₁, hf₁, hq₁⟩ := hm.childShape d hd q₁ h₁
  obtain ⟨b₂, hf₂, hq₂⟩ := hm.childShape d hd q₂ h₂
  obtain ⟨u₁, hu₁, hr₁⟩ := ext_iff_septail.1 he₁
  obtain ⟨u₂, hu₂, hr₂⟩ := ext_iff_septail.1 he₂
  rw [hq₁] at hr₁
  rw [hq₂] at hr₂
  have h : d.path.data ++ '/' :: (b₁ ++ u₁) = d.path.data ++ '/' :: (b₂ ++ u₂) := by
    have := hr₁.symm.trans hr₂
    simpa [List.append_assoc] using this
  have h' : b₁ ++ u₁ = b₂ ++ u₂ := by
    have h'' := List.append_cancel_left h
    injection h''
  have hb := seg_prefix_eq b₁ b₂ u₁ u₂ hf₁ hf₂ hu₁ hu₂ h'
  apply hne
  apply String.ext
  rw [hq₁, hq₂, hb]

/-- The path of a depth-0 node is a single separator-free segment. -/
theorem level0_sep_free {m : FilesMap} (hm : Inv m) {d : FileData} (hd : d ∈ m)
    (hl : d.level = 0) : '/' ∉ d.path.data := by
  obtain ⟨parts, hne, hfree, hjoin, hlen, _⟩ := hm.segs d hd
  rw [hl] at hlen
  obtain ⟨b, hb⟩ : ∃ b, parts = [b] := by
    cases parts with
    | nil => simp at hlen
    | cons x xs =>
      cases xs with
      | nil => exact ⟨x, rfl⟩
      | cons y ys => simp at hlen
  subst hb
  rw [hjoin]
  show '/' ∉ b
  exact hfree b (by simp)

/-- Subtrees of two distinct depth-0 nodes contain no common path. -/
theorem ext_root_disjoint {m : FilesMap} (hm : Inv m) {r₁ r₂ : FileData}
    (h₁ : r₁ ∈ m) (h₂ : r₂ ∈ m) (hl₁ : r₁.level = 0) (hl₂ : r₂.level = 0) (hne : r₁ ≠ r₂) :
    ∀ q : String, Ext r₁.path q → Ext r₂.path q → False := by
  intro q he₁ he₂
  obtain ⟨u₁, hu₁, hr₁⟩ := ext_iff_septail.1 he₁
  obtain ⟨u₂, hu₂, hr₂⟩ := ext_iff_septail.1 he₂
  have h' : r₁.path.data ++ u₁ = r₂.path.data ++ u₂ := hr₁.symm.trans hr₂
  have hb := seg_prefix_eq _ _ u₁ u₂ (level0_sep_free hm h₁ hl₁) (level0_sep_free hm h₂ hl₂)
    hu₁ hu₂ h'
  exact hne (eq_of_mem_of_path_eq hm.nodup h₁ h₂ (String.ext hb))

theorem foldl_max_le (l : List FileData) :
    ∀ a : Nat, a ≤ l.foldl (fun acc d => max acc d.level) a ∧
      ∀ d ∈ l, d.level ≤ l.foldl (fun acc d => max acc d.level) a := by
  induction l with
  | nil =>
    intro a
    exact ⟨le_refl _, fun d hd => absurd hd (List.not_mem_nil d)⟩
  | cons e es ih =>
    intro a
    rw [List.foldl_cons]
    obtain ⟨h1, h2⟩ := ih (max a e.level)
    refine ⟨le_trans (le_max_left _ _) h1, ?_⟩
    intro d hd
    rcases List.mem_cons.1 hd with h | h
    · rw [h]
      exact le_trans (le_max_right _ _) h1
    · exact h2 d h

theorem level_le_maxLevel {m : FilesMap} {d : FileData} (hd : d ∈ m) : d.level ≤ maxLevel m :=
  (foldl_max_le m 0).2 d hd

theorem maxLevel_spec (m : FilesMap) : maxLevel m = 0 ∨ ∃ d ∈ m, d.level = maxLevel m := by
  unfold maxLevel
  suffices h : ∀ (l : List FileData) (a : Nat),
      l.foldl (fun acc d => max acc d.level) a = a ∨
        ∃ d ∈ l, d.level = l.foldl (fun acc d => max acc d.level) a by
    rcases h m 0 with h | h
    · exact Or.inl h
    · exact Or.inr h
  intro l
  induction l with
  | nil => intro a; exact Or.inl rfl
  | cons e es ih =>
    intro a
    rw [List.foldl_cons]
    rcases ih (max a e.level) with h | ⟨d, hd, hdl⟩
    · rw [h]
      rcases max_choice a e.level with hc | hc
      · rw [hc]
        exact Or.inl rfl
      · rw [hc]
        exact Or.inr ⟨e, List.mem_cons_self e es, rfl⟩
    · exact Or.inr ⟨d, List.mem_cons_of_mem e hd, hdl⟩

/-- The map is at least as long as its depth range: the recursion fuel
`m.length` covers every root-to-leaf chain. -/
theorem maxLevel_lt_length {m : FilesMap} (hm : Inv m) (hpl : ParentLinked m)
    {d : FileData} (hd : d ∈ m) : maxLevel m + 1 ≤ m.length := by
  have hlev : ∀ l : Nat, ∀ e ∈ m, l ≤ e.level → ∃ e' ∈ m, e'.level = l := by
    intro l
    suffices h : ∀ n, ∀ e ∈ m, e.level ≤ n → l ≤ e.level → ∃ e' ∈ m, e'.level = l by
      intro e he hle
      exact h e.level e he (le_refl _) hle
    intro n
    induction n with
    | zero =>
      intro e he h0 hl
      exact ⟨e, he, by omega⟩
    | succ n ihn =>
      intro e he hn hl
      rcases eq_or_lt_of_le hl with heq | hlt
      · exact ⟨e, he, heq.symm⟩
      · have hne0 : e.level ≠ 0 := by omega
        obtain ⟨par, hpm, hpc⟩ := hpl e he hne0
        have hplev : e.level = par.level + 1 := child_level hm hpm hpc he rfl
        exact ihn par hpm (by omega) (by omega)
  have hsub : List.range (maxLevel m + 1) ⊆ m.map FileData.level := by
    intro l hl
    have hl' : l ≤ maxLevel m := by
      have := List.mem_range.1 hl
      omega
    rcases maxLevel_spec m with h0 | ⟨e, he, hel⟩
    · have : l = 0 := by omega
      subst this
      obtain ⟨e', he', hl0⟩ := hlev 0 d hd (Nat.zero_le _)
      exact List.mem_map.2 ⟨e', he', hl0⟩
    · obtain ⟨e', he', hl0⟩ := hlev l e he (by omega)
      exact List.mem_map.2 ⟨e', he', hl0⟩
  have := (List.subperm_of_subset (List.nodup_range _) hsub).length_le
  simpa using this

/-- Resolution of a child key, with its level and extension facts. -/
theorem child_find {m : FilesMap} (hm : Inv m) {d : FileData} (hd : d ∈ m) {q : String}
    (hq : q ∈ d.children) :
    ∃ e, findNode m q = some e ∧ e ∈ m ∧ e.level = d.level + 1 ∧ Ext d.path q ∧
      d.path.data.length < q.data.length := by
  obtain ⟨e, he, hep⟩ := hm.childMem d hd q hq
  have hf : findNode m q = some e := by
    rw [← hep]
    exact findNode_of_mem_nodup hm.nodup he
  obtain ⟨b, hbf, hbe⟩ := hm.childShape d hd q hq
  refine ⟨e, hf, he, child_level hm hd hq he hep, Or.inr ⟨b, hbe⟩, ?_⟩
  rw [hbe]
  simp

/-- The subtree of the node at `p`, as the list of its nodes' paths,
with recursion fuel. -/
def descPaths (m : FilesMap) : Nat → String → List String
  | 0, _ => []
  | fuel + 1, p =>
    match findNode m p with
    | none => []
    | some d => p :: d.children.flatMap (descPaths m fuel)

theorem desc_self {m : FilesMap} {p : String} {d : FileData} (h : findNode m p = some d)
    (fuel : Nat) : p ∈ descPaths m (fuel + 1) p := by
  unfold descPaths
  rw [h]
  exact List.mem_cons_self p _

theorem desc_extends {m : FilesMap} (hm : Inv m) :
    ∀ (fuel : Nat) (p q : String), q ∈ descPaths m fuel p → Ext p q := by
  intro fuel
  induction fuel with
  | zero => intro p q h; exact absurd h (List.not_mem_nil q)
  | succ fuel ih =>
    intro p q h
    unfold descPaths at h
    rcases hf : findNode m p with _ | d
    · rw [hf] at h
      exact absurd h (List.not_mem_nil q)
    · rw [hf] at h
      rcases List.mem_cons.1 h with h' | h'
      · rw [h']
        exact ext_refl p
      · obtain ⟨c, hc, hq⟩ := List.mem_flatMap.1 h'
        obtain ⟨_, _, _, _, hext, _⟩ := child_find hm (findNode_eq_some hf).1 hc
        have hpc : Ext p c := by
          rw [← (findNode_eq_some hf).2]
          exact hext
        exact ext_trans hpc (ih c q hq)

theorem desc_find {m : FilesMap} (hm : Inv m) :
    ∀ (fuel : Nat) (p q : String) (dp : FileData), findNode m p = some dp →
      q ∈ descPaths m fuel p → ∃ e, findNode m q = some e ∧ e ∈ m ∧ dp.level ≤ e.level := by
  intro fuel
  induction fuel with
  | zero => intro p q dp _ h; exact absurd h (List.not_mem_nil q)
  | succ fuel ih =>
    intro p q dp hf h
    unfold descPaths at h
    rw [hf] at h
    rcases List.mem_cons.1 h with h' | h'
    · subst h'
      exact ⟨dp, hf, (findNode_eq_some hf).1, le_refl _⟩
    · obtain ⟨c, hc, hq⟩ := List.mem_flatMap.1 h'
      obtain ⟨dc, hdc, _, hlev, _, _⟩ := child_find hm (findNode_eq_some hf).1 hc
      obtain ⟨e, he1, he2, he3⟩ := ih c q dc hdc hq
      exact ⟨e, he1, he2, by omega⟩

/-- With enough fuel for the remaining depth, the descendant set
absorbs the one computed at any other fuel. -/
theorem desc_absorb {m : FilesMap} (hm : Inv m) :
    ∀ (f' : Nat) (p q : String) (dp : FileData) (fuel : Nat), findNode m p = some dp →
      maxLevel m + 1 ≤ fuel + dp.level →
      q ∈ descPaths m f' p → q ∈ descPaths m fuel p := by
  intro f'
  induction f' with
  | zero => intro p q dp fuel _ _ h; exact absurd h (List.not_mem_nil q)
  | succ f' ih =>
    intro p q dp fuel hf hfuel h
    have hlev : dp.level ≤ maxLevel m := level_le_maxLevel (findNode_eq_some hf).1
    obtain ⟨fuel', rfl⟩ : ∃ g, fuel = g + 1 := by
      cases fuel with
      | zero => exfalso; omega
      | succ g => exact ⟨g, rfl⟩
    unfold descPaths at h ⊢
    rw [hf] at h ⊢
    rcases List.mem_cons.1 h with h' | h'
    · rw [h']
      exact List.mem_cons_self _ _
    · obtain ⟨c, hc, hq⟩ := List.mem_flatMap.1 h'
      obtain ⟨dc, hdc, _, hlevc, _, _⟩ := child_find hm (findNode_eq_some hf).1 hc
      refine List.mem_cons_of_mem _ (List.mem_flatMap.2 ⟨c, hc, ?_⟩)
      exact ih c q dc fuel' hdc (by omega) hq

theorem desc_child_step {m : FilesMap} (hm : Inv m) :
    ∀ (fuel : Nat) (p q q' : String) (e : FileData), q ∈ descPaths m fuel p →
      findNode m q = some e → q' ∈ e.children → q' ∈ descPaths m (fuel + 1) p := by
  intro fuel
  induction fuel with
  | zero => intro p q q' e h; exact absurd h (List.not_mem_nil q)
  | succ fuel ih =>
    intro p q q' e h hfe hq'
    unfold descPaths at h
    rcases hf : findNode m p with _ | dp
    · rw [hf] at h
      exact absurd h (List.not_mem_nil q)
    · rw [hf] at h
      show q' ∈ descPaths m (fuel + 1 + 1) p
      unfold descPaths
      rw [hf]
      rcases List.mem_cons.1 h with h' | h'
      · subst h'
        have he : dp = e := Option.some.inj (hf.symm.trans hfe)
        refine List.mem_cons_of_mem _ (List.mem_flatMap.2 ⟨q', ?_, ?_⟩)
        · rw [he]
          exact hq'
        · obtain ⟨dq', hdq', _, _, _, _⟩ := child_find hm (findNode_eq_some hfe).1 hq'
          exact desc_self hdq' fuel
      · obtain ⟨c, hc, hq⟩ := List.mem_flatMap.1 h'
        refine List.mem_cons_of_mem _ (List.mem_flatMap.2 ⟨c, hc, ?_⟩)
        exact ih c q q' e hq hfe hq'

/-- Every node of the map is in the subtree of some depth-0 node. -/
theorem reach {m : FilesMap} (hm : Inv m) (hpl : ParentLinked m) :
    ∀ e ∈ m, ∃ r ∈ m, r.level = 0 ∧ ∃ f, e.path ∈ descPaths m f r.path := by
  suffices h : ∀ (n : Nat), ∀ e ∈ m, e.level ≤ n →
      ∃ r ∈ m, r.level = 0 ∧ ∃ f, e.path ∈ descPaths m f r.path by
    intro e he
    exact h e.level e he (le_refl _)
  intro n
  induction n with
  | zero =>
    intro e he hle
    exact ⟨e, he, Nat.le_zero.1 hle, 1, desc_self (findNode_of_mem_nodup hm.nodup he) 0⟩
  | succ n ih =>
    intro e he hle
    by_cases h0 : e.level = 0
    · exact ⟨e, he, h0, 1, desc_self (findNode_of_mem_nodup hm.nodup he) 0⟩
    · obtain ⟨par, hparm, hchild⟩ := hpl e he h0
      have hlev : e.level = par.level + 1 := child_level hm hparm hchild he rfl
      obtain ⟨r, hr, hr0, f, hdesc⟩ := ih par hparm (by omega)
      exact ⟨r, hr, hr0, f + 1,
        desc_child_step hm f r.path par.path e.path par hdesc
          (findNode_of_mem_nodup hm.nodup hparm) hchild⟩

/-- The descendant set only reads shape fields, stable through the later
passes. -/
theorem descPaths_sameShape {m₀ mc : FilesMap} (h : SameShape m₀ mc) :
    ∀ (fuel : Nat) (p : String), descPaths mc fuel p = descPaths m₀ fuel p := by
  intro fuel
  induction fuel with
  | zero => intro p; rfl
  | succ fuel ih =>
    intro p
    unfold descPaths
    rcases sameShape_findNode h p with ⟨h₀, hc⟩ | ⟨d, e, h₀, hc, hde⟩
    · rw [h₀, hc]
    · rw [h₀, hc]
      show p :: e.children.flatMap (descPaths mc fuel)
          = p :: d.children.flatMap (descPaths m₀ fuel)
      rw [hde.2.1]
      have hfn : descPaths mc fuel = descPaths m₀ fuel := funext ih
      rw [hfn]

/-! ## The `seq`-sorted sibling list -/

theorem seqLe_total (a b : FileData) : seqLe a b = true ∨ seqLe b a = true := by
  simp only [seqLe, decide_eq_true_eq]
  omega

theorem seqLe_trans (a b c : FileData) (h₁ : seqLe a b = true) (h₂ : seqLe b c = true) :
    seqLe a c = true := by
  simp only [seqLe, decide_eq_true_eq] at *
  omega

/-- After the ordering pass, a node's children sorted by `seq` carry the
ranks `0, 1, …, k-1` in order. -/
theorem sortBy_seqLe_map_seq {m : FilesMap} {d : FileData} (hk : KidsOK m d) :
    (sortBy seqLe (d.children.filterMap (findNode m))).map (fun c => c.seq)
      = List.range d.children.length := by
  have hperm : ((sortBy seqLe (d.children.filterMap (findNode m))).map (fun c => c.seq)).Perm
      (List.range d.children.length) :=
    ((sortBy_perm seqLe (d.children.filterMap (findNode m))).map _).trans hk.1
  have hsorted : List.Sorted (· ≤ ·)
      ((sortBy seqLe (d.children.filterMap (findNode m))).map (fun c => c.seq)) := by
    show List.Pairwise _ _
    rw [List.pairwise_map]
    have hp := @sortBy_pairwise _ seqLe (d.children.filterMap (findNode m))
      (fun a _ b _ => seqLe_total a b) (fun a _ b _ c _ => seqLe_trans a b c)
    exact hp.imp (fun {a b} hab => by simpa [seqLe, decide_eq_true_eq] using hab)
  have hsorted' : List.Sorted (· ≤ ·) (List.range d.children.length) := by
    show List.Pairwise _ _
    exact (List.pairwise_lt_range _).imp (fun {a b} h => Nat.le_of_lt h)
  exact List.eq_of_perm_of_sorted hperm hsorted hsorted'

theorem samePos_find_some {m₂ mc : FilesMap} (h : SamePos m₂ mc) {q : String} {e₂ : FileData}
    (hf : findNode m₂ q = some e₂) : ∃ e, findNode mc q = some e ∧ EqPos e₂ e := by
  rcases samePos_findNode h q with ⟨h₀, _⟩ | ⟨d, e, h₀, hc, hde⟩
  · rw [hf] at h₀
    exact absurd h₀ (by simp)
  · rw [hf] at h₀
    have hd : e₂ = d := Option.some.inj h₀
    exact ⟨e, hc, hd ▸ hde⟩

theorem samePos_find_back {m₂ mc : FilesMap} (h : SamePos m₂ mc) {q : String} {e : FileData}
    (hf : findNode mc q = some e) : ∃ e₂, findNode m₂ q = some e₂ ∧ EqPos e₂ e := by
  rcases samePos_findNode h q with ⟨_, hc⟩ | ⟨d, e', h₀, hc, hde⟩
  · rw [hf] at hc
    exact absurd hc (by simp)
  · rw [hf] at hc
    have hd : e' = e := (Option.some.inj hc).symm
    exact ⟨d, h₀, hd ▸ hde⟩

/-! ## The layout fold over a sibling (or root) group -/

/-- The fold of `setFilePos` over a group of nodes, threading the
last-placed `y` (App.tsx lines 152–156 and 163–166). -/
def runKids (offsets : List ℚ) (fuel : Nat) (ks : List FileData) (st : FilesMap × ℚ) :
    FilesMap × ℚ :=
  ks.foldl (fun st c => setFilePos offsets fuel st.1 c.path st.2) st

theorem run_samePos {m₂ : FilesMap} (offsets : List ℚ) (fuel : Nat) :
    ∀ (ks : List FileData) (st : FilesMap × ℚ), SamePos m₂ st.1 →
      SamePos m₂ (runKids offsets fuel ks st).1 := by
  intro ks
  induction ks with
  | nil => intro st h; exact h
  | cons c ks ih =>
    intro st h
    exact ih _ (setFilePos_samePos offsets fuel st.1 c.path st.2 h)

/-- After layout in `mres`, every node of the subtree at `pa` sits at
least one row (32 + 16) above every node of the subtree at `pb`. -/
def SubtreeSep (m₂ mres : FilesMap) (pa pb : String) : Prop :=
  ∀ (f₁ f₂ : Nat) (p₁ p₂ : String), p₁ ∈ descPaths m₂ f₁ pa → p₂ ∈ descPaths m₂ f₂ pb →
    ∀ u₁ u₂, findNode mres p₁ = some u₁ → findNode mres p₂ = some u₂ →
      u₁.y + (32 + 16) ≤ u₂.y

/-- After layout in `mres`, the subtrees of any two distinct children of
the node at `q` are vertically separated (one way or the other). -/
def SepAt (m₂ mres : FilesMap) (q : String) : Prop :=
  ∀ e₂, findNode m₂ q = some e₂ → ∀ q₁ ∈ e₂.children, ∀ q₂ ∈ e₂.children, q₁ ≠ q₂ →
    SubtreeSep m₂ mres q₁ q₂ ∨ SubtreeSep m₂ mres q₂ q₁

/-- After layout in `mres`, the node at `q` sits at the top of its
children's rows: every child is at or below it, and some child shares
its row exactly. -/
def KidsAt (m₂ mres : FilesMap) (q : String) : Prop :=
  ∀ e₂, findNode m₂ q = some e₂ → ∀ u, findNode mres q = some u →
    (∀ q' ∈ e₂.children, ∀ u', findNode mres q' = some u' → u.y ≤ u'.y) ∧
    (e₂.children ≠ [] → ∃ q' ∈ e₂.children, ∃ u', findNode mres q' = some u' ∧ u'.y = u.y)

/-- Everything the vertical-stacking fold guarantees for a group `ks` of
pairwise subtree-disjoint nodes processed from state `st`. -/
structure RunOut (offsets : List ℚ) (m₂ : FilesMap) (fuel : Nat) (ks : List FileData)
    (st : FilesMap × ℚ) : Prop where
  frame : ∀ q, (∀ c ∈ ks, ¬ Ext c.path q) →
    findNode (runKids offsets fuel ks st).1 q = findNode st.1 q
  grow : st.2 ≤ (runKids offsets fuel ks st).2
  desc : ∀ c ∈ ks, ∀ (f' : Nat), ∀ q ∈ descPaths m₂ f' c.path, ∃ e₂ u,
    findNode m₂ q = some e₂ ∧ findNode (runKids offsets fuel ks st).1 q = some u ∧
    EqPos e₂ u ∧ u.x = offsets.getD e₂.level 0 ∧
    st.2 + min 1 ((c.seq : ℚ)) * (32 + 16) ≤ u.y ∧ u.y ≤ (runKids offsets fuel ks st).2
  head : ∀ c cs', ks = c :: cs' → ∃ u, findNode (runKids offsets fuel ks st).1 c.path = some u ∧
    u.y = st.2 + min 1 ((c.seq : ℚ)) * (32 + 16)
  hered : ∀ c ∈ ks, ∀ (f' : Nat), ∀ q ∈ descPaths m₂ f' c.path,
    SepAt m₂ (runKids offsets fuel ks st).1 q ∧ KidsAt m₂ (runKids offsets fuel ks st).1 q
  sep : List.Pairwise (fun a b => SubtreeSep m₂ (runKids offsets fuel ks st).1 a.path b.path) ks

theorem pairwise_imp_mem {α : Type} {R S : α → α → Prop} :
    ∀ {l : List α}, (∀ a ∈ l, ∀ b ∈ l, R a b → S a b) → List.Pairwise R l →
      List.Pairwise S l := by
  intro l
  induction l with
  | nil => intro _ _; exact List.Pairwise.nil
  | cons x xs ih =>
    intro h hp
    refine List.Pairwise.cons ?_
      (ih (fun a ha b hb => h a (List.mem_cons_of_mem x ha) b (List.mem_cons_of_mem x hb))
        hp.of_cons)
    intro b hb
    exact h x (List.mem_cons_self x xs) b (List.mem_cons_of_mem x hb)
      (List.rel_of_pairwise_cons hp hb)

/-- The main induction on the vertical-stacking pass: processing a group
of pairwise subtree-disjoint nodes (with distinct, increasing `seq`
ranks and enough fuel for their depth) places exactly the subtrees of
the group, stacking them in disjoint, ordered bands of rows. -/
theorem setFilePos_run (offsets : List ℚ) {m₂ : FilesMap} (hInv : Inv m₂)
    (hK : ∀ d ∈ m₂, KidsOK m₂ d) :
    ∀ (fuel : Nat) (ks : List FileData) (st : FilesMap × ℚ),
      SamePos m₂ st.1 →
      (∀ c ∈ ks, ∃ c₂, findNode m₂ c.path = some c₂ ∧ c₂.seq = c.seq ∧
          maxLevel m₂ + 1 ≤ fuel + c₂.level) →
      List.Pairwise (fun a b => a.seq < b.seq) ks →
      List.Pairwise (fun a b => ∀ q, Ext a.path q → Ext b.path q → False) ks →
      RunOut offsets m₂ fuel ks st := by
  intro fuel
  induction fuel with
  | zero =>
    intro ks st hpos hmem hlt hdj
    cases ks with
    | nil =>
      exact ⟨fun q _ => rfl, le_refl _, fun c hc => absurd hc (List.not_mem_nil c),
        fun c cs' h => List.noConfusion h, fun c hc => absurd hc (List.not_mem_nil c),
        List.Pairwise.nil⟩
    | cons c ks' =>
      obtain ⟨c₂, hf, _, hfl⟩ := hmem c (List.mem_cons_self c ks')
      have := level_le_maxLevel (findNode_eq_some hf).1
      exfalso
      omega
  | succ fuel ih =>
    intro ks
    induction ks with
    | nil =>
      intro st hpos hmem hlt hdj
      exact ⟨fun q _ => rfl, le_refl _, fun c hc => absurd hc (List.not_mem_nil c),
        fun c cs' h => List.noConfusion h, fun c hc => absurd hc (List.not_mem_nil c),
        List.Pairwise.nil⟩
    | cons c ks' ihk =>
      intro st hpos hmem hlt hdj
      obtain ⟨c₂, hfc₂, hseqc, hfuelc⟩ := hmem c (List.mem_cons_self c ks')
      have hc₂m : c₂ ∈ m₂ := (findNode_eq_some hfc₂).1
      have hc₂p : c₂.path = c.path := (findNode_eq_some hfc₂).2
      obtain ⟨dc, hfdc, hEdc⟩ := samePos_find_some hpos hfc₂
      set y1 : ℚ := st.2 + min 1 ((dc.seq : ℚ)) * (32 + 16) with hy1
      set m₁ : FilesMap := updateNode st.1 c.path
        (fun e => { e with x := offsets.getD dc.level 0, y := y1 }) with hm₁
      have hopen : setFilePos offsets (fuel + 1) st.1 c.path st.2
          = runKids offsets fuel
              (sortBy seqLe (dc.children.filterMap (findNode m₁))) (m₁, y1) := by
        unfold setFilePos
        rw [hfdc]
        rfl
      have hSP₁ : SamePos m₂ m₁ :=
        SamePos_updateNode hpos (fun e => ⟨rfl, rfl, rfl, rfl, rfl, rfl⟩)
      have hInv₁ : Inv m₁ := Inv_of_sameShape hInv hSP₁.sameShape
      have hKdc : KidsOK m₁ dc := KidsOK_of_samePos hSP₁ hEdc (hK c₂ hc₂m)
      set SK : List FileData := sortBy seqLe (dc.children.filterMap (findNode m₁)) with hSKdef
      have hseqmap : SK.map (fun x => x.seq) = List.range dc.children.length :=
        sortBy_seqLe_map_seq hKdc
      have hSKlen : SK.length = dc.children.length := by
        have h := congrArg List.length hseqmap
        simpa using h
      have hchch : dc.children = c₂.children := hEdc.1.2.1
      have hSKmem : ∀ x ∈ SK, findNode m₁ x.path = some x ∧ x.path ∈ dc.children := by
        intro x hx
        obtain ⟨q, hq, hfq⟩ := List.mem_filterMap.1 (mem_sortBy.1 hx)
        have hxp : x.path = q := (findNode_eq_some hfq).2
        exact ⟨by rw [hxp]; exact hfq, by rw [hxp]; exact hq⟩
      have hSKpaths : ∀ q ∈ dc.children, ∃ x ∈ SK, x.path = q := by
        intro q hq
        have hch₂ : q ∈ c₂.children := by rw [← hchch]; exact hq
        obtain ⟨e, hfe, _, _, _, _⟩ := child_find hInv hc₂m hch₂
        obtain ⟨u, hfu, _⟩ := samePos_find_some hSP₁ hfe
        exact ⟨u, mem_sortBy.2 (List.mem_filterMap.2 ⟨q, hq, hfu⟩), (findNode_eq_some hfu).2⟩
      have hSKm₂ : ∀ x ∈ SK, ∃ x₂, findNode m₂ x.path = some x₂ ∧ x₂.seq = x.seq ∧
          x₂.level = c₂.level + 1 ∧ Ext c.path x.path ∧
          c.path.data.length < x.path.data.length := by
        intro x hx
        obtain ⟨hfx, hchx⟩ := hSKmem x hx
        have hch₂ : x.path ∈ c₂.children := by rw [← hchch]; exact hchx
        obtain ⟨x₂, hfx₂, hx₂m, hlev, hext, hlen⟩ := child_find hInv hc₂m hch₂
        obtain ⟨x', hfx', hE⟩ := samePos_find_some hSP₁ hfx₂
        have hxx : x' = x := by
          rw [hfx] at hfx'
          exact (Option.some.inj hfx').symm
        subst hxx
        refine ⟨x₂, hfx₂, hE.2.symm, hlev, ?_, ?_⟩
        · rw [← hc₂p]
          exact hext
        · rw [← hc₂p]
          exact hlen
      have hSKlt : List.Pairwise (fun a b => a.seq < b.seq) SK := by
        have h := List.pairwise_lt_range dc.children.length
        rw [← hseqmap] at h
        exact List.pairwise_map.1 h
      have hSKdj : List.Pairwise (fun a b => ∀ q, Ext a.path q → Ext b.path q → False) SK := by
        refine pairwise_imp_mem ?_ hSKlt
        intro a ha b hb hab
        have hpa := hSKmem a ha
        have hpb := hSKmem b hb
        have hne : a.path ≠ b.path := by
          intro h
          have hab' : a = b := by
            have h1 := hpa.1
            rw [h, hpb.1] at h1
            exact (Option.some.inj h1).symm
          rw [hab'] at hab
          exact lt_irrefl _ hab
        have ha₂ : a.path ∈ c₂.children := by rw [← hchch]; exact hpa.2
        have hb₂ : b.path ∈ c₂.children := by rw [← hchch]; exact hpb.2
        exact ext_child_disjoint hInv hc₂m ha₂ hb₂ hne
      have hinner : RunOut offsets m₂ fuel SK (m₁, y1) := by
        refine ih SK (m₁, y1) hSP₁ ?_ hSKlt hSKdj
        intro x hx
        obtain ⟨x₂, h1, h2, h3, _, _⟩ := hSKm₂ x hx
        exact ⟨x₂, h1, h2, by omega⟩
      set R : FilesMap × ℚ := runKids offsets fuel SK (m₁, y1) with hRdef
      have hSPR : SamePos m₂ R.1 := run_samePos offsets fuel SK (m₁, y1) hSP₁
      have hF : runKids offsets (fuel + 1) (c :: ks') st = runKids offsets (fuel + 1) ks' R := by
        show runKids offsets (fuel + 1) ks' (setFilePos offsets (fuel + 1) st.1 c.path st.2)
            = runKids offsets (fuel + 1) ks' R
        rw [hopen]
      have hmin0 : (0 : ℚ) ≤ min 1 ((dc.seq : ℚ)) * (32 + 16) :=
        mul_nonneg (le_min (by norm_num) (Nat.cast_nonneg _)) (by norm_num)
      have hy1ge : st.2 ≤ y1 := by
        rw [hy1]
        linarith
      have hy1R : y1 ≤ R.2 := hinner.grow
      have hseq_dc : dc.seq = c.seq := by
        rw [hEdc.2]
        exact hseqc
      have hy1' : y1 = st.2 + min 1 ((c.seq : ℚ)) * (32 + 16) := by
        rw [hy1, hseq_dc]
      have htail : RunOut offsets m₂ (fuel + 1) ks' R :=
        ihk R hSPR (fun x hx => hmem x (List.mem_cons_of_mem c hx))
          (List.Pairwise.of_cons hlt) (List.Pairwise.of_cons hdj)
      have hpres : ∀ p' : String, Ext c.path p' →
          findNode (runKids offsets (fuel + 1) ks' R).1 p' = findNode R.1 p' := by
        intro p' hp'
        refine htail.frame p' ?_
        intro x hx hxe
        exact (List.rel_of_pairwise_cons hdj hx) p' hp' hxe
      have hcR : findNode R.1 c.path
          = some { dc with x := offsets.getD dc.level 0, y := y1 } := by
        have h1 : findNode R.1 c.path = findNode m₁ c.path := by
          refine hinner.frame c.path ?_
          intro x hx hxe
          obtain ⟨x₂, _, _, _, _, hxlen⟩ := hSKm₂ x hx
          have := Ext.length_le hxe
          omega
        rw [h1, hm₁, findNode_updateNode_self
          (f := fun e => { e with x := offsets.getD dc.level 0, y := y1 })
          (fun e => rfl), hfdc]
        rfl
      have hext_child : ∀ (q : String) (e₂ : FileData), findNode m₂ q = some e₂ →
          ∀ q' ∈ e₂.children, Ext q q' := by
        intro q e₂ hf q' hq'
        obtain ⟨b, _, hbe⟩ := hInv.childShape e₂ (findNode_eq_some hf).1 q' hq'
        refine Or.inr ⟨b, ?_⟩
        rw [← (findNode_eq_some hf).2]
        exact hbe
      have hcdescR : ∀ (f' : Nat), ∀ q ∈ descPaths m₂ f' c.path, ∃ e₂ u,
          findNode m₂ q = some e₂ ∧ findNode R.1 q = some u ∧ EqPos e₂ u ∧
          u.x = offsets.getD e₂.level 0 ∧ y1 ≤ u.y ∧ u.y ≤ R.2 := by
        intro f' q hq
        have hq' : q ∈ descPaths m₂ (fuel + 1) c.path :=
          desc_absorb hInv f' c.path q c₂ (fuel + 1) hfc₂ hfuelc hq
        unfold descPaths at hq'
        rw [hfc₂] at hq'
        rcases List.mem_cons.1 hq' with h' | h'
        · subst h'
          refine ⟨c₂, { dc with x := offsets.getD dc.level 0, y := y1 }, hfc₂, hcR, hEdc,
            ?_, le_refl _, hy1R⟩
          show offsets.getD dc.level 0 = offsets.getD c₂.level 0
          rw [hEdc.1.2.2.2.2]
        · obtain ⟨qx, hqx, hqdesc⟩ := List.mem_flatMap.1 h'
          have hqx' : qx ∈ dc.children := by rw [hchch]; exact hqx
          obtain ⟨kx, hkx, hkxp⟩ := hSKpaths qx hqx'
          rw [← hkxp] at hqdesc
          obtain ⟨e₂, u, hfe₂, hfu, hEq, hux, hlo, hhi⟩ := hinner.desc kx hkx fuel q hqdesc
          have hlo2 : y1 + min 1 ((kx.seq : ℚ)) * (32 + 16) ≤ u.y := hlo
          have hmink : (0 : ℚ) ≤ min 1 ((kx.seq : ℚ)) * (32 + 16) :=
            mul_nonneg (le_min (by norm_num) (Nat.cast_nonneg _)) (by norm_num)
          exact ⟨e₂, u, hfe₂, hfu, hEq, hux, by linarith, hhi⟩
      refine ⟨?_, ?_, ?_, ?_, ?_, ?_⟩
      · -- frame
        intro q hq
        rw [hF]
        have ht := htail.frame q (fun x hx => hq x (List.mem_cons_of_mem c hx))
        rw [ht]
        have h1 : findNode R.1 q = findNode m₁ q := by
          refine hinner.frame q ?_
          intro x hx hxe
          obtain ⟨x₂, _, _, _, hxt, _⟩ := hSKm₂ x hx
          exact hq c (List.mem_cons_self c ks') (ext_trans hxt hxe)
        rw [h1, hm₁]
        exact findNode_updateNode_ne
          (f := fun e => { e with x := offsets.getD dc.level 0, y := y1 }) (fun e => rfl)
          (fun h => hq c (List.mem_cons_self c ks') (by rw [h]; exact ext_refl c.path))
      · -- grow
        rw [hF]
        calc st.2 ≤ y1 := hy1ge
          _ ≤ R.2 := hy1R
          _ ≤ (runKids offsets (fuel + 1) ks' R).2 := htail.grow
      · -- desc
        intro x hx f' q hq
        rw [hF]
        rcases List.mem_cons.1 hx with hxc | hxtail
        · subst hxc
          obtain ⟨e₂, u, hfe₂, hfu, hEq, hux, hlo, hhi⟩ := hcdescR f' q hq
          have hextq : Ext x.path q := desc_extends hInv f' x.path q hq
          refine ⟨e₂, u, hfe₂, ?_, hEq, hux, ?_, ?_⟩
          · rw [hpres q hextq]
            exact hfu
          · rw [← hy1']
            exact hlo
          · exact le_trans hhi htail.grow
        · obtain ⟨e₂, u, hfe₂, hfu, hEq, hux, hlo, hhi⟩ := htail.desc x hxtail f' q hq
          refine ⟨e₂, u, hfe₂, hfu, hEq, hux, ?_, hhi⟩
          have hstR : st.2 ≤ R.2 := le_trans hy1ge hy1R
          linarith [hlo, hstR]
      · -- head
        intro c' cs'' hks
        have hks' := hks
        rw [List.cons.injEq] at hks'
        obtain ⟨hc', _⟩ := hks'
        subst hc'
        rw [hF]
        refine ⟨{ dc with x := offsets.getD dc.level 0, y := y1 }, ?_, ?_⟩
        · rw [hpres c.path (ext_refl c.path)]
          exact hcR
        · show y1 = st.2 + min 1 ((c.seq : ℚ)) * (32 + 16)
          exact hy1'
      · -- hered
        intro x hx f' q hq
        rw [hF]
        rcases List.mem_cons.1 hx with hxc | hxtail
        · subst hxc
          have hextq : Ext x.path q := desc_extends hInv f' x.path q hq
          have hRlevel : SepAt m₂ R.1 q ∧ KidsAt m₂ R.1 q := by
            have hq' : q ∈ descPaths m₂ (fuel + 1) x.path :=
              desc_absorb hInv f' x.path q c₂ (fuel + 1) hfc₂ hfuelc hq
            unfold descPaths at hq'
            rw [hfc₂] at hq'
            rcases List.mem_cons.1 hq' with h' | h'
            · subst h'
              constructor
              · intro e₂ hfe₂ q₁ hq₁ q₂ hq₂ hne
                have he₂ : e₂ = c₂ := Option.some.inj (hfe₂.symm.trans hfc₂)
                rw [he₂] at hq₁ hq₂
                obtain ⟨k₁, hk₁, hk₁p⟩ := hSKpaths q₁ (by rw [hchch]; exact hq₁)
                obtain ⟨k₂, hk₂, hk₂p⟩ := hSKpaths q₂ (by rw [hchch]; exact hq₂)
                obtain ⟨i, hi, hik⟩ := List.mem_iff_getElem.1 hk₁
                obtain ⟨j, hj, hjk⟩ := List.mem_iff_getElem.1 hk₂
                have hij : i ≠ j := by
                  intro h
                  subst h
                  apply hne
                  have hkk : k₁ = k₂ := hik.symm.trans hjk
                  rw [← hk₁p, ← hk₂p, hkk]
                have hsep := List.pairwise_iff_getElem.1 hinner.sep
                rcases Nat.lt_or_ge i j with hlt' | hge
                · left
                  have h := hsep i j hi hj hlt'
                  rw [hik, hjk, hk₁p, hk₂p] at h
                  exact h
                · have hlt' : j < i := by omega
                  right
                  have h := hsep j i hj hi hlt'
                  rw [hik, hjk, hk₁p, hk₂p] at h
                  exact h
              · intro e₂ hfe₂ u hu
                have he₂ : e₂ = c₂ := Option.some.inj (hfe₂.symm.trans hfc₂)
                have hurec : u = { dc with x := offsets.getD dc.level 0, y := y1 } := by
                  rw [hcR] at hu
                  exact (Option.some.inj hu).symm
                have huy : u.y = y1 := by rw [hurec]
                constructor
                · intro q' hq' u' hu'
                  rw [he₂] at hq'
                  obtain ⟨k', hk', hk'p⟩ := hSKpaths q' (by rw [hchch]; exact hq')
                  have hq'desc : q' ∈ descPaths m₂ 1 k'.path := by
                    rw [hk'p]
                    obtain ⟨e', hfe', _, _, _, _⟩ := child_find hInv hc₂m hq'
                    exact desc_self hfe' 0
                  obtain ⟨e₂', u'', hfe₂', hfu'', _, _, hlo'', _⟩ :=
                    hinner.desc k' hk' 1 q' hq'desc
                  have huu : u'' = u' := by
                    rw [hfu''] at hu'
                    exact Option.some.inj hu'
                  have hlo2 : y1 + min 1 ((k'.seq : ℚ)) * (32 + 16) ≤ u''.y := hlo''
                  have hmink : (0 : ℚ) ≤ min 1 ((k'.seq : ℚ)) * (32 + 16) :=
                    mul_nonneg (le_min (by norm_num) (Nat.cast_nonneg _)) (by norm_num)
                  rw [huy, ← huu]
                  linarith
                · intro hne
                  rw [he₂] at hne ⊢
                  have hSKne : SK ≠ [] := by
                    intro h
                    apply hne
                    have h0 : dc.children.length = 0 := by
                      rw [← hSKlen, h]
                      rfl
                    rw [hchch] at h0
                    exact List.eq_nil_of_length_eq_zero h0
                  obtain ⟨k₀, SKrest, hSKeq⟩ := List.exists_cons_of_ne_nil hSKne
                  have hk₀seq : k₀.seq = 0 := by
                    have h1 : SK.length ≠ 0 := by
                      rw [hSKeq]
                      simp
                    have hlen1 : dc.children.length = (dc.children.length - 1) + 1 := by
                      omega
                    rw [hSKeq, List.map_cons, hlen1, List.range_succ_eq_map] at hseqmap
                    have hh := congrArg (fun l => l.headD 7) hseqmap
                    simpa using hh
                  obtain ⟨u₀, hfu₀, hu₀y⟩ := hinner.head k₀ SKrest hSKeq
                  have hk₀ch : k₀.path ∈ c₂.children := by
                    rw [← hchch]
                    exact (hSKmem k₀ (by rw [hSKeq]; exact List.mem_cons_self _ _)).2
                  refine ⟨k₀.path, hk₀ch, u₀, hfu₀, ?_⟩
                  have hv : u₀.y = y1 + min 1 ((k₀.seq : ℚ)) * (32 + 16) := hu₀y
                  rw [hk₀seq] at hv
                  norm_num at hv
                  rw [huy]
                  exact hv
            · obtain ⟨qx, hqx, hqdesc⟩ := List.mem_flatMap.1 h'
              obtain ⟨kx, hkx, hkxp⟩ := hSKpaths qx (by rw [hchch]; exact hqx)
              rw [← hkxp] at hqdesc
              exact hinner.hered kx hkx fuel q hqdesc
          obtain ⟨hRsep, hRkids⟩ := hRlevel
          constructor
          · intro e₂ hfe₂ q₁ hq₁ q₂ hq₂ hne
            have hextq₁ : Ext x.path q₁ := ext_trans hextq (hext_child q e₂ hfe₂ q₁ hq₁)
            have hextq₂ : Ext x.path q₂ := ext_trans hextq (hext_child q e₂ hfe₂ q₂ hq₂)
            rcases hRsep e₂ hfe₂ q₁ hq₁ q₂ hq₂ hne with h | h
            · left
              intro f₁ f₂ p₁ p₂ hp₁ hp₂ u₁ u₂ hu₁ hu₂
              rw [hpres p₁ (ext_trans hextq₁ (desc_extends hInv f₁ q₁ p₁ hp₁))] at hu₁
              rw [hpres p₂ (ext_trans hextq₂ (desc_extends hInv f₂ q₂ p₂ hp₂))] at hu₂
              exact h f₁ f₂ p₁ p₂ hp₁ hp₂ u₁ u₂ hu₁ hu₂
            · right
              intro f₁ f₂ p₁ p₂ hp₁ hp₂ u₁ u₂ hu₁ hu₂
              rw [hpres p₁ (ext_trans hextq₂ (desc_extends hInv f₁ q₂ p₁ hp₁))] at hu₁
              rw [hpres p₂ (ext_trans hextq₁ (desc_extends hInv f₂ q₁ p₂ hp₂))] at hu₂
              exact h f₁ f₂ p₁ p₂ hp₁ hp₂ u₁ u₂ hu₁ hu₂
          · intro e₂ hfe₂ u hu
            rw [hpres q hextq] at hu
            obtain ⟨ha, hb⟩ := hRkids e₂ hfe₂ u hu
            constructor
            · intro q' hq' u' hu'
              rw [hpres q' (ext_trans hextq (hext_child q e₂ hfe₂ q' hq'))] at hu'
              exact ha q' hq' u' hu'
            · intro hne
              obtain ⟨q', hq', u', hu', huy⟩ := hb hne
              refine ⟨q', hq', u', ?_, huy⟩
              rw [hpres q' (ext_trans hextq (hext_child q e₂ hfe₂ q' hq'))]
              exact hu'
        · exact htail.hered x hxtail f' q hq
      · -- sep
        rw [hF]
        refine List.Pairwise.cons ?_ htail.sep
        intro x hx
        intro f₁ f₂ p₁ p₂ hp₁ hp₂ u₁ u₂ hu₁ hu₂
        obtain ⟨e₂, u₁', hfe₂, hfu₁', _, _, _, hhi₁⟩ := hcdescR f₁ p₁ hp₁
        have hext₁ : Ext c.path p₁ := desc_extends hInv f₁ c.path p₁ hp₁
        rw [hpres p₁ hext₁] at hu₁
        have hu₁e : u₁' = u₁ := by
          rw [hfu₁'] at hu₁
          exact Option.some.inj hu₁
        obtain ⟨e₂', u₂', hfe₂', hfu₂', _, _, hlo₂, _⟩ := htail.desc x hx f₂ p₂ hp₂
        have hu₂e : u₂' = u₂ := by
          rw [hfu₂'] at hu₂
          exact Option.some.inj hu₂
        have hxseq : 1 ≤ x.seq := by
          have := List.rel_of_pairwise_cons hlt hx
          omega
        have hminx : min 1 ((x.seq : ℚ)) = 1 := min_eq_left (by exact_mod_cast hxseq)
        rw [hminx] at hlo₂
        rw [← hu₁e, ← hu₂e]
        linarith [hhi₁, hlo₂]

/-! ## The root loop and the master layout theorem -/

/-- The root loop of `layout` is the same fold, with the `Option`
threading (`lastChild ? lastChild.y : 0`) flattened to its `getD 0`. -/
theorem layout_eq_run (offsets : List ℚ) (m : FilesMap) :
    layout offsets m
      = (runKids offsets m.length (sortBy seqLe (rootsOf m)) (m, 0)).1 := by
  have h : ∀ (rs : List FileData) (st : FilesMap × Option ℚ),
      (rs.foldl (fun (st : FilesMap × Option ℚ) r =>
          let res := setFilePos offsets m.length st.1 r.path (st.2.getD 0)
          (res.1, some res.2)) st).1
        = (runKids offsets m.length rs (st.1, st.2.getD 0)).1 := by
    intro rs
    induction rs with
    | nil => intro st; rfl
    | cons r rs ihr =>
      intro st
      rw [List.foldl_cons]
      rw [ihr]
      rfl
  exact h _ (m, none)

/-- After the ordering pass, the depth-0 nodes carry the ranks
`0, 1, …` in map order. -/
theorem rootsOf_assignSeqs_seq (paths : List String) :
    ∀ (j : Nat) (h₂ : j < (rootsOf (assignSeqs (buildMap paths))).length),
      ((rootsOf (assignSeqs (buildMap paths)))[j]).seq = j := by
  have hInv₀ : Inv (buildMap paths) := (buildMap_inv_keys paths).1
  have hseq := assignSeqs_spec hInv₀
  have hr0 : List.Forall₂ EqShape (rootsOf (buildMap paths))
      (rootsOf (assignSeqs (buildMap paths))) := sameShape_rootsOf hseq.1
  obtain ⟨hlen0, hrel0⟩ := forall₂_getElem hr0
  have hInv₂ : Inv (assignSeqs (buildMap paths)) := Inv_of_sameShape hInv₀ hseq.1
  intro j h₂
  have h₀ : j < (rootsOf (buildMap paths)).length := by omega
  have hsh0 := hrel0 j h₀ h₂
  have hdj : (rootsOf (buildMap paths))[j]? = some ((rootsOf (buildMap paths))[j]) :=
    List.getElem?_eq_some.2 ⟨h₀, rfl⟩
  have hpin := hseq.2.1 j _ hdj
  have hmem₂ : (rootsOf (assignSeqs (buildMap paths)))[j] ∈ assignSeqs (buildMap paths) :=
    (mem_rootsOf.1 (List.getElem_mem h₂)).1
  have hself := findNode_of_mem_nodup hInv₂.nodup hmem₂
  rw [hsh0.1, hpin] at hself
  have hv := Option.some.inj hself
  rw [← hv]

/-- All structural inputs the layout pass needs about the ordered map. -/
theorem assignSeqs_pipeline (paths : List String) :
    Inv (assignSeqs (buildMap paths)) ∧
    ParentLinked (assignSeqs (buildMap paths)) ∧
    (∀ d ∈ assignSeqs (buildMap paths), KidsOK (assignSeqs (buildMap paths)) d) := by
  have hInv₀ : Inv (buildMap paths) := (buildMap_inv_keys paths).1
  have hseq := assignSeqs_spec hInv₀
  refine ⟨Inv_of_sameShape hInv₀ hseq.1,
    ParentLinked_of_sameShape (buildMap_parentLinked paths) hseq.1, ?_⟩
  intro d hd
  obtain ⟨d₀, hd₀, hs₀⟩ := (hseq.1).mem_right hd
  exact KidsOK_congr_children hs₀.2.1 (hseq.2.2 d₀ hd₀)

/-- The master theorem for the whole layout pass: every node is placed
at its level's x-offset with a non-negative y; every node tops its
children's rows, with one child sharing its row; the subtrees of
distinct siblings — and of distinct roots — occupy vertically separated
bands; and the rank-0 root sits at `(offsets[0], 0)`. -/
theorem layout_master {m₂ : FilesMap} (offsets : List ℚ) (hInv : Inv m₂)
    (hPL : ParentLinked m₂) (hK : ∀ d ∈ m₂, KidsOK m₂ d)
    (hroots : ∀ (j : Nat) (hj : j < (rootsOf m₂).length), ((rootsOf m₂)[j]).seq = j) :
    (∀ e ∈ m₂, ∃ u, findNode (layout offsets m₂) e.path = some u ∧ EqPos e u ∧
        u.x = offsets.getD e.level 0 ∧ 0 ≤ u.y) ∧
    (∀ e ∈ m₂, SepAt m₂ (layout offsets m₂) e.path ∧ KidsAt m₂ (layout offsets m₂) e.path) ∧
    (∀ r₁ ∈ m₂, ∀ r₂ ∈ m₂, r₁.level = 0 → r₂.level = 0 → r₁ ≠ r₂ →
        SubtreeSep m₂ (layout offsets m₂) r₁.path r₂.path ∨
          SubtreeSep m₂ (layout offsets m₂) r₂.path r₁.path) ∧
    (∀ r ∈ m₂, r.level = 0 → r.seq = 0 → ∃ u, findNode (layout offsets m₂) r.path = some u ∧
        u.x = offsets.getD 0 0 ∧ u.y = 0) := by
  have hle : layout offsets m₂
      = (runKids offsets m₂.length (sortBy seqLe (rootsOf m₂)) (m₂, 0)).1 :=
    layout_eq_run offsets m₂
  set RS : List FileData := sortBy seqLe (rootsOf m₂) with hRSdef
  have hRSsub : ∀ r ∈ RS, r ∈ m₂ ∧ r.level = 0 := by
    intro r hr
    have h2 := List.mem_filter.1 (mem_sortBy.1 hr)
    exact ⟨h2.1, by simpa using h2.2⟩
  have hRSof : ∀ r ∈ m₂, r.level = 0 → r ∈ RS := by
    intro r hr hr0
    exact mem_sortBy.2 (List.mem_filter.2 ⟨hr, by simp [hr0]⟩)
  have hmapseq : (rootsOf m₂).map (fun d => d.seq) = List.range (rootsOf m₂).length := by
    apply List.ext_getElem
    · simp
    · intro j h₁ h₂
      simp only [List.getElem_map, List.getElem_range]
      exact hroots j (by simpa using h₁)
  have hRSseq : RS.map (fun d => d.seq) = List.range (rootsOf m₂).length := by
    have hperm : (RS.map (fun d => d.seq)).Perm (List.range (rootsOf m₂).length) := by
      rw [← hmapseq]
      exact (sortBy_perm seqLe (rootsOf m₂)).map _
    have hsorted : List.Sorted (· ≤ ·) (RS.map (fun d => d.seq)) := by
      show List.Pairwise _ _
      rw [List.pairwise_map]
      have hp := @sortBy_pairwise _ seqLe (rootsOf m₂)
        (fun a _ b _ => seqLe_total a b) (fun a _ b _ c _ => seqLe_trans a b c)
      exact hp.imp (fun {a b} hab => by simpa [seqLe, decide_eq_true_eq] using hab)
    have hsorted' : List.Sorted (· ≤ ·) (List.range (rootsOf m₂).length) := by
      show List.Pairwise _ _
      exact (List.pairwise_lt_range _).imp (fun {a b} h => Nat.le_of_lt h)
    exact List.eq_of_perm_of_sorted hperm hsorted hsorted'
  have hRSlt : List.Pairwise (fun a b => a.seq < b.seq) RS := by
    have h := List.pairwise_lt_range (rootsOf m₂).length
    rw [← hRSseq] at h
    exact List.pairwise_map.1 h
  have hRSfind : ∀ r ∈ RS, findNode m₂ r.path = some r := fun r hr =>
    findNode_of_mem_nodup hInv.nodup (hRSsub r hr).1
  have hRSdj : List.Pairwise (fun a b => ∀ q, Ext a.path q → Ext b.path q → False) RS := by
    refine pairwise_imp_mem ?_ hRSlt
    intro a ha b hb hab
    have hane : a ≠ b := by
      intro h
      rw [h] at hab
      exact lt_irrefl _ hab
    exact ext_root_disjoint hInv (hRSsub a ha).1 (hRSsub b hb).1
      (hRSsub a ha).2 (hRSsub b hb).2 hane
  have hmemRS : ∀ c ∈ RS, ∃ c₂, findNode m₂ c.path = some c₂ ∧ c₂.seq = c.seq ∧
      maxLevel m₂ + 1 ≤ m₂.length + c₂.level := by
    intro c hc
    refine ⟨c, hRSfind c hc, rfl, ?_⟩
    have := maxLevel_lt_length hInv hPL (hRSsub c hc).1
    omega
  have hrun := setFilePos_run offsets hInv hK m₂.length RS (m₂, 0)
    (samePos_refl m₂) hmemRS hRSlt hRSdj
  have hfind_self : ∀ e ∈ m₂, findNode m₂ e.path = some e := fun e he =>
    findNode_of_mem_nodup hInv.nodup he
  refine ⟨?_, ?_, ?_, ?_⟩
  · -- every node placed, with its x-offset and a non-negative y
    intro e he
    obtain ⟨r, hr, hr0, f, hdesc⟩ := reach hInv hPL e he
    have hrRS : r ∈ RS := hRSof r hr hr0
    obtain ⟨e₂, u, hfe₂, hfu, hEq, hux, hlo, _⟩ := hrun.desc r hrRS f e.path hdesc
    have hee : e₂ = e := by
      rw [hfind_self e he] at hfe₂
      exact (Option.some.inj hfe₂).symm
    subst hee
    refine ⟨u, ?_, hEq, hux, ?_⟩
    · rw [hle]
      exact hfu
    · have hmin : (0 : ℚ) ≤ min 1 ((r.seq : ℚ)) * (32 + 16) :=
        mul_nonneg (le_min (by norm_num) (Nat.cast_nonneg _)) (by norm_num)
      have hlo' : (0 : ℚ) + min 1 ((r.seq : ℚ)) * (32 + 16) ≤ u.y := hlo
      linarith
  · -- hereditary separation and parent-tops-children at every node
    intro e he
    obtain ⟨r, hr, hr0, f, hdesc⟩ := reach hInv hPL e he
    have hrRS : r ∈ RS := hRSof r hr hr0
    have h := hrun.hered r hrRS f e.path hdesc
    rw [hle]
    exact h
  · -- distinct root subtrees are separated
    intro r₁ hr₁ r₂ hr₂ h01 h02 hne
    have h₁RS : r₁ ∈ RS := hRSof r₁ hr₁ h01
    have h₂RS : r₂ ∈ RS := hRSof r₂ hr₂ h02
    obtain ⟨i, hi, hik⟩ := List.mem_iff_getElem.1 h₁RS
    obtain ⟨j, hj, hjk⟩ := List.mem_iff_getElem.1 h₂RS
    have hij : i ≠ j := by
      intro h
      subst h
      exact hne (hik.symm.trans hjk)
    have hsep := List.pairwise_iff_getElem.1 hrun.sep
    rw [hle]
    rcases Nat.lt_or_ge i j with hlt' | hge
    · left
      have h := hsep i j hi hj hlt'
      rw [hik, hjk] at h
      exact h
    · have hlt' : j < i := by omega
      right
      have h := hsep j i hj hi hlt'
      rw [hik, hjk] at h
      exact h
  · -- the rank-0 root sits at (offsets[0], 0)
    intro r hr hr0 hrs
    have hrRS : r ∈ RS := hRSof r hr hr0
    have hRSne : RS ≠ [] := List.ne_nil_of_mem hrRS
    obtain ⟨c, cs, hRSeq⟩ := List.exists_cons_of_ne_nil hRSne
    have hcRS : c ∈ RS := by
      rw [hRSeq]
      exact List.mem_cons_self _ _
    have hcseq : c.seq = 0 := by
      have h1 : (rootsOf m₂).length ≠ 0 := by
        intro h
        have h2 := congrArg List.length hRSseq
        rw [hRSeq, h] at h2
        simp at h2
      have hlen1 : (rootsOf m₂).length = ((rootsOf m₂).length - 1) + 1 := by omega
      rw [hRSeq, List.map_cons, hlen1, List.range_succ_eq_map] at hRSseq
      have hh := congrArg (fun l => l.headD 7) hRSseq
      simpa using hh
    have hcr : c = r := by
      have hcroot : c ∈ rootsOf m₂ :=
        List.mem_filter.2 ⟨(hRSsub c hcRS).1, by simp [(hRSsub c hcRS).2]⟩
      have hrroot : r ∈ rootsOf m₂ := List.mem_filter.2 ⟨hr, by simp [hr0]⟩
      obtain ⟨jc, hjc, hjck⟩ := List.mem_iff_getElem.1 hcroot
      obtain ⟨jr, hjr, hjrk⟩ := List.mem_iff_getElem.1 hrroot
      have hjc0 : jc = 0 := by
        have := hroots jc hjc
        rw [hjck] at this
        rw [hcseq] at this
        omega
      have hjr0 : jr = 0 := by
        have := hroots jr hjr
        rw [hjrk] at this
        rw [hrs] at this
        omega
      subst hjc0
      subst hjr0
      rw [← hjck, ← hjrk]
    obtain ⟨u, hfu, huy⟩ := hrun.head c cs hRSeq
    -- the x value, via the node's own descendant set
    obtain ⟨e₂, u', hfe₂, hfu', _, hux', _, _⟩ :=
      hrun.desc c hcRS 1 c.path (desc_self (hRSfind c hcRS) 0)
    have hu'u : u' = u := by
      have h := hfu
      rw [hfu'] at h
      exact Option.some.inj h
    have he₂c : e₂ = c := by
      rw [hRSfind c hcRS] at hfe₂
      exact (Option.some.inj hfe₂).symm
    refine ⟨u, ?_, ?_, ?_⟩
    · rw [hle, ← hcr]
      exact hfu
    · rw [← hu'u, hux', he₂c, (hRSsub c hcRS).2]
    · have huy' : u.y = (0 : ℚ) + min 1 ((c.seq : ℚ)) * (32 + 16) := huy
      rw [hcseq] at huy'
      norm_num at huy'
      exact huy'

/-- A node whose path has no separator sits at depth 0. -/
theorem node_free_level0 {m : FilesMap} (hm : Inv m) {d : FileData} (hd : d ∈ m)
    (hfree : '/' ∉ d.path.data) : d.level = 0 := by
  obtain ⟨parts, hne, hfr, hjoin, hlen, _⟩ := hm.segs d hd
  cases parts with
  | nil => exact absurd rfl hne
  | cons a as =>
    cases as with
    | nil => simpa using hlen.symm
    | cons b bs =>
      exfalso
      apply hfree
      rw [hjoin]
      show '/' ∈ a ++ '/' :: joinChar '/' (b :: bs)
      exact List.mem_append.2 (Or.inr (List.mem_cons_self _ _))

/-- For non-empty input, the ordered map has a rank-0 root. -/
theorem root0_exists (paths : List String) (hne : paths ≠ []) :
    ∃ r ∈ assignSeqs (buildMap paths), r.level = 0 ∧ r.seq = 0 := by
  have hInv₀ : Inv (buildMap paths) := (buildMap_inv_keys paths).1
  have hseq := assignSeqs_spec hInv₀
  have hInv₂ : Inv (assignSeqs (buildMap paths)) := Inv_of_sameShape hInv₀ hseq.1
  obtain ⟨P, hP⟩ := List.exists_mem_of_ne_nil paths hne
  have hkey := ((buildMap_inv_keys paths).2 (prefixPath (jsSplit P) 0)).2
    ⟨P, hP, 0, by have := jsSplit_ne_nil P; exact List.length_pos.2 this, rfl⟩
  obtain ⟨d0, hd0, hd0p⟩ := hkey
  obtain ⟨s0, srest, hsegs⟩ := List.exists_cons_of_ne_nil (jsSplit_ne_nil P)
  have hfree : '/' ∉ d0.path.data := by
    rw [hd0p, prefixPath_data, hsegs]
    show '/' ∉ joinChar '/' ((List.take 1 (s0 :: srest)).map String.data)
    have h1 : List.take 1 (s0 :: srest) = [s0] := by simp
    rw [h1]
    show '/' ∉ s0.data
    exact jsSplit_free P s0 (by rw [hsegs]; exact List.mem_cons_self _ _)
  have hlev0 : d0.level = 0 := node_free_level0 hInv₀ hd0 hfree
  obtain ⟨e, he, hse⟩ := (hseq.1).mem_left hd0
  have helev : e.level = 0 := by
    rw [hse.2.2.2.2]
    exact hlev0
  have heroot : e ∈ rootsOf (assignSeqs (buildMap paths)) :=
    List.mem_filter.2 ⟨he, by simp [helev]⟩
  have hlenpos : 0 < (rootsOf (assignSeqs (buildMap paths))).length :=
    List.length_pos.2 (List.ne_nil_of_mem heroot)
  refine ⟨(rootsOf (assignSeqs (buildMap paths)))[0], ?_, ?_, ?_⟩
  · exact (mem_rootsOf.1 (List.getElem_mem hlenpos)).1
  · exact (mem_rootsOf.1 (List.getElem_mem hlenpos)).2
  · exact rootsOf_assignSeqs_seq paths 0 hlenpos

theorem listMax_spec : ∀ (ys : List ℚ) (x : ℚ),
    x ≤ listMax x ys ∧ (∀ y ∈ ys, y ≤ listMax x ys) ∧
      (listMax x ys = x ∨ listMax x ys ∈ ys) := by
  intro ys
  induction ys with
  | nil =>
    intro x
    exact ⟨le_refl _, fun y hy => absurd hy (List.not_mem_nil y), Or.inl rfl⟩
  | cons y ys ih =>
    intro x
    obtain ⟨h1, h2, h3⟩ := ih (max x y)
    refine ⟨le_trans (le_max_left _ _) h1, ?_, ?_⟩
    · intro z hz
      rcases List.mem_cons.1 hz with h | h
      · rw [h]
        exact le_trans (le_max_right _ _) h1
      · exact h2 z h
    · rcases h3 with h | h
      · rcases max_choice x y with hc | hc
        · exact Or.inl (h.trans hc)
        · refine Or.inr ?_
          have hv : listMax x (y :: ys) = y := h.trans hc
          rw [hv]
          exact List.mem_cons_self _ _
      · exact Or.inr (List.mem_cons_of_mem _ h)

/-- The non-negative offsets of the code's offset table. -/
theorem levelOffsets_getD_nonneg (measure : String → ℚ) (m : FilesMap) :
    ∀ i, 0 ≤ (levelOffsets measure m).getD i 0 := by
  intro i
  rw [levelOffsets_eq_specOffsets]
  exact specOffsetsFrom_nonneg _ 0 (le_refl 0)
    (fun w hw => rawWidths_nonneg measure m w (List.mem_of_mem_dropLast hw)) i

/-- The master layout facts, instantiated on the full pipeline. -/
theorem files_master (measure : String → ℚ) (paths : List String) :
    SamePos (assignSeqs (buildMap paths)) (createFileDatas measure paths).1 ∧
    Inv (createFileDatas measure paths).1 ∧
    (∀ e ∈ assignSeqs (buildMap paths), ∃ u,
        findNode (createFileDatas measure paths).1 e.path = some u ∧ EqPos e u ∧
        u.x = (levelOffsets measure (assignSeqs (buildMap paths))).getD e.level 0 ∧
        0 ≤ u.y) ∧
    (∀ e ∈ assignSeqs (buildMap paths),
        SepAt (assignSeqs (buildMap paths)) (createFileDatas measure paths).1 e.path ∧
        KidsAt (assignSeqs (buildMap paths)) (createFileDatas measure paths).1 e.path) ∧
    (∀ r₁ ∈ assignSeqs (buildMap paths), ∀ r₂ ∈ assignSeqs (buildMap paths),
        r₁.level = 0 → r₂.level = 0 → r₁ ≠ r₂ →
        SubtreeSep (assignSeqs (buildMap paths)) (createFileDatas measure paths).1
          r₁.path r₂.path ∨
        SubtreeSep (assignSeqs (buildMap paths)) (createFileDatas measure paths).1
          r₂.path r₁.path) ∧
    (∀ r ∈ assignSeqs (buildMap paths), r.level = 0 → r.seq = 0 →
        ∃ u, findNode (createFileDatas measure paths).1 r.path = some u ∧
          u.x = 0 ∧ u.y = 0) := by
  obtain ⟨hInv₂, hPL₂, hK₂⟩ := assignSeqs_pipeline paths
  have hroots := rootsOf_assignSeqs_seq paths
  obtain ⟨hAll, hHered, hRootSep, hZero⟩ :=
    layout_master (levelOffsets measure (assignSeqs (buildMap paths))) hInv₂ hPL₂ hK₂ hroots
  obtain ⟨hpos, _, hInvF⟩ := createFileDatas_facts measure paths
  refine ⟨hpos, hInvF, hAll, hHered, hRootSep, ?_⟩
  intro r hr h0 hs
  obtain ⟨u, hfu, hux, huy⟩ := hZero r hr h0 hs
  refine ⟨u, hfu, ?_, huy⟩
  rw [hux]
  rfl

/-- **C10.** After layout every node has non-negative coordinates; the
first-placed depth-0 node (the rank-0 root, placed first by the root
loop) sits at exactly `(0, 0)`; and every node's `y` is at least its
parent's `y`. -/
theorem claim_C10 (measure : String → ℚ) (paths : List String) (hne : paths ≠ []) :
    (∀ e ∈ (createFileDatas measure paths).1, 0 ≤ e.x ∧ 0 ≤ e.y) ∧
    (∃ r ∈ (createFileDatas measure paths).1, r.level = 0 ∧ r.seq = 0 ∧ r.x = 0 ∧ r.y = 0) ∧
    (∀ e ∈ (createFileDatas measure paths).1, ∀ q ∈ e.children,
        ∀ u, findNode (createFileDatas measure paths).1 q = some u → e.y ≤ u.y) := by
  obtain ⟨hpos, hInvF, hAll, hHered, _, hZero⟩ := files_master measure paths
  have hfind_self : ∀ e ∈ (createFileDatas measure paths).1,
      findNode (createFileDatas measure paths).1 e.path = some e := fun e he =>
    findNode_of_mem_nodup hInvF.nodup he
  refine ⟨?_, ?_, ?_⟩
  · intro e he
    obtain ⟨e₂, hfe₂, hE⟩ := samePos_find_back hpos (hfind_self e he)
    obtain ⟨u, hfu, _, hux, huy⟩ := hAll e₂ (findNode_eq_some hfe₂).1
    have hue : u = e := by
      have h := hfind_self e he
      rw [(findNode_eq_some hfe₂).2] at hfu
      rw [hfu] at h
      exact Option.some.inj h
    constructor
    · rw [← hue, hux]
      exact levelOffsets_getD_nonneg measure (assignSeqs (buildMap paths)) e₂.level
    · rw [← hue]
      exact huy
  · obtain ⟨r, hr, h0, hs⟩ := root0_exists paths hne
    obtain ⟨u, hfu, hux, huy⟩ := hZero r hr h0 hs
    have humem : u ∈ (createFileDatas measure paths).1 := (findNode_eq_some hfu).1
    obtain ⟨u', hfu', hE', _, _⟩ := hAll r hr
    have huu : u' = u := by
      have h := hfu
      rw [hfu'] at h
      exact Option.some.inj h
    refine ⟨u, humem, ?_, ?_, hux, huy⟩
    · rw [← huu, hE'.1.2.2.2.2]
      exact h0
    · rw [← huu, hE'.2]
      exact hs
  · intro e he q hq u hu
    obtain ⟨e₂, hfe₂, hE⟩ := samePos_find_back hpos (hfind_self e he)
    have hkids := (hHered e₂ (findNode_eq_some hfe₂).1).2
    have hf2 : findNode (assignSeqs (buildMap paths)) e₂.path = some e₂ :=
      findNode_of_mem_nodup ((assignSeqs_pipeline paths).1).nodup (findNode_eq_some hfe₂).1
    have hfe : findNode (createFileDatas measure paths).1 e₂.path = some e := by
      rw [(findNode_eq_some hfe₂).2]
      exact hfind_self e he
    have hsep := hkids e₂ hf2 e hfe
    refine hsep.1 q ?_ u hu
    rw [← hE.1.2.1]
    exact hq

unseal Rat.add Rat.mul Rat.sub Rat.inv Nat.gcd in
theorem claim_C10_witness :
    (["a/b.js"] : List String) ≠ [] ∧
    ((∀ e ∈ (createFileDatas measureLen ["a/b.js"]).1, 0 ≤ e.x ∧ 0 ≤ e.y) ∧
      (∃ r ∈ (createFileDatas measureLen ["a/b.js"]).1,
          r.level = 0 ∧ r.seq = 0 ∧ r.x = 0 ∧ r.y = 0) ∧
      (∀ e ∈ (createFileDatas measureLen ["a/b.js"]).1, ∀ q ∈ e.children,
          ∀ u, findNode (createFileDatas measureLen ["a/b.js"]).1 q = some u → e.y ≤ u.y)) :=
  ⟨by decide, claim_C10 measureLen ["a/b.js"] (by decide)⟩

unseal Rat.add Rat.mul Rat.sub Rat.inv Nat.gcd in
/-- **C3 counterexample.** For the input `["a/x.js", "a/y.js"]` the
parent `a` is laid out at `y = 0` while its two children sit at rows
`y = 0` and `y = 48`: the midpoint of the children's row span is `24`,
not the parent's `0` — the parent aligns with its *first* child's row,
not with the vertical center of its children's span. -/
theorem claim_C3_counterexample :
    ∃ d cx cy : FileData,
      findNode (createFileDatas measureLen ["a/x.js", "a/y.js"]).1 "a" = some d ∧
      findNode (createFileDatas measureLen ["a/x.js", "a/y.js"]).1 "a/x.js" = some cx ∧
      findNode (createFileDatas measureLen ["a/x.js", "a/y.js"]).1 "a/y.js" = some cy ∧
      d.children = ["a/x.js", "a/y.js"] ∧
      d.y ≠ (min cx.y cy.y + max cx.y cy.y) / 2 := by
  refine ⟨{ parent := none, children := ["a/x.js", "a/y.js"], type := FileType.Dir,
            path := "a", base := "a", level := 0, seq := 0, x := 0, y := 0 },
          { parent := some "a", children := [], type := FileType.Js, path := "a/x.js",
            base := "x.js", level := 1, seq := 0, x := 110, y := 0 },
          { parent := some "a", children := [], type := FileType.Js, path := "a/y.js",
            base := "y.js", level := 1, seq := 1, x := 110, y := 48 },
          ?_, ?_, ?_, ?_, ?_⟩ <;> decide

/-- **C3 (amended).** For every node with at least one child, after
layout the parent's row is the *top* of its children's row span: every
child's `y` is at least the parent's `y`, and some child's `y` equals
the parent's `y` exactly (the rank-0 child, which is placed on the
parent's own row). -/
theorem claim_C3_amended (measure : String → ℚ) (paths : List String) :
    ∀ d ∈ (createFileDatas measure paths).1, d.children ≠ [] →
      (∀ q ∈ d.children, ∀ u, findNode (createFileDatas measure paths).1 q = some u →
          d.y ≤ u.y) ∧
      (∃ q ∈ d.children, ∃ u, findNode (createFileDatas measure paths).1 q = some u ∧
          u.y = d.y) := by
  intro d hd hne
  obtain ⟨hpos, hInvF, _, hHered, _, _⟩ := files_master measure paths
  have hfind_self : findNode (createFileDatas measure paths).1 d.path = some d :=
    findNode_of_mem_nodup hInvF.nodup hd
  obtain ⟨e₂, hfe₂, hE⟩ := samePos_find_back hpos hfind_self
  have hf2 : findNode (assignSeqs (buildMap paths)) e₂.path = some e₂ :=
    findNode_of_mem_nodup ((assignSeqs_pipeline paths).1).nodup (findNode_eq_some hfe₂).1
  have hfd : findNode (createFileDatas measure paths).1 e₂.path = some d := by
    rw [(findNode_eq_some hfe₂).2]
    exact hfind_self
  have hkids := (hHered e₂ (findNode_eq_some hfe₂).1).2 e₂ hf2 d hfd
  have hch : d.children = e₂.children := hE.1.2.1
  constructor
  · intro q hq u hu
    refine hkids.1 q ?_ u hu
    rw [← hch]
    exact hq
  · obtain ⟨q', hq', u', hu', huy⟩ := hkids.2 (by rw [← hch]; exact hne)
    exact ⟨q', by rw [hch]; exact hq', u', hu', huy⟩

unseal Rat.add Rat.mul Rat.sub Rat.inv Nat.gcd in
theorem claim_C3_amended_witness :
    ({ parent := none, children := ["a/x.js", "a/y.js"], type := FileType.Dir,
       path := "a", base := "a", level := 0, seq := 0, x := 0, y := 0 } : FileData)
        ∈ (createFileDatas measureLen ["a/x.js", "a/y.js"]).1 ∧
    ({ parent := none, children := ["a/x.js", "a/y.js"], type := FileType.Dir,
       path := "a", base := "a", level := 0, seq := 0, x := 0, y := 0 } : FileData).children
        ≠ [] ∧
    ((∀ q ∈ (["a/x.js", "a/y.js"] : List String),
        ∀ u, findNode (createFileDatas measureLen ["a/x.js", "a/y.js"]).1 q = some u →
          (0 : ℚ) ≤ u.y) ∧
      (∃ q ∈ (["a/x.js", "a/y.js"] : List String),
        ∃ u, findNode (createFileDatas measureLen ["a/x.js", "a/y.js"]).1 q = some u ∧
          u.y = (0 : ℚ))) :=
  ⟨by decide, by decide,
    claim_C3_amended measureLen ["a/x.js", "a/y.js"]
      { parent := none, children := ["a/x.js", "a/y.js"], type := FileType.Dir,
        path := "a", base := "a", level := 0, seq := 0, x := 0, y := 0 }
      (by decide) (by decide)⟩

/-- **C1.** No-overlap invariant: after layout, the sets of
y-coordinates occupied by the nodes of two distinct sibling subtrees (a
child together with all its descendants) are disjoint — no node of one
shares a row with any node of the other; likewise for the subtrees of
two distinct depth-0 nodes. -/
theorem claim_C1 (measure : String → ℚ) (paths : List String) :
    (∀ d ∈ (createFileDatas measure paths).1, ∀ q₁ ∈ d.children, ∀ q₂ ∈ d.children,
      q₁ ≠ q₂ → ∀ (f₁ f₂ : Nat),
        ∀ p₁ ∈ descPaths (createFileDatas measure paths).1 f₁ q₁,
          ∀ p₂ ∈ descPaths (createFileDatas measure paths).1 f₂ q₂,
            ∀ u₁ u₂, findNode (createFileDatas measure paths).1 p₁ = some u₁ →
              findNode (createFileDatas measure paths).1 p₂ = some u₂ → u₁.y ≠ u₂.y) ∧
    (∀ r₁ ∈ (createFileDatas measure paths).1, ∀ r₂ ∈ (createFileDatas measure paths).1,
      r₁.level = 0 → r₂.level = 0 → r₁ ≠ r₂ → ∀ (f₁ f₂ : Nat),
        ∀ p₁ ∈ descPaths (createFileDatas measure paths).1 f₁ r₁.path,
          ∀ p₂ ∈ descPaths (createFileDatas measure paths).1 f₂ r₂.path,
            ∀ u₁ u₂, findNode (createFileDatas measure paths).1 p₁ = some u₁ →
              findNode (createFileDatas measure paths).1 p₂ = some u₂ → u₁.y ≠ u₂.y) := by
  obtain ⟨hpos, hInvF, _, hHered, hRootSep, _⟩ := files_master measure paths
  have hInv₂ : Inv (assignSeqs (buildMap paths)) := (assignSeqs_pipeline paths).1
  have hdesc_eq : ∀ (f : Nat) (p : String),
      descPaths (createFileDatas measure paths).1 f p
        = descPaths (assignSeqs (buildMap paths)) f p :=
    fun f p => descPaths_sameShape hpos.sameShape f p
  have hfind_self : ∀ e ∈ (createFileDatas measure paths).1,
      findNode (createFileDatas measure paths).1 e.path = some e := fun e he =>
    findNode_of_mem_nodup hInvF.nodup he
  constructor
  · intro d hd q₁ hq₁ q₂ hq₂ hne f₁ f₂ p₁ hp₁ p₂ hp₂ u₁ u₂ hu₁ hu₂
    rw [hdesc_eq] at hp₁ hp₂
    obtain ⟨e₂, hfe₂, hE⟩ := samePos_find_back hpos (hfind_self d hd)
    have hsepAt := (hHered e₂ (findNode_eq_some hfe₂).1).1
    have hf2 : findNode (assignSeqs (buildMap paths)) e₂.path = some e₂ :=
      findNode_of_mem_nodup hInv₂.nodup (findNode_eq_some hfe₂).1
    have hch : d.children = e₂.children := hE.1.2.1
    have hq₁' : q₁ ∈ e₂.children := by rw [← hch]; exact hq₁
    have hq₂' : q₂ ∈ e₂.children := by rw [← hch]; exact hq₂
    rcases hsepAt e₂ hf2 q₁ hq₁' q₂ hq₂' hne with h | h
    · have := h f₁ f₂ p₁ p₂ hp₁ hp₂ u₁ u₂ hu₁ hu₂
      intro heq
      rw [heq] at this
      linarith
    · have := h f₂ f₁ p₂ p₁ hp₂ hp₁ u₂ u₁ hu₂ hu₁
      intro heq
      rw [heq] at this
      linarith
  · intro r₁ hr₁ r₂ hr₂ h01 h02 hne f₁ f₂ p₁ hp₁ p₂ hp₂ u₁ u₂ hu₁ hu₂
    rw [hdesc_eq] at hp₁ hp₂
    obtain ⟨ρ₁, hfρ₁, hE₁⟩ := samePos_find_back hpos (hfind_self r₁ hr₁)
    obtain ⟨ρ₂, hfρ₂, hE₂⟩ := samePos_find_back hpos (hfind_self r₂ hr₂)
    have hρ₁m : ρ₁ ∈ assignSeqs (buildMap paths) := (findNode_eq_some hfρ₁).1
    have hρ₂m : ρ₂ ∈ assignSeqs (buildMap paths) := (findNode_eq_some hfρ₂).1
    have hρ₁l : ρ₁.level = 0 := by rw [← hE₁.1.2.2.2.2]; exact h01
    have hρ₂l : ρ₂.level = 0 := by rw [← hE₂.1.2.2.2.2]; exact h02
    have hρne : ρ₁ ≠ ρ₂ := by
      intro h
      apply path_ne_of_ne hInvF.nodup hr₁ hr₂ hne
      rw [← (findNode_eq_some hfρ₁).2, ← (findNode_eq_some hfρ₂).2, h]
    have hpath₁ : ρ₁.path = r₁.path := (findNode_eq_some hfρ₁).2
    have hpath₂ : ρ₂.path = r₂.path := (findNode_eq_some hfρ₂).2
    rw [← hpath₁] at hp₁
    rw [← hpath₂] at hp₂
    rcases hRootSep ρ₁ hρ₁m ρ₂ hρ₂m hρ₁l hρ₂l hρne with h | h
    · have := h f₁ f₂ p₁ p₂ hp₁ hp₂ u₁ u₂ hu₁ hu₂
      intro heq
      rw [heq] at this
      linarith
    · have := h f₂ f₁ p₂ p₁ hp₂ hp₁ u₂ u₁ hu₂ hu₁
      intro heq
      rw [heq] at this
      linarith

unseal Rat.add Rat.mul Rat.sub Rat.inv Nat.gcd in
theorem claim_C1_witness :
    ({ parent := none, children := ["a/x.js", "a/y.js"], type := FileType.Dir,
       path := "a", base := "a", level := 0, seq := 0, x := 0, y := 0 } : FileData)
        ∈ (createFileDatas measureLen ["a/x.js", "a/y.js", "b.js"]).1 ∧
    ("a/x.js" : String) ∈ (["a/x.js", "a/y.js"] : List String) ∧
    ("a/y.js" : String) ∈ (["a/x.js", "a/y.js"] : List String) ∧
    ("a/x.js" : String) ≠ "a/y.js" ∧
    ("a/x.js" : String)
        ∈ descPaths (createFileDatas measureLen ["a/x.js", "a/y.js", "b.js"]).1 1 "a/x.js" ∧
    ("a/y.js" : String)
        ∈ descPaths (createFileDatas measureLen ["a/x.js", "a/y.js", "b.js"]).1 1 "a/y.js" ∧
    findNode (createFileDatas measureLen ["a/x.js", "a/y.js", "b.js"]).1 "a/x.js"
        = some { parent := some "a", children := [], type := FileType.Js, path := "a/x.js",
                 base := "x.js", level := 1, seq := 0, x := 110, y := 0 } ∧
    findNode (createFileDatas measureLen ["a/x.js", "a/y.js", "b.js"]).1 "a/y.js"
        = some { parent := some "a", children := [], type := FileType.Js, path := "a/y.js",
                 base := "y.js", level := 1, seq := 1, x := 110, y := 48 } ∧
    ({ parent := some "a", children := [], type := FileType.Js, path := "a/x.js",
       base := "x.js", level := 1, seq := 0, x := 110, y := 0 } : FileData).y
      ≠ ({ parent := some "a", children := [], type := FileType.Js, path := "a/y.js",
           base := "y.js", level := 1, seq := 1, x := 110, y := 48 } : FileData).y := by
  refine ⟨?ha, ?h1, ?h2, ?h3, ?h4, ?h5, ?h6, ?h7, ?_⟩
  case ha => decide
  case h1 => decide
  case h2 => decide
  case h3 => decide
  case h4 => decide
  case h5 => decide
  case h6 => decide
  case h7 => decide
  exact (claim_C1 measureLen ["a/x.js", "a/y.js", "b.js"]).1
    { parent := none, children := ["a/x.js", "a/y.js"], type := FileType.Dir,
      path := "a", base := "a", level := 0, seq := 0, x := 0, y := 0 }
    (by decide) "a/x.js" (by decide) "a/y.js" (by decide) (by decide) 1 1
    "a/x.js" (by decide) "a/y.js" (by decide) _ _ (by decide) (by decide)

/-- **C9.** For every node with children, the emitted connector is: a
lead from the parent's right edge, a single vertical trunk whose x sits
exactly centered between the parent box's right edge
(`x + measured width + 40`) and the children's shared left edge
(all resolved children have one x), spanning from the parent's row
center down to the lowest child's row center, and one horizontal stub
per child at that child's row center. -/
theorem claim_C9 (measure : String → ℚ) (paths : List String) :
    ∀ d ∈ (createFileDatas measure paths).1, d.children ≠ [] →
      ∃ k0 rest,
        d.children.filterMap (findNode (createFileDatas measure paths).1) = k0 :: rest ∧
        (∀ c ∈ k0 :: rest, c.x = k0.x) ∧
        connectorOf measure (createFileDatas measure paths).1 d.path
          = [PathCmd.move (d.x + measure d.base + 40 + 5) (d.y + 16),
             PathCmd.line ((d.x + measure d.base + 40 + 5 + (k0.x - 5)) / 2) (d.y + 16),
             PathCmd.line ((d.x + measure d.base + 40 + 5 + (k0.x - 5)) / 2)
               (listMax k0.y (rest.map (fun c => c.y)) + 16)]
            ++ (k0 :: rest).flatMap (fun c =>
                [PathCmd.move ((d.x + measure d.base + 40 + 5 + (k0.x - 5)) / 2) (c.y + 16),
                 PathCmd.line (k0.x - 5) (c.y + 16)]) ∧
        (d.x + measure d.base + 40 + 5 + (k0.x - 5)) / 2 - (d.x + measure d.base + 40)
          = k0.x - (d.x + measure d.base + 40 + 5 + (k0.x - 5)) / 2 ∧
        (∀ c ∈ k0 :: rest, c.y + 16 ≤ listMax k0.y (rest.map (fun c => c.y)) + 16) ∧
        (∃ c ∈ k0 :: rest, c.y + 16 = listMax k0.y (rest.map (fun c => c.y)) + 16) ∧
        d.y + 16 ≤ listMax k0.y (rest.map (fun c => c.y)) + 16 := by
  intro d hd hne
  obtain ⟨hpos, hInvF, hAll, hHered, _, _⟩ := files_master measure paths
  have hInv₂ : Inv (assignSeqs (buildMap paths)) := (assignSeqs_pipeline paths).1
  have hfind_self : ∀ e ∈ (createFileDatas measure paths).1,
      findNode (createFileDatas measure paths).1 e.path = some e := fun e he =>
    findNode_of_mem_nodup hInvF.nodup he
  obtain ⟨e₂, hfe₂, hE⟩ := samePos_find_back hpos (hfind_self d hd)
  have he₂m : e₂ ∈ assignSeqs (buildMap paths) := (findNode_eq_some hfe₂).1
  have hch : d.children = e₂.children := hE.1.2.1
  have hkidx : ∀ c ∈ d.children.filterMap (findNode (createFileDatas measure paths).1),
      c.x = (levelOffsets measure (assignSeqs (buildMap paths))).getD (e₂.level + 1) 0 := by
    intro c hc
    obtain ⟨q, hq, hfq⟩ := List.mem_filterMap.1 hc
    have hq' : q ∈ e₂.children := by rw [← hch]; exact hq
    obtain ⟨q₂, hfq₂, hq₂m, hlev, _, _⟩ := child_find hInv₂ he₂m hq'
    obtain ⟨u', hfu', _, hux', _⟩ := hAll q₂ hq₂m
    have hcu : u' = c := by
      have h := hfq
      rw [← (findNode_eq_some hfq₂).2] at h
      rw [hfu'] at h
      exact Option.some.inj h
    rw [← hcu, hux', hlev]
  have hf2 : findNode (assignSeqs (buildMap paths)) e₂.path = some e₂ :=
    findNode_of_mem_nodup hInv₂.nodup he₂m
  have hfd : findNode (createFileDatas measure paths).1 e₂.path = some d := by
    rw [(findNode_eq_some hfe₂).2]
    exact hfind_self d hd
  have hkidsAt := (hHered e₂ he₂m).2 e₂ hf2 d hfd
  have hdy : ∀ c ∈ d.children.filterMap (findNode (createFileDatas measure paths).1),
      d.y ≤ c.y := by
    intro c hc
    obtain ⟨q, hq, hfq⟩ := List.mem_filterMap.1 hc
    refine hkidsAt.1 q ?_ c hfq
    rw [← hch]
    exact hq
  rcases hchl : d.children with _ | ⟨q0, ch'⟩
  · exact absurd hchl hne
  · rw [hchl] at hkidx hdy
    have hq0' : q0 ∈ e₂.children := by
      rw [← hch, hchl]
      exact List.mem_cons_self _ _
    obtain ⟨q₂, hfq₂, hq₂m, _, _, _⟩ := child_find hInv₂ he₂m hq0'
    obtain ⟨u0, hfu0, _⟩ := samePos_find_some hpos hfq₂
    have hkid : (q0 :: ch').filterMap (findNode (createFileDatas measure paths).1)
        = u0 :: ch'.filterMap (findNode (createFileDatas measure paths).1) := by
      rw [List.filterMap_cons, hfu0]
    refine ⟨u0, ch'.filterMap (findNode (createFileDatas measure paths).1), hkid,
      ?_, ?_, ?_, ?_, ?_, ?_⟩
    · intro c hc
      rw [← hkid] at hc
      rw [hkidx c hc, hkidx u0 (by rw [hkid]; exact List.mem_cons_self _ _)]
    · have hconn : connectorOf measure (createFileDatas measure paths).1 d.path
          = connector measure d
              (d.children.filterMap (findNode (createFileDatas measure paths).1)) := by
        unfold connectorOf
        rw [hfind_self d hd]
      rw [hconn, hchl, hkid]
      rfl
    · ring
    · intro c hc
      obtain ⟨h1, h2, _⟩ := listMax_spec
        (List.map (fun c => c.y)
          (ch'.filterMap (findNode (createFileDatas measure paths).1))) u0.y
      rcases List.mem_cons.1 hc with h | h
      · rw [h]
        linarith
      · have hm : c.y ∈ List.map (fun c => c.y)
            (ch'.filterMap (findNode (createFileDatas measure paths).1)) :=
          List.mem_map.2 ⟨c, h, rfl⟩
        linarith [h2 c.y hm]
    · obtain ⟨h1, h2, h3⟩ := listMax_spec
        (List.map (fun c => c.y)
          (ch'.filterMap (findNode (createFileDatas measure paths).1))) u0.y
      rcases h3 with h | h
      · exact ⟨u0, List.mem_cons_self _ _, by rw [h]⟩
      · obtain ⟨c, hc, hcy⟩ := List.mem_map.1 h
        exact ⟨c, List.mem_cons_of_mem _ hc, by rw [← hcy]⟩
    · obtain ⟨h1, _, _⟩ := listMax_spec
        (List.map (fun c => c.y)
          (ch'.filterMap (findNode (createFileDatas measure paths).1))) u0.y
      have hd0 : d.y ≤ u0.y := hdy u0 (by rw [hkid]; exact List.mem_cons_self _ _)
      linarith

unseal Rat.add Rat.mul Rat.sub Rat.inv Nat.gcd in
theorem claim_C9_witness :
    ({ parent := none, children := ["a/x.js", "a/y.js"], type := FileType.Dir,
       path := "a", base := "a", level := 0, seq := 0, x := 0, y := 0 } : FileData)
        ∈ (createFileDatas measureLen ["a/x.js", "a/y.js"]).1 ∧
    ({ parent := none, children := ["a/x.js", "a/y.js"], type := FileType.Dir,
       path := "a", base := "a", level := 0, seq := 0, x := 0, y := 0 } : FileData).children
        ≠ [] ∧
    (∃ k0 rest,
      (["a/x.js", "a/y.js"] : List String).filterMap
          (findNode (createFileDatas measureLen ["a/x.js", "a/y.js"]).1) = k0 :: rest ∧
      (∀ c ∈ k0 :: rest, c.x = k0.x) ∧
      connectorOf measureLen (createFileDatas measureLen ["a/x.js", "a/y.js"]).1 "a"
        = [PathCmd.move ((0 : ℚ) + measureLen "a" + 40 + 5) ((0 : ℚ) + 16),
           PathCmd.line (((0 : ℚ) + measureLen "a" + 40 + 5 + (k0.x - 5)) / 2) ((0 : ℚ) + 16),
           PathCmd.line (((0 : ℚ) + measureLen "a" + 40 + 5 + (k0.x - 5)) / 2)
             (listMax k0.y (rest.map (fun c => c.y)) + 16)]
          ++ (k0 :: rest).flatMap (fun c =>
              [PathCmd.move (((0 : ℚ) + measureLen "a" + 40 + 5 + (k0.x - 5)) / 2) (c.y + 16),
               PathCmd.line (k0.x - 5) (c.y + 16)]) ∧
      ((0 : ℚ) + measureLen "a" + 40 + 5 + (k0.x - 5)) / 2 - ((0 : ℚ) + measureLen "a" + 40)
        = k0.x - ((0 : ℚ) + measureLen "a" + 40 + 5 + (k0.x - 5)) / 2 ∧
      (∀ c ∈ k0 :: rest, c.y + 16 ≤ listMax k0.y (rest.map (fun c => c.y)) + 16) ∧
      (∃ c ∈ k0 :: rest, c.y + 16 = listMax k0.y (rest.map (fun c => c.y)) + 16) ∧
      (0 : ℚ) + 16 ≤ listMax k0.y (rest.map (fun c => c.y)) + 16) :=
  ⟨by decide, by decide,
    claim_C9 measureLen ["a/x.js", "a/y.js"]
      { parent := none, children := ["a/x.js", "a/y.js"], type := FileType.Dir,
        path := "a", base := "a", level := 0, seq := 0, x := 0, y := 0 }
      (by decide) (by decide)⟩

end WebViz
